import Mathlib

/-!
Shallow embedding of `src/controller.py` (class `ShardHandler`) from the
sharding-demo repository, together with proofs settling the frozen claims
about its specification.

Modelling conventions:
* Python strings are `List Char` (`Str` below); comparison and sorting are
  lexicographic by code point, as in CPython.
* The in-memory mapping (a Python `dict`) is an insertion-ordered
  association list, matching CPython dict semantics (`dictSet` replaces in
  place, otherwise appends; `dictPop` removes).
* The `./data` directory is an association list of (file name, content);
  its list order is the `os.listdir` order, which is part of the state.
* The persisted `mapping.json` is the `mapfile` field; `write_map` stores
  `mapping` there and `load_map` reads it back.
* Fallible Python code (exceptions) is modelled with `Except`.  Mutating
  methods return `Except (Err × SH) SH`: an exception carries the state at
  the moment it is raised, since the Python object keeps all mutations
  performed before the raise.
-/

set_option maxHeartbeats 1000000

namespace ShardingDemo

/-- Python strings, modelled as lists of characters. -/
abbrev Str := List Char

/-- Write a modelled Python string using Lean string literal syntax. -/
def str (s : String) : Str := s.data

/-- Lexicographic `<` on Python strings (by code point), as used by `sorted`. -/
def strLtB : Str → Str → Bool
  | [], [] => false
  | [], _ :: _ => true
  | _ :: _, [] => false
  | a :: as, b :: bs =>
    if a.toNat < b.toNat then true
    else if b.toNat < a.toNat then false
    else strLtB as bs

/-- Insert into an ascending list (helper for `sorted`). -/
def sortInsert (a : Str) : List Str → List Str
  | [] => [a]
  | b :: bs => if strLtB a b then a :: b :: bs else b :: sortInsert a bs

/-- Python `sorted` on a list of strings. -/
def sortStr (l : List Str) : List Str := l.foldr sortInsert []

/-- Decimal digit character (arguments are always `< 10`). -/
def digitChar : Nat → Char
  | 0 => '0' | 1 => '1' | 2 => '2' | 3 => '3' | 4 => '4'
  | 5 => '5' | 6 => '6' | 7 => '7' | 8 => '8' | _ => '9'

/-- Fuel-driven decimal conversion (fuel `n + 1` always suffices). -/
def toDigitsAux : Nat → Nat → Str
  | 0, _ => []
  | fuel + 1, n =>
    if n < 10 then [digitChar n]
    else toDigitsAux fuel (n / 10) ++ [digitChar (n % 10)]

/-- Python `str` of a non-negative integer. -/
def natStr (n : Nat) : Str := toDigitsAux (n + 1) n

/-- Python `str` of an integer (negative numbers get a leading minus). -/
def intStr (i : Int) : Str := if i < 0 then '-' :: natStr i.natAbs else natStr i.toNat

/-- Decimal digit test. -/
def isDigit (c : Char) : Bool := 48 ≤ c.toNat && c.toNat ≤ 57

/-- Python `int(s)`: `some` on the non-empty all-digit strings that occur as
shard ids, replication levels and file-name stems; `none` models the
`ValueError` raised on anything else. -/
def parseNat? (s : Str) : Option Nat :=
  if s ≠ [] ∧ s.all isDigit then
    some (s.foldl (fun a c => a * 10 + (c.toNat - 48)) 0)
  else none

/-- Python `s.split(c)[0]`: the prefix before the first occurrence of `c`
(the whole string when `c` does not occur). -/
def headSplit (c : Char) (s : Str) : Str := s.takeWhile (fun d => d != c)

/-- Python `s.split(c)[1]`: between the first and second occurrence of `c`.
Call sites in the source only use it when `c` occurs in `s`. -/
def secondSplit (c : Char) (s : Str) : Str :=
  ((s.dropWhile (fun d => d != c)).drop 1).takeWhile (fun d => d != c)

/-- Python `'-' in s`. -/
def hasDash (s : Str) : Bool := s.contains '-'

/-- Python `text[i]` with negative-index wrap-around; `none` is `IndexError`. -/
def pyIndex (text : Str) (i : Int) : Option Char :=
  let j : Int := if i < 0 then (text.length : Int) + i else i
  if 0 ≤ j then text.get? j.toNat else none

/-- Python `data[a:b]` for `0 ≤ a ≤ b` (the only shape used by the source). -/
def pySlice (data : Str) (a b : Nat) : Str := (data.take b).drop a

/-- Lookup in a Python dict / directory modelled as an association list. -/
def lookupA {α : Type} : List (Str × α) → Str → Option α
  | [], _ => none
  | (k, v) :: rest, key => if k == key then some v else lookupA rest key

/-- Python `d[key] = v`: replace in place if present, else append. -/
def dictSet {α : Type} : List (Str × α) → Str → α → List (Str × α)
  | [], key, v => [(key, v)]
  | (k, w) :: rest, key, v =>
    if k == key then (k, v) :: rest else (k, w) :: dictSet rest key v

/-- Python `d.pop(key)` (ignoring the returned value). -/
def dictPop {α : Type} : List (Str × α) → Str → List (Str × α)
  | [], _ => []
  | (k, w) :: rest, key => if k == key then rest else (k, w) :: dictPop rest key

/-- One entry of `self.mapping`: the Python dict `{'start': .., 'end': ..}`.
`end` is a Lean keyword, so the second field is called `stop`. -/
structure MapEntry where
  start : Nat
  stop : Nat
deriving DecidableEq, Repr

/-- Python exceptions raised by the source. -/
inductive Err
  | zeroDivision
  | indexError
  | keyError
  | valueError
  | fileNotFound
  | exception (msg : Str)
deriving DecidableEq, Repr

/-- The state of a `ShardHandler` instance together with its environment:
the in-memory `mapping`, the `./data` directory (in listing order), the
persisted `mapping.json` (`mapfile`), `replication_level` and
`last_char_position`. -/
structure SH where
  mapping : List (Str × MapEntry)
  files : List (Str × Str)
  mapfile : List (Str × MapEntry)
  replication_level : Nat
  last_char_position : Nat
deriving DecidableEq, Repr

/-- `get_shard_ids` (controller.py line 50): sorted mapping keys without a dash. -/
def get_shard_ids (s : SH) : List Str :=
  sortStr ((s.mapping.map Prod.fst).filter (fun k => !(hasDash k)))

/-- `get_replication_ids` (line 53): sorted mapping keys with a dash. -/
def get_replication_ids (s : SH) : List Str :=
  sortStr ((s.mapping.map Prod.fst).filter (fun k => hasDash k))

/-- `write_map` (line 35): persist the mapping. -/
def write_map (s : SH) : SH := { s with mapfile := s.mapping }

/-- `_generate_sharded_data` (lines 115-126).  `divmod(len(data), count)`
raises `ZeroDivisionError` for `count = 0`; for `count < 0` the Python
floor-mod is `≤ 0` and `range(count)` is empty, so the result is `[]`.
For `count > 0` both `splicenum` and the slice bounds are non-negative,
so `.toNat` is exact.  `result[-1] += data[-rem:]` appends the trailing
`rem` characters to the last slice (`IndexError` on an empty list is
unreachable but modelled). -/
def _generate_sharded_data (count : Int) (data : Str) : Except Err (List Str) :=
  if count == 0 then .error .zeroDivision
  else
    let L : Int := (data.length : Int)
    let splicenum : Int := L.fdiv count
    let rem : Int := L.fmod count
    let result := (List.range count.toNat).map
      (fun z => pySlice data (splicenum.toNat * z) (splicenum.toNat * (z + 1)))
    if 0 < rem then
      match result.getLast? with
      | none => .error .indexError
      | some lastPiece =>
          .ok (result.dropLast ++ [lastPiece ++ data.drop (data.length - rem.toNat)])
    else .ok result

/-- `_write_shard_mapping` (lines 70-104), non-replication branch.  The
`replication=True` branch has no caller in the source and is not modelled.
Callers always pass `str(num)` of an `enumerate` index, so the argument is
taken as the number itself; `int(num) == 0` resets `last_char_position`. -/
def _write_shard_mapping (num : Nat) (data : Str) (s : SH) : SH :=
  let s1 := if num == 0 then { s with last_char_position := 0 } else s
  let startv := if s1.last_char_position == 0 then s1.last_char_position
                else s1.last_char_position + 1
  { s1 with
    mapping := dictSet s1.mapping (natStr num)
      ⟨startv, s1.last_char_position + data.length⟩,
    last_char_position := s1.last_char_position + data.length }

/-- `_write_shard` (lines 106-113): write `data/{num}.txt`, then the mapping. -/
def _write_shard (num : Nat) (data : Str) (s : SH) : SH :=
  _write_shard_mapping num data
    { s with files := dictSet s.files (natStr num ++ str ".txt") data }

/-- The `for num, d in enumerate(spliced_data): self._write_shard(num, d)`
loop shared by `build_shards`, `add_shard` and `remove_shard`. -/
def writeShards : Nat → List Str → SH → SH
  | _, [], s => s
  | num, d :: ds, s => writeShards (num + 1) ds (_write_shard num d s)

/-- `build_shards` (lines 56-68): advisory string when a mapping exists,
otherwise split, write every shard, persist the map. -/
def build_shards (count : Int) (data : Str) (s : SH) :
    Except Err (Option Str × SH) :=
  if s.mapping ≠ [] then
    .ok (some (str "Cannot build shard setup -- sharding already exists."), s)
  else
    match _generate_sharded_data count data with
    | .error e => .error e
    | .ok spliced => .ok (none, write_map (writeShards 0 spliced s))

/-- The read loop of `load_data_from_shards` (lines 128-135): a missing
shard file is `FileNotFoundError`. -/
def loadLoop (s : SH) : List Str → Str → Except Err Str
  | [], acc => .ok acc
  | db :: rest, acc =>
    match lookupA s.files (db ++ str ".txt") with
    | none => .error .fileNotFound
    | some c => loadLoop s rest (acc ++ c)

/-- `load_data_from_shards` (lines 128-135). -/
def load_data_from_shards (s : SH) : Except Err Str :=
  loadLoop s (get_shard_ids s) []

/-- `shutil.copyfile` inside `./data`: read the source blob, write the
destination blob. -/
def copyfile (src dst : Str) (s : SH) : Except Err SH :=
  match lookupA s.files src with
  | none => .error .fileNotFound
  | some c => .ok { s with files := dictSet s.files dst c }

/-- Python `file.split('.')[0]`. -/
def splitDotZero (f : Str) : Str := headSplit '.' f

/-- `primary_files_okay` (lines 267-274): the sorted list of dash-free file
names must match the sorted primary mapping keys pairwise by stem, with
equal lengths. -/
def primary_files_okay (s : SH) : Bool :=
  let primary_keys := get_shard_ids s
  let primary_files := sortStr ((s.files.map Prod.fst).filter (fun f => !(hasDash f)))
  ((primary_files.zip primary_keys).all (fun fk => splitDotZero fk.1 == fk.2)) &&
    primary_files.length == primary_keys.length

/-- Append `key` to the group of level `lv` (insertion-ordered dict of
lists, as built by `create_replication_dict`). -/
def addToGroups (groups : List (Nat × List Str)) (lv : Nat) (key : Str) :
    List (Nat × List Str) :=
  match groups with
  | [] => [(lv, [key])]
  | (l, ks) :: rest =>
    if l == lv then (l, ks ++ [key]) :: rest else (l, ks) :: addToGroups rest lv key

/-- The grouping loop of `create_replication_dict` (lines 276-284);
`int(key.split('-')[1])` may raise `ValueError`. -/
def groupLoop : List Str → List (Nat × List Str) → Except Err (List (Nat × List Str))
  | [], acc => .ok acc
  | key :: rest, acc =>
    match parseNat? (secondSplit '-' key) with
    | none => .error .valueError
    | some lv => groupLoop rest (addToGroups acc lv key)

/-- `create_replication_dict` (lines 276-284). -/
def create_replication_dict (s : SH) : Except Err (List (Nat × List Str)) :=
  groupLoop (get_replication_ids s) []

/-- In `rep_level_has_same_keys` the source compares the `int` `level`
against `filename.split('-')[1]`, a string ending in `".txt"`.  Python `==`
between an `int` and a `str` never coerces, so the comparison is always
`False`. -/
def intEqStr (_ : Nat) (_ : Str) : Bool := false

/-- `rep_level_has_same_keys` (lines 286-298). -/
def rep_level_has_same_keys (s : SH) (rep_keys primary_keys : List Str)
    (level : Nat) : Bool :=
  if rep_keys.length != primary_keys.length then false
  else if (rep_keys.zip primary_keys).any (fun rp => headSplit '-' rp.1 != rp.2) then
    false
  else
    let dashed := (s.files.map Prod.fst).filter hasDash
    let level_files := dashed.filter (fun f => intEqStr level (secondSplit '-' f))
    if level_files.length != primary_keys.length then false else true

/-- First loop of `update_replicated_levels` (lines 301-303): refresh every
replica entry from its primary entry (`KeyError` if the primary key is
missing). -/
def refreshLoop : List Str → SH → Except (Err × SH) SH
  | [], s => .ok s
  | key :: rest, s =>
    match lookupA s.mapping (headSplit '-' key) with
    | none => .error (.keyError, s)
    | some v => refreshLoop rest { s with mapping := dictSet s.mapping key v }

/-- Inner loop of the regeneration branch (lines 307-311): for every primary
key, copy its mapping entry and its blob into the replica slot of `level`. -/
def regenPrimLoop (level : Nat) : List Str → SH → Except (Err × SH) SH
  | [], s => .ok s
  | p :: rest, s =>
    match lookupA s.mapping p with
    | none => .error (.keyError, s)
    | some v =>
      let s1 := { s with mapping := dictSet s.mapping (p ++ '-' :: natStr level) v }
      match copyfile (p ++ str ".txt") (p ++ '-' :: natStr level ++ str ".txt") s1 with
      | .error e => .error (e, s1)
      | .ok s2 => regenPrimLoop level rest s2

/-- Outer loop of `update_replicated_levels` (lines 305-311) over the level
groups of `create_replication_dict`. -/
def regenLevelsLoop (primary_keys : List Str) :
    List (Nat × List Str) → SH → Except (Err × SH) SH
  | [], s => .ok s
  | (level, keys) :: rest, s =>
    if rep_level_has_same_keys s keys primary_keys level then
      regenLevelsLoop primary_keys rest s
    else
      match regenPrimLoop level primary_keys s with
      | .error e => .error e
      | .ok s1 => regenLevelsLoop primary_keys rest s1

/-- `update_replicated_levels` (lines 300-312). -/
def update_replicated_levels (s : SH) : Except (Err × SH) SH :=
  match refreshLoop (get_replication_ids s) s with
  | .error e => .error e
  | .ok s1 =>
    let primary_keys := get_shard_ids s1
    match create_replication_dict s1 with
    | .error e => .error (e, s1)
    | .ok groups =>
      match regenLevelsLoop primary_keys groups s1 with
      | .error e => .error e
      | .ok s2 => .ok (write_map s2)

/-- `max` over a list of naturals; Python `max([])` raises `ValueError`. -/
def maxList : List Nat → Except Err Nat
  | [] => .error .valueError
  | x :: xs => .ok (xs.foldl Nat.max x)

/-- Parse `f` applied to every element with `int(...)`. -/
def mapParse (f : Str → Str) : List Str → Except Err (List Nat)
  | [] => .ok []
  | x :: xs =>
    match parseNat? (f x) with
    | none => .error .valueError
    | some n =>
      match mapParse f xs with
      | .error e => .error e
      | .ok ns => .ok (n :: ns)

/-- Inner search of `restore_primary_files` (lines 340-346): the first
replica whose shard-id component is `i` is copied onto `data/{i}.txt`. -/
def findCopyOther (i : Nat) : List Str → SH → Except (Err × SH) SH
  | [], s => .ok s
  | f :: rest, s =>
    match parseNat? (headSplit '-' f) with
    | none => .error (.valueError, s)
    | some m =>
      if m == i then
        match copyfile f (natStr i ++ str ".txt") s with
        | .error e => .error (e, s)
        | .ok s1 => .ok s1
      else findCopyOther i rest s

/-- The `for i, file in enumerate(primary_files)` repair loop of
`restore_primary_files` (lines 338-346). -/
def enumFixLoop (others : List Str) : Nat → List Str → SH → Except (Err × SH) SH
  | _, [], s => .ok s
  | i, f :: rest, s =>
    match parseNat? (splitDotZero f) with
    | none => .error (.valueError, s)
    | some m =>
      if i != m then
        match findCopyOther i others s with
        | .error e => .error e
        | .ok s1 => enumFixLoop others (i + 1) rest s1
      else enumFixLoop others (i + 1) rest s

/-- The `if not primary_files or last_primary_file_num < other_files_num`
branch of `restore_primary_files` (lines 330-337): `other_files[-1]` — the
last replica in directory-listing order — is the blob copied onto
`data/{max replica shard id}.txt`. -/
def restoreCopyNew (needNew : Bool) (other_files : List Str) (ofn : Nat)
    (s : SH) : Except (Err × SH) SH :=
  if needNew then
    match other_files.getLast? with
    | none => .error (.indexError, s)
    | some lastOther =>
      match copyfile lastOther (natStr ofn ++ str ".txt") s with
      | .error e => .error (e, s)
      | .ok s1 => .ok s1
  else .ok s

/-- The test `not primary_files or last_primary_file_num < other_files_num`
of line 333, with `last_primary_file_num = max(primary_file_numbers)`. -/
def needsNewPrimary (primary_nums : List Nat) (ofn : Nat) : Bool :=
  match primary_nums with
  | [] => true
  | x :: xs => decide (xs.foldl Nat.max x < ofn)

/-- One iteration of the `restore_primary_files` healing loop (lines
318-346). -/
def restoreBody (s : SH) : Except (Err × SH) SH :=
  let names := s.files.map Prod.fst
  let primary_files := names.filter (fun f => !(hasDash f))
  let other_files := names.filter hasDash
  match mapParse splitDotZero primary_files with
  | .error e => .error (e, s)
  | .ok primary_nums =>
    match mapParse (headSplit '-') other_files with
    | .error e => .error (e, s)
    | .ok other_nums =>
      match maxList other_nums with
      | .error e => .error (e, s)
      | .ok other_files_num =>
        match restoreCopyNew (needsNewPrimary primary_nums other_files_num)
            other_files other_files_num s with
        | .error e => .error e
        | .ok s1 => enumFixLoop other_files 0 primary_files s1

/-- The bounded `while not okay and x > 0` loop of `restore_primary_files`
(lines 316-348), with the final unrecoverable-data check. -/
def restoreGo : Nat → SH → Except (Err × SH) SH
  | 0, s =>
    if primary_files_okay s then .ok s
    else .error (.exception (str "Missing files cannot be recoved"), s)
  | x + 1, s =>
    if primary_files_okay s then .ok s
    else
      match restoreBody s with
      | .error e => .error e
      | .ok s1 => restoreGo x s1

/-- `restore_primary_files` (lines 314-348): the retry budget is the number
of files in `./data`. -/
def restore_primary_files (s : SH) : Except (Err × SH) SH :=
  restoreGo s.files.length s

/-- `sync_replication` (lines 350-356). -/
def sync_replication (s : SH) : Except (Err × SH) SH :=
  match (if primary_files_okay s then Except.ok s else restore_primary_files s) with
  | .error e => .error e
  | .ok s1 => update_replicated_levels s1

/-- `add_shard` (lines 137-154): sync, reload the map, reassemble the text,
re-split into `max(keys) + 2` pieces, rewrite every shard, persist, sync. -/
def add_shard (s : SH) : Except (Err × SH) SH :=
  match sync_replication s with
  | .error e => .error e
  | .ok s0 =>
  let s1 : SH := { s0 with mapping := s0.mapfile }
  match load_data_from_shards s1 with
  | .error e => .error (e, s1)
  | .ok data =>
  match mapParse id (get_shard_ids s1) with
  | .error e => .error (e, s1)
  | .ok keys =>
  match maxList keys with
  | .error e => .error (e, s1)
  | .ok mx =>
  match _generate_sharded_data ((mx + 2 : Nat) : Int) data with
  | .error e => .error (e, s1)
  | .ok spliced => sync_replication (write_map (writeShards 0 spliced s1))

/-- `remove_shard` (lines 156-193): sync, reload, reassemble; raise on a
single shard; re-split into `max(keys)` pieces, delete the files and
mapping entries numbered `max(keys)`, rewrite, persist, sync. -/
def remove_shard (s : SH) : Except (Err × SH) SH :=
  match sync_replication s with
  | .error e => .error e
  | .ok s0 =>
  let s1 : SH := { s0 with mapping := s0.mapfile }
  match load_data_from_shards s1 with
  | .error e => .error (e, s1)
  | .ok data =>
  match mapParse id (get_shard_ids s1) with
  | .error e => .error (e, s1)
  | .ok keys =>
  if keys.length == 1 then .error (.exception (str "Cannot remove last shard"), s1)
  else
  match maxList keys with
  | .error e => .error (e, s1)
  | .ok mx =>
  match _generate_sharded_data ((mx : Nat) : Int) data with
  | .error e => .error (e, s1)
  | .ok spliced =>
  let s2 : SH := { s1 with files := s1.files.filter (fun fc =>
      !(if !(hasDash fc.1) then splitDotZero fc.1 == natStr mx
        else headSplit '-' fc.1 == natStr mx)) }
  let s3 : SH := { s2 with mapping := s2.mapping.filter (fun kv =>
      !(if !(hasDash kv.1) then kv.1 == natStr mx
        else headSplit '-' kv.1 == natStr mx)) }
  sync_replication (write_map (writeShards 0 spliced s3))

/-- The deletion loop of `remove_replication` (lines 252-254): pop the
mapping entry and `os.remove` the blob (`FileNotFoundError` if absent). -/
def removeRepLoop : List Str → SH → Except (Err × SH) SH
  | [], s => .ok s
  | key :: rest, s =>
    let s1 : SH := { s with mapping := dictPop s.mapping key }
    if (s1.files.map Prod.fst).contains (key ++ str ".txt") then
      removeRepLoop rest
        { s1 with files := s1.files.filter (fun fc => fc.1 != key ++ str ".txt") }
    else .error (.fileNotFound, s1)

/-- The `backup_keys` comprehension of `remove_replication` (lines 250-251):
replica ids whose level exceeds the new `replication_level`. -/
def filterLevelGt (lvl : Nat) : List Str → Except Err (List Str)
  | [] => .ok []
  | k :: ks =>
    match parseNat? (secondSplit '-' k) with
    | none => .error .valueError
    | some l =>
      match filterLevelGt lvl ks with
      | .error e => .error e
      | .ok rest => .ok (if lvl < l then k :: rest else rest)

/-- `remove_replication` (lines 225-256). -/
def remove_replication (s : SH) : Except (Err × SH) SH :=
  match sync_replication s with
  | .error e => .error e
  | .ok s0 =>
  if s0.replication_level == 0 then
    .error (.exception (str "No replication levels to remove."), s0)
  else
  let s1 : SH := { s0 with replication_level := s0.replication_level - 1 }
  match filterLevelGt s1.replication_level (get_replication_ids s1) with
  | .error e => .error (e, s1)
  | .ok bkeys =>
  match removeRepLoop bkeys s1 with
  | .error e => .error e
  | .ok s2 => sync_replication (write_map s2)

/-- The punctuation set `' ,.?!";'` of `get_word_at_index`. -/
def punct : Str := str " ,.?!\";"

/-- The leading-punctuation skip loop (lines 383-386); the initial
`text[new_index]` indexing happens before the first test. -/
def skipPunct (text : Str) : Nat → Nat → Except Err Nat
  | 0, _ => .error .indexError
  | fuel + 1, i =>
    match pyIndex text (i : Int) with
    | none => .error .indexError
    | some c => if punct.contains c then skipPunct text fuel (i + 1) else .ok i

/-- The leftward expansion loop (lines 390-393): while the current position
is not 0 and its character is not a space, step left and prepend. -/
def beforeLoop (text : Str) : Nat → Nat → Str → Except Err (Nat × Str)
  | 0, _, _ => .error .indexError
  | fuel + 1, bi, st =>
    if bi == 0 then .ok (bi, st)
    else
      match pyIndex text (bi : Int) with
      | none => .error .indexError
      | some c =>
        if c == ' ' then .ok (bi, st)
        else
          match pyIndex text ((bi - 1 : Nat) : Int) with
          | none => .error .indexError
          | some c2 => beforeLoop text fuel (bi - 1) (c2 :: st)

/-- The rightward expansion loop (lines 398-402). -/
def afterLoop (text : Str) : Nat → Nat → Str → Except Err (Nat × Str)
  | 0, _, _ => .error .indexError
  | fuel + 1, ai, st =>
    if (ai : Int) == (text.length : Int) - 1 then .ok (ai, st)
    else
      match pyIndex text (ai : Int) with
      | none => .error .indexError
      | some c =>
        if c == ' ' then .ok (ai, st)
        else
          match pyIndex text ((ai + 1 : Nat) : Int) with
          | none => .error .indexError
          | some c2 => afterLoop text fuel (ai + 1) (st ++ [c2])

/-- The backward scan of `from_previous_file` (lines 412-422); Python's
negative indices wrap, so a space-free file ends in `IndexError` after
roughly `2 · len` steps. -/
def prevLoop (text : Str) : Nat → Int → Str → Except Err Str
  | 0, _, _ => .error .indexError
  | fuel + 1, li, acc =>
    match pyIndex text li with
    | none => .error .indexError
    | some c => if c == ' ' then .ok acc else prevLoop text fuel (li - 1) (c :: acc)

/-- `from_previous_file` (lines 412-422). -/
def from_previous_file (s : SH) (file : Str) : Except Err Str :=
  match lookupA s.files file with
  | none => .error .fileNotFound
  | some text => prevLoop text (2 * text.length + 2) ((text.length : Int) - 1) []

/-- The forward scan of `from_following_file` (lines 424-434). -/
def nextLoop (text : Str) : Nat → Nat → Str → Except Err Str
  | 0, _, _ => .error .indexError
  | fuel + 1, fi, acc =>
    match pyIndex text (fi : Int) with
    | none => .error .indexError
    | some c => if c == ' ' then .ok acc else nextLoop text fuel (fi + 1) (acc ++ [c])

/-- `from_following_file` (lines 424-434). -/
def from_following_file (s : SH) (file : Str) : Except Err Str :=
  match lookupA s.files file with
  | none => .error .fileNotFound
  | some text => nextLoop text (text.length + 2) 0 []

/-- Python `s.strip(chars)`. -/
def pyStrip (sset : Str) (t : Str) : Str :=
  ((t.dropWhile (fun c => sset.contains c)).reverse.dropWhile
    (fun c => sset.contains c)).reverse

/-- The body of `get_word_at_index` for the first primary shard whose
`[start, end]` range contains `index` (lines 379-410). -/
def wordBody (s : SH) (key : Str) (m : MapEntry) (index : Nat) (largest : Nat) :
    Except Err (Str × Str) :=
  match lookupA s.files (key ++ str ".txt") with
  | none => .error .fileNotFound
  | some text =>
    let new_index := index - m.start
    match skipPunct text (text.length + 2) new_index with
    | .error e => .error e
    | .ok ni =>
      match pyIndex text (ni : Int) with
      | none => .error .indexError
      | some c0 =>
        match beforeLoop text (ni + 2) ni [c0] with
        | .error e => .error e
        | .ok (bi, st1) =>
          match (if bi == 0 then
                   match parseNat? key with
                   | none => Except.error Err.valueError
                   | some k =>
                     match from_previous_file s (intStr ((k : Int) - 1) ++ str ".txt") with
                     | .error e => .error e
                     | .ok pre => .ok (pre ++ st1)
                 else Except.ok st1) with
          | .error e => .error e
          | .ok st2 =>
            match afterLoop text (text.length + 2) ni st2 with
            | .error e => .error e
            | .ok (ai, st3) =>
              match (if (ai : Int) == (text.length : Int) - 1 &&
                        key != natStr largest then
                       match parseNat? key with
                       | none => Except.error Err.valueError
                       | some k =>
                         match from_following_file s (natStr (k + 1) ++ str ".txt") with
                         | .error e => .error e
                         | .ok post => .ok (st3 ++ post)
                     else Except.ok st3) with
              | .error e => .error e
              | .ok st4 =>
                .ok (key ++ str ".txt",
                     ((pyStrip punct st4).filter (fun c => c != '\n')).filter
                       (fun c => c != '.'))

/-- The `for key in keys` search loop of `get_word_at_index` (lines
374-410); falling through the loop returns Python `None`. -/
def wordLoop (s : SH) (index : Nat) (largest : Nat) :
    List Str → Except Err (Option (Str × Str))
  | [] => .ok none
  | key :: rest =>
    match lookupA s.mapping key with
    | none => .error .keyError
    | some m =>
      if m.start ≤ index && index ≤ m.stop then
        match wordBody s key m index largest with
        | .error e => .error e
        | .ok r => .ok (some r)
      else wordLoop s index largest rest

/-- `get_word_at_index` (lines 371-410).  `max(int(key) for key in keys)`
evaluates `int` on every key and raises `ValueError` on an empty mapping. -/
def get_word_at_index (s : SH) (index : Nat) : Except Err (Option (Str × Str)) :=
  let keys := get_shard_ids s
  match mapParse id keys with
  | .error e => .error e
  | .ok nums =>
    match maxList nums with
    | .error e => .error e
    | .ok largest => wordLoop s index largest keys

/-- The empty starting state: no `mapping.json`, an empty `./data`. -/
def initState : SH := ⟨[], [], [], 0, 0⟩

/-- Total length of a list of slices. -/
def sumLen (l : List Str) : Nat := (l.map List.length).sum

/-- The canonical primary key list `["0", "1", ...]` of an `n`-shard system. -/
def keyList (n : Nat) : List Str := (List.range n).map natStr

/-- The canonical primary file names `["0.txt", "1.txt", ...]`. -/
def fileNames (n : Nat) : List Str := (List.range n).map (fun z => natStr z ++ str ".txt")

/-- The `./data` directory holding exactly the primary blobs
`j.txt, (j+1).txt, ...` with the given contents, in creation order. -/
def fileEntries : Nat → List Str → List (Str × Str)
  | _, [] => []
  | j, c :: cs => (natStr j ++ str ".txt", c) :: fileEntries (j + 1) cs

/-- A replica-free state as produced by `build_shards` and maintained by
`add_shard`/`remove_shard` sequences: `n` primaries with dense keys, a
persisted map, and shard contents concatenating to `T`.  The bound
`n ≤ 10` keeps string-sorted key order equal to numeric order. -/
def GoodState (T : Str) (n : Nat) (s : SH) : Prop :=
  1 ≤ n ∧ n ≤ 10 ∧
  s.mapping.map Prod.fst = keyList n ∧
  s.mapfile = s.mapping ∧
  ∃ cs : List Str, cs.length = n ∧ cs.flatten = T ∧ s.files = fileEntries 0 cs

/-- A rebalance operation of the claim-C1 sequences. -/
inductive Op
  | addOp
  | removeOp
deriving DecidableEq, Repr

/-- Run a sequence of `add_shard`/`remove_shard` calls. -/
def runOps : SH → List Op → Except (Err × SH) SH
  | s, [] => .ok s
  | s, .addOp :: rest =>
    match add_shard s with
    | .error e => .error e
    | .ok s' => runOps s' rest
  | s, .removeOp :: rest =>
    match remove_shard s with
    | .error e => .error e
    | .ok s' => runOps s' rest

/-- Every primary count reached by the sequence stays `≤ 10` (single-digit
shard ids, where Python's string sort agrees with numeric order). -/
def countsLe10 : Nat → List Op → Bool
  | _, [] => true
  | n, .addOp :: rest => decide (n + 1 ≤ 10) && countsLe10 (n + 1) rest
  | n, .removeOp :: rest => countsLe10 (n - 1) rest

/-- A canonical replica-free `n`-shard state of total content length `L`,
with every blob non-empty, the map persisted, and the recorded offsets
satisfying `shard[0].start = 0` and the adjacency law
`shard[i].end + 1 = shard[i+1].start` — the invariant of claim C5, with no
bound on `n`. -/
def GoodL (L n : Nat) (s : SH) : Prop :=
  1 ≤ n ∧
  s.mapping.map Prod.fst = keyList n ∧
  s.mapfile = s.mapping ∧
  (∃ cs : List Str, cs.length = n ∧ sumLen cs = L ∧ (∀ c ∈ cs, c ≠ []) ∧
    s.files = fileEntries 0 cs) ∧
  (∀ e0, lookupA s.mapping (natStr 0) = some e0 → e0.start = 0) ∧
  (∀ i ei ei1, lookupA s.mapping (natStr i) = some ei →
    lookupA s.mapping (natStr (i + 1)) = some ei1 → ei.stop + 1 = ei1.start)

/-- Every piece count the sequence produces stays `≤ L`, the text length, so
every written slice is non-empty (`add_shard` re-splits into `n + 1` pieces;
`remove_shard` into `n - 1`, which is below the current count). -/
def countsLeLen (L : Nat) : Nat → List Op → Bool
  | _, [] => true
  | n, .addOp :: rest => decide (n + 1 ≤ L) && countsLeLen L (n + 1) rest
  | n, .removeOp :: rest => countsLeLen L (n - 1) rest

/-- The replica slot of `(q, lv)` mirrors its primary: the replica mapping
entry equals the primary's and the replica blob equals the primary blob. -/
def GoodSlot (x : SH) (q : Str) (lv : Nat) : Prop :=
  (∃ v, lookupA x.mapping q = some v ∧
    lookupA x.mapping (q ++ '-' :: natStr lv) = some v) ∧
  (∃ c, lookupA x.files (q ++ str ".txt") = some c ∧
    lookupA x.files (q ++ '-' :: natStr lv ++ str ".txt") = some c)

/-- Every dashed mapping entry already equals the entry of its `split('-')[0]`
primary. -/
def MapFid (x : SH) : Prop :=
  ∀ k v, hasDash k = true → lookupA x.mapping k = some v →
    lookupA x.mapping (headSplit '-' k) = some v

/-- A state on which `sync_replication` acts as the identity: the primary
check passes, the map is persisted, every replica mapping entry already
equals its primary's, every replica level parses, and every (primary,
level) slot already mirrors its primary's entry and blob. -/
def SyncFixed (t : SH) : Prop :=
  primary_files_okay t = true ∧ t.mapfile = t.mapping ∧
  (∀ k ∈ get_replication_ids t, ∃ v, lookupA t.mapping k = some v ∧
      lookupA t.mapping (headSplit '-' k) = some v) ∧
  (∀ k ∈ get_replication_ids t, (parseNat? (secondSplit '-' k)).isSome) ∧
  (∀ k ∈ get_replication_ids t, ∀ lv, parseNat? (secondSplit '-' k) = some lv →
     ∀ p ∈ get_shard_ids t, GoodSlot t p lv)

/-- A damaged state for claim C3: the mapping expects primaries `0` and `1`,
no primary blob survives, and the directory lists the level-1 replicas with
`0-1.txt` listed last.  `maxReplicaShardId` is 1, but `other_files[-1]` is
`0-1.txt`. -/
def restoreBugState : SH :=
  ⟨[(str "0", ⟨0, 0⟩), (str "1", ⟨1, 1⟩)],
   [(str "1-1.txt", str "B"), (str "0-1.txt", str "A")],
   [(str "0", ⟨0, 0⟩), (str "1", ⟨1, 1⟩)], 1, 0⟩

/-- The healthy two-shard state produced by `build_shards(2, "hi ho hu")`,
used to evaluate `get_word_at_index` on boundary and out-of-range indices. -/
def wordState : SH :=
  ⟨[(str "0", ⟨0, 4⟩), (str "1", ⟨5, 8⟩)],
   [(str "0.txt", str "hi h"), (str "1.txt", str "o hu")],
   [(str "0", ⟨0, 4⟩), (str "1", ⟨5, 8⟩)], 0, 8⟩

/-- The healthy one-shard state produced by `build_shards(1, "abcd")`,
used as the concrete boundary-rejection input of claim C7. -/
def oneShardState : SH :=
  ⟨[(str "0", ⟨0, 4⟩)], [(str "0.txt", str "abcd")], [(str "0", ⟨0, 4⟩)], 0, 4⟩

/-- Decimal value of a digit string, the fold used by `parseNat?`. -/
def digitsVal (l : Str) : Nat := l.foldl (fun a c => a * 10 + (c.toNat - 48)) 0

/-- A state whose `replication_level` is 1 but which holds no replica key at
all: `sync_replication` derives its levels only from existing replica ids,
so it completes without ever creating the level-1 replicas. -/
def repFreeState : SH :=
  ⟨[(str "0", ⟨0, 4⟩)], [(str "0.txt", str "abcd")], [(str "0", ⟨0, 4⟩)], 1, 4⟩

/-- A healthy one-shard system with one faithful level-1 replica; it is a
fixed point of `sync_replication`. -/
def rep1State : SH :=
  ⟨[(str "0", ⟨0, 2⟩), (str "0-1", ⟨0, 2⟩)],
   [(str "0.txt", str "ab"), (str "0-1.txt", str "ab")],
   [(str "0", ⟨0, 2⟩), (str "0-1", ⟨0, 2⟩)], 1, 2⟩

/-- A one-shard system whose level-1 replica is stale: `remove_shard` first
syncs (rewriting the replica entry and blob) and only then raises the
last-shard error, so the state it leaves is not the input state. -/
def c7CexState : SH :=
  ⟨[(str "0", ⟨0, 2⟩), (str "0-1", ⟨9, 9⟩)],
   [(str "0.txt", str "ab"), (str "0-1.txt", str "zz")],
   [(str "0", ⟨0, 2⟩), (str "0-1", ⟨9, 9⟩)], 1, 2⟩

/-! ## Association list and sorting lemmas -/

theorem lookupA_isSome_of_mem {α : Type} {m : List (Str × α)} {k : Str}
    (h : k ∈ m.map Prod.fst) : (lookupA m k).isSome := by
  induction m with
  | nil => simp at h
  | cons kv rest ih =>
    obtain ⟨k1, v1⟩ := kv
    by_cases hk : k1 = k
    · simp [lookupA, hk]
    · simp only [List.map_cons, List.mem_cons] at h
      have h2 : k ∈ rest.map Prod.fst := by
        rcases h with h | h
        · exact absurd h.symm hk
        · exact h
      simp only [lookupA]
      rw [if_neg (by simp [hk])]
      exact ih h2

theorem lookupA_dictSet_self {α : Type} (m : List (Str × α)) (k : Str) (v : α) :
    lookupA (dictSet m k v) k = some v := by
  induction m with
  | nil => simp [dictSet, lookupA]
  | cons kv rest ih =>
    obtain ⟨k1, v1⟩ := kv
    by_cases hk : k1 = k
    · simp [dictSet, lookupA, hk]
    · simp only [dictSet]
      rw [if_neg (by simp [hk])]
      simp only [lookupA]
      rw [if_neg (by simp [hk])]
      exact ih

theorem lookupA_dictSet_ne {α : Type} (m : List (Str × α)) {k k' : Str} (v : α)
    (h : k' ≠ k) : lookupA (dictSet m k v) k' = lookupA m k' := by
  induction m with
  | nil => simp [dictSet, lookupA, Ne.symm h]
  | cons kv rest ih =>
    obtain ⟨k1, v1⟩ := kv
    by_cases hk : k1 = k
    · subst hk
      simp [dictSet, lookupA, Ne.symm h]
    · simp only [dictSet]
      rw [if_neg (by simp [hk])]
      by_cases hk' : k1 = k'
      · simp [lookupA, hk']
      · simp only [lookupA]
        rw [if_neg (by simp [hk']), if_neg (by simp [hk'])]
        exact ih

theorem dictSet_of_lookup_eq {α : Type} {m : List (Str × α)} {k : Str} {v : α}
    (h : lookupA m k = some v) : dictSet m k v = m := by
  induction m with
  | nil => simp [lookupA] at h
  | cons kv rest ih =>
    obtain ⟨k1, v1⟩ := kv
    by_cases hk : k1 = k
    · rw [show lookupA ((k1, v1) :: rest) k = some v1 by
        simp [lookupA, hk]] at h
      cases h
      simp [dictSet, hk]
    · simp only [lookupA] at h
      rw [if_neg (by simp [hk])] at h
      simp only [dictSet]
      rw [if_neg (by simp [hk])]
      rw [ih h]

theorem dictSet_keys_of_mem {α : Type} {m : List (Str × α)} {k : Str} (v : α)
    (h : k ∈ m.map Prod.fst) : (dictSet m k v).map Prod.fst = m.map Prod.fst := by
  induction m with
  | nil => simp at h
  | cons kv rest ih =>
    obtain ⟨k1, v1⟩ := kv
    by_cases hk : k1 = k
    · simp [dictSet, hk]
    · simp only [List.map_cons, List.mem_cons] at h
      have h2 : k ∈ rest.map Prod.fst := by
        rcases h with h | h
        · exact absurd h.symm hk
        · exact h
      simp only [dictSet]
      rw [if_neg (by simp [hk])]
      simp only [List.map_cons]
      rw [ih h2]

theorem dictSet_keys_of_not_mem {α : Type} {m : List (Str × α)} {k : Str} (v : α)
    (h : ¬ k ∈ m.map Prod.fst) :
    (dictSet m k v).map Prod.fst = m.map Prod.fst ++ [k] := by
  induction m with
  | nil => simp [dictSet]
  | cons kv rest ih =>
    obtain ⟨k1, v1⟩ := kv
    simp only [List.map_cons, List.mem_cons] at h
    push_neg at h
    simp only [dictSet]
    rw [if_neg (by simp; exact fun e => h.1 e.symm)]
    simp only [List.map_cons, List.cons_append]
    rw [ih h.2]

theorem mem_keys_dictSet {α : Type} {m : List (Str × α)} {k k' : Str} {v : α}
    (h : k' ∈ (dictSet m k v).map Prod.fst) : k' ∈ m.map Prod.fst ∨ k' = k := by
  induction m with
  | nil =>
    simp [dictSet] at h
    simp [h]
  | cons kv rest ih =>
    obtain ⟨k1, v1⟩ := kv
    by_cases hk : k1 = k
    · have hset : dictSet ((k1, v1) :: rest) k v = (k1, v) :: rest := by
        simp [dictSet, hk]
      rw [hset] at h
      simp only [List.map_cons, List.mem_cons] at h
      rcases h with h | h
      · exact Or.inl (by rw [List.map_cons]; exact List.mem_cons.mpr (Or.inl h))
      · exact Or.inl (by rw [List.map_cons]; exact List.mem_cons.mpr (Or.inr h))
    · have hset : dictSet ((k1, v1) :: rest) k v = (k1, v1) :: dictSet rest k v := by
        simp only [dictSet]; rw [if_neg (by simp [hk])]
      rw [hset] at h
      simp only [List.map_cons, List.mem_cons] at h
      rcases h with h | h
      · exact Or.inl (by rw [List.map_cons]; exact List.mem_cons.mpr (Or.inl h))
      · rcases ih h with h | h
        · exact Or.inl (by rw [List.map_cons]; exact List.mem_cons.mpr (Or.inr h))
        · exact Or.inr h

theorem mem_sortInsert {y a : Str} : ∀ {l : List Str},
    y ∈ sortInsert a l ↔ y = a ∨ y ∈ l := by
  intro l
  induction l with
  | nil => simp [sortInsert]
  | cons b bs ih =>
    simp only [sortInsert]
    by_cases h : strLtB a b = true
    · simp [h]
    · rw [if_neg h]
      simp only [List.mem_cons, ih]
      tauto

theorem mem_sortStr {y : Str} : ∀ {l : List Str}, y ∈ sortStr l ↔ y ∈ l := by
  intro l
  induction l with
  | nil => simp [sortStr]
  | cons a as ih =>
    simp only [sortStr, List.foldr_cons] at *
    rw [mem_sortInsert]
    simp [ih]

theorem strLtB_irrefl : ∀ a : Str, strLtB a a = false := by
  intro a
  induction a with
  | nil => rfl
  | cons c cs ih => simp [strLtB, ih]

theorem strLtB_asymm : ∀ {a b : Str}, strLtB a b = true → strLtB b a = false := by
  intro a
  induction a with
  | nil =>
    intro b h
    cases b with
    | nil => simp [strLtB] at h
    | cons c cs => simp [strLtB]
  | cons c cs ih =>
    intro b h
    cases b with
    | nil => simp [strLtB] at h
    | cons d ds =>
      simp only [strLtB] at h ⊢
      by_cases h1 : c.toNat < d.toNat
      · rw [if_neg (by omega), if_pos h1]
      · rw [if_neg h1] at h
        by_cases h2 : d.toNat < c.toNat
        · rw [if_pos h2] at h; exact absurd h (by simp)
        · rw [if_neg h2] at h
          rw [if_neg h2, if_neg h1]
          exact ih h

theorem sortStr_cons (a : Str) (l : List Str) :
    sortStr (a :: l) = sortInsert a (sortStr l) := rfl

theorem sortInsert_min {x : Str} : ∀ {l : List Str},
    (∀ y ∈ l, strLtB x y = true) → sortInsert x l = x :: l := by
  intro l h
  cases l with
  | nil => rfl
  | cons b bs => simp [sortInsert, h b (by simp)]

theorem sortStr_min_head : ∀ {l : List Str} {x : Str}, x ∈ l →
    (∀ y ∈ l, y = x ∨ strLtB x y = true) → ∃ r, sortStr l = x :: r := by
  intro l
  induction l with
  | nil => intro x h; simp at h
  | cons a as ih =>
    intro x hmem hall
    by_cases hxas : x ∈ as
    · obtain ⟨r, hr⟩ := ih hxas (fun y hy => hall y (by simp [hy]))
      by_cases hax : a = x
      · subst hax
        refine ⟨sortInsert a r, ?_⟩
        rw [sortStr_cons, hr]
        simp [sortInsert, strLtB_irrefl]
      · have hxa : strLtB x a = true := by
          rcases hall a (by simp) with h | h
          · exact absurd h hax
          · exact h
        refine ⟨sortInsert a r, ?_⟩
        rw [sortStr_cons, hr]
        simp [sortInsert, strLtB_asymm hxa]
    · have hxa : x = a := by
        rcases List.mem_cons.mp hmem with h | h
        · exact h
        · exact absurd h hxas
      subst hxa
      have hlt : ∀ y ∈ sortStr as, strLtB x y = true := by
        intro y hy
        rcases hall y (by simp [mem_sortStr.mp hy]) with h | h
        · exact absurd (h ▸ mem_sortStr.mp hy) hxas
        · exact h
      exact ⟨sortStr as, by rw [sortStr_cons, sortInsert_min hlt]⟩

/-! ## Decimal string lemmas -/

theorem digitChar_toNat {d : Nat} (h : d < 10) : (digitChar d).toNat = 48 + d := by
  interval_cases d <;> rfl

theorem isDigit_digitChar {d : Nat} (h : d < 10) : isDigit (digitChar d) = true := by
  interval_cases d <;> rfl

theorem digitsVal_append (l : Str) (c : Char) :
    digitsVal (l ++ [c]) = digitsVal l * 10 + (c.toNat - 48) := by
  simp [digitsVal, List.foldl_append]

theorem toDigitsAux_spec : ∀ fuel n, n < fuel →
    toDigitsAux fuel n ≠ [] ∧ (toDigitsAux fuel n).all isDigit = true ∧
      digitsVal (toDigitsAux fuel n) = n := by
  intro fuel
  induction fuel with
  | zero => intro n h; omega
  | succ fuel ih =>
    intro n h
    by_cases h10 : n < 10
    · refine ⟨by simp [toDigitsAux, h10], ?_, ?_⟩
      · simp [toDigitsAux, h10, isDigit_digitChar h10]
      · have := digitChar_toNat h10
        simp [toDigitsAux, h10, digitsVal, this]
    · have hpos : 0 < n := by omega
      have hdiv : n / 10 < fuel := by
        have h1 : n / 10 < n := Nat.div_lt_self hpos (by omega)
        omega
      obtain ⟨hne, hall, hval⟩ := ih (n / 10) hdiv
      have hrep : toDigitsAux (fuel + 1) n =
          toDigitsAux fuel (n / 10) ++ [digitChar (n % 10)] := by
        simp [toDigitsAux, h10]
      rw [hrep]
      have hmod : n % 10 < 10 := Nat.mod_lt n (by omega)
      refine ⟨by simp, ?_, ?_⟩
      · simp [List.all_append, hall, isDigit_digitChar hmod]
      · rw [digitsVal_append, hval, digitChar_toNat hmod]
        omega

theorem natStr_ne_nil (n : Nat) : natStr n ≠ [] :=
  (toDigitsAux_spec (n + 1) n (by omega)).1

theorem natStr_all_digits (n : Nat) : (natStr n).all isDigit = true :=
  (toDigitsAux_spec (n + 1) n (by omega)).2.1

theorem digitsVal_natStr (n : Nat) : digitsVal (natStr n) = n :=
  (toDigitsAux_spec (n + 1) n (by omega)).2.2

theorem parseNat?_natStr (n : Nat) : parseNat? (natStr n) = some n := by
  simp only [parseNat?]
  rw [if_pos ⟨natStr_ne_nil n, natStr_all_digits n⟩]
  exact congrArg some (digitsVal_natStr n)

theorem natStr_inj {a b : Nat} (h : natStr a = natStr b) : a = b := by
  have h1 := parseNat?_natStr a
  rw [h, parseNat?_natStr b] at h1
  exact (Option.some_inj.mp h1).symm

theorem natStr_chars_ne {n : Nat} {ch : Char} (hch : isDigit ch = false) :
    ∀ x ∈ natStr n, (x != ch) = true := by
  intro x hx
  have hall := natStr_all_digits n
  rw [List.all_eq_true] at hall
  have hd := hall x hx
  simp only [bne_iff_ne, ne_eq]
  intro e
  rw [e, hch] at hd
  cases hd

theorem hasDash_iff {l : Str} : hasDash l = true ↔ '-' ∈ l := by
  simp [hasDash, List.contains]

theorem hasDash_eq_false_iff {l : Str} : hasDash l = false ↔ ¬ '-' ∈ l := by
  rw [← hasDash_iff]
  cases hasDash l <;> simp

theorem hasDash_natStr (n : Nat) : hasDash (natStr n) = false := by
  rw [hasDash_eq_false_iff]
  intro hmem
  have h := @natStr_chars_ne n '-' (by decide) '-' hmem
  simp at h

theorem natStr_head_gt {n : Nat} (h : 1 ≤ n) :
    ∃ c t, natStr n = c :: t ∧ 48 < c.toNat ∧ c.toNat ≤ 57 := by
  suffices hgen : ∀ fuel m, m < fuel → 1 ≤ m →
      ∃ c t, toDigitsAux fuel m = c :: t ∧ 48 < c.toNat ∧ c.toNat ≤ 57 by
    exact hgen (n + 1) n (by omega) h
  intro fuel
  induction fuel with
  | zero => intro m h1 _; omega
  | succ fuel ih =>
    intro m h1 h2
    by_cases h10 : m < 10
    · refine ⟨digitChar m, [], by simp [toDigitsAux, h10], ?_, ?_⟩
      · rw [digitChar_toNat h10]; omega
      · rw [digitChar_toNat h10]; omega
    · have hpos : 1 ≤ m / 10 := by
        have h3 : 10 / 10 ≤ m / 10 := Nat.div_le_div_right (by omega)
        simpa using h3
      have hdiv : m / 10 < fuel := by
        have h1' : m / 10 < m := Nat.div_lt_self (by omega) (by omega)
        omega
      obtain ⟨c, t, hct, hc1, hc2⟩ := ih (m / 10) hdiv hpos
      refine ⟨c, t ++ [digitChar (m % 10)], ?_, hc1, hc2⟩
      simp [toDigitsAux, h10, hct]

theorem strLtB_zero_natStr {k : Nat} (h : 1 ≤ k) :
    strLtB (natStr 0) (natStr k) = true := by
  obtain ⟨c, t, hct, hc1, _⟩ := natStr_head_gt h
  rw [hct]
  show strLtB ['0'] (c :: t) = true
  simp only [strLtB]
  rw [if_pos]
  exact hc1

/-! ## takeWhile / dropWhile and split lemmas -/

theorem takeWhile_all {p : Char → Bool} : ∀ {l : Str},
    (∀ x ∈ l, p x = true) → l.takeWhile p = l := by
  intro l h
  induction l with
  | nil => rfl
  | cons c cs ih =>
    rw [List.takeWhile_cons, if_pos (h c (by simp))]
    rw [ih (fun x hx => h x (by simp [hx]))]

theorem takeWhile_append_cons {p : Char → Bool} : ∀ (l : Str) (c : Char) (r : Str),
    (∀ x ∈ l, p x = true) → p c = false → (l ++ c :: r).takeWhile p = l := by
  intro l
  induction l with
  | nil =>
    intro c r _ hc
    simp [List.takeWhile_cons, hc]
  | cons a as ih =>
    intro c r hl hc
    rw [List.cons_append, List.takeWhile_cons, if_pos (hl a (by simp))]
    rw [ih c r (fun x hx => hl x (by simp [hx])) hc]

theorem dropWhile_append_cons {p : Char → Bool} : ∀ (l : Str) (c : Char) (r : Str),
    (∀ x ∈ l, p x = true) → p c = false → (l ++ c :: r).dropWhile p = c :: r := by
  intro l
  induction l with
  | nil =>
    intro c r _ hc
    simp [List.dropWhile_cons, hc]
  | cons a as ih =>
    intro c r hl hc
    rw [List.cons_append, List.dropWhile_cons, if_pos (hl a (by simp))]
    exact ih c r (fun x hx => hl x (by simp [hx])) hc

theorem headSplit_append {ch : Char} {l : Str} (r : Str)
    (hl : ∀ x ∈ l, (x != ch) = true) : headSplit ch (l ++ ch :: r) = l :=
  takeWhile_append_cons l ch r hl (by simp)

theorem headSplit_all {ch : Char} {l : Str}
    (hl : ∀ x ∈ l, (x != ch) = true) : headSplit ch l = l :=
  takeWhile_all hl

theorem secondSplit_append {ch : Char} {l r : Str}
    (hl : ∀ x ∈ l, (x != ch) = true) (hr : ∀ x ∈ r, (x != ch) = true) :
    secondSplit ch (l ++ ch :: r) = r := by
  unfold secondSplit
  rw [dropWhile_append_cons l ch r hl (by simp)]
  simp only [List.drop_one, List.tail_cons]
  exact takeWhile_all hr

/-! ## Integer cast and `pyIndex` lemmas -/

theorem fdiv_cast (a b : Nat) : Int.fdiv (a : Int) (b : Int) = ((a / b : Nat) : Int) := by
  rw [Int.fdiv_eq_ediv _ (Int.natCast_nonneg b)]
  exact_mod_cast rfl

theorem fmod_cast (a b : Nat) : Int.fmod (a : Int) (b : Int) = ((a % b : Nat) : Int) := by
  rw [Int.fmod_eq_emod _ (Int.natCast_nonneg b)]
  exact_mod_cast rfl

theorem fmod_nonpos_of_neg (m : Nat) {c : Int} (hc : c < 0) :
    Int.fmod (m : Int) c ≤ 0 := by
  cases c with
  | ofNat n =>
    rw [Int.ofNat_eq_natCast] at hc
    exact absurd hc (by omega)
  | negSucc n =>
    cases m with
    | zero => exact le_of_eq (by rfl)
    | succ m' =>
      show Int.subNatNat (m' % (n + 1)) n ≤ 0
      rw [Int.subNatNat_eq_coe]
      have hle : m' % (n + 1) ≤ n := Nat.lt_succ_iff.mp (Nat.mod_lt _ (by omega))
      omega

theorem pyIndex_natCast (t : Str) (n : Nat) : pyIndex t (n : Int) = t.get? n := by
  have h1 : ¬ ((n : Int) < 0) := by omega
  have h2 : (0 : Int) ≤ (n : Int) := by omega
  simp [pyIndex, h1, h2, List.get?_eq_getElem?]

/-! ## Append cancellation and name injectivity -/

theorem append_cancel_l : ∀ {s t1 t2 : Str}, s ++ t1 = s ++ t2 → t1 = t2 := by
  intro s
  induction s with
  | nil => intro _ _ h; exact h
  | cons c cs ih =>
    intro t1 t2 h
    simp only [List.cons_append, List.cons.injEq] at h
    exact ih h.2

theorem append_cancel_r {a b x : Str} (h : a ++ x = b ++ x) : a = b := by
  have h2 := congrArg List.reverse h
  simp only [List.reverse_append] at h2
  have h3 := append_cancel_l h2
  have h4 := congrArg List.reverse h3
  simpa using h4

theorem txtName_inj {a b : Nat} (h : natStr a ++ str ".txt" = natStr b ++ str ".txt") :
    a = b := natStr_inj (append_cancel_r h)

theorem repKey_inj {p q : Str} {l1 l2 : Nat}
    (hp : ∀ x ∈ p, (x != '-') = true) (hq : ∀ x ∈ q, (x != '-') = true)
    (h : p ++ '-' :: natStr l1 = q ++ '-' :: natStr l2) : p = q ∧ l1 = l2 := by
  have h1 : headSplit '-' (p ++ '-' :: natStr l1) = p := headSplit_append _ hp
  rw [h, headSplit_append _ hq] at h1
  subst h1
  have h2 := append_cancel_l h
  simp only [List.cons.injEq] at h2
  exact ⟨rfl, natStr_inj h2.2⟩

/-! ## Split specification (`_generate_sharded_data`) -/

theorem pySlice_length {data : Str} {a b : Nat} (hab : a ≤ b) (hb : b ≤ data.length) :
    (pySlice data a b).length = b - a := by
  simp only [pySlice, List.length_drop, List.length_take]
  omega

theorem getD_map_range {α : Type} (f : Nat → α) (d : α) {n z : Nat} (h : z < n) :
    ((List.range n).map f).getD z d = f z := by
  rw [List.getD_eq_getElem?_getD]
  simp [List.getElem?_map, List.getElem?_range h]

theorem flatten_slices (data : Str) (q : Nat) : ∀ n,
    ((List.range n).map (fun z => pySlice data (q * z) (q * (z + 1)))).flatten
      = data.take (q * n) := by
  intro n
  induction n with
  | zero => simp
  | succ n ih =>
    rw [List.range_succ, List.map_append, List.flatten_append]
    simp only [List.map_cons, List.map_nil, List.flatten_cons, List.flatten_nil,
      List.append_nil]
    rw [ih]
    unfold pySlice
    rw [Nat.mul_succ]
    have h1 : data.take (q * n) = (data.take (q * n + q)).take (q * n) := by
      rw [List.take_take]
      congr 1
      omega
    rw [h1, List.take_append_drop]

theorem gen_spec (data : Str) (n : Nat) (h : 1 ≤ n) :
    ∃ ds : List Str, _generate_sharded_data (n : Int) data = .ok ds ∧
      ds.length = n ∧ ds.flatten = data ∧
      ∀ z, z + 1 < n →
        ds.getD z [] =
          pySlice data (data.length / n * z) (data.length / n * (z + 1)) := by
  have hn0 : ¬ (((n : Int) == 0) = true) := by simp; omega
  have hqn : data.length / n * n = data.length - data.length % n := by
    have hdm := Nat.div_add_mod data.length n
    have hcomm : data.length / n * n = n * (data.length / n) := Nat.mul_comm _ _
    omega
  simp only [_generate_sharded_data, hn0, if_false, Bool.false_eq_true,
    fdiv_cast, fmod_cast, Int.toNat_natCast]
  set q := data.length / n with hq
  set r := data.length % n with hr
  set result := (List.range n).map (fun z => pySlice data (q * z) (q * (z + 1)))
    with hres
  have hlen : result.length = n := by simp [hres]
  have hflat : result.flatten = data.take (q * n) := flatten_slices data q n
  have hne : result ≠ [] := by
    intro e
    rw [e] at hlen
    simp at hlen
    omega
  by_cases hrpos : 0 < r
  · rw [if_pos (by exact_mod_cast hrpos)]
    have hlast : result.getLast? = some (result.getLast hne) :=
      List.getLast?_eq_getLast result hne
    rw [hlast]
    refine ⟨_, rfl, ?_, ?_, ?_⟩
    · simp only [List.length_append, List.length_dropLast, hlen, List.length_cons,
        List.length_nil]
      omega
    · rw [List.flatten_append]
      simp only [List.flatten_cons, List.flatten_nil, List.append_nil]
      have hsplit : result.dropLast.flatten ++ result.getLast hne =
          result.flatten := by
        conv_rhs => rw [← List.dropLast_append_getLast hne]
        rw [List.flatten_append]
        simp
      rw [← List.append_assoc, hsplit, hflat, hqn]
      have hrle : r ≤ data.length := Nat.mod_le _ _
      exact List.take_append_drop _ data
    · intro z hz
      have hzlt : z < result.dropLast.length := by
        simp only [List.length_dropLast, hlen]
        omega
      rw [List.getD_append _ _ _ _ hzlt]
      rw [List.dropLast_eq_take]
      rw [List.getD_eq_getElem?_getD, List.getElem?_take_of_lt (by simpa using hzlt),
        ← List.getD_eq_getElem?_getD]
      exact getD_map_range _ _ (by omega)
  · rw [if_neg (by simp; omega)]
    refine ⟨_, rfl, hlen, ?_, ?_⟩
    · rw [hflat, hqn]
      have : data.length - r = data.length := by omega
      rw [this]
      exact List.take_length data
    · intro z hz
      exact getD_map_range _ _ (by omega)

/-! ## Write-loop lemmas -/

theorem _write_shard_fields (num : Nat) (d : Str) (s : SH) (h : 1 ≤ num) :
    _write_shard num d s =
      { s with
        files := dictSet s.files (natStr num ++ str ".txt") d,
        mapping := dictSet s.mapping (natStr num)
          ⟨(if s.last_char_position = 0 then s.last_char_position
            else s.last_char_position + 1),
           s.last_char_position + d.length⟩,
        last_char_position := s.last_char_position + d.length } := by
  have h0 : ¬ ((num == 0) = true) := by simp; omega
  simp [_write_shard, _write_shard_mapping, h0]

theorem _write_shard_zero (d : Str) (s : SH) :
    _write_shard 0 d s =
      { s with
        files := dictSet s.files (natStr 0 ++ str ".txt") d,
        mapping := dictSet s.mapping (natStr 0) ⟨0, d.length⟩,
        last_char_position := d.length } := by
  simp [_write_shard, _write_shard_mapping]

theorem _write_shard_files (num : Nat) (d : Str) (s : SH) :
    (_write_shard num d s).files = dictSet s.files (natStr num ++ str ".txt") d := by
  by_cases h : num = 0
  · subst h; rw [_write_shard_zero]
  · rw [_write_shard_fields num d s (by omega)]

theorem _write_shard_mapping_keyshape (num : Nat) (d : Str) (s : SH) :
    ∃ e, (_write_shard num d s).mapping = dictSet s.mapping (natStr num) e := by
  by_cases h : num = 0
  · subst h; exact ⟨_, by rw [_write_shard_zero]⟩
  · exact ⟨_, by rw [_write_shard_fields num d s (by omega)]⟩

theorem _write_shard_mapfile (num : Nat) (d : Str) (s : SH) :
    (_write_shard num d s).mapfile = s.mapfile := by
  by_cases h : num = 0
  · subst h; rw [_write_shard_zero]
  · rw [_write_shard_fields num d s (by omega)]

theorem _write_shard_rl (num : Nat) (d : Str) (s : SH) :
    (_write_shard num d s).replication_level = s.replication_level := by
  by_cases h : num = 0
  · subst h; rw [_write_shard_zero]
  · rw [_write_shard_fields num d s (by omega)]

theorem writeShards_mapfile : ∀ (ds : List Str) (j : Nat) (s : SH),
    (writeShards j ds s).mapfile = s.mapfile := by
  intro ds
  induction ds with
  | nil => intro j s; rfl
  | cons d rest ih =>
    intro j s
    show (writeShards (j + 1) rest (_write_shard j d s)).mapfile = _
    rw [ih, _write_shard_mapfile]

theorem writeShards_rl : ∀ (ds : List Str) (j : Nat) (s : SH),
    (writeShards j ds s).replication_level = s.replication_level := by
  intro ds
  induction ds with
  | nil => intro j s; rfl
  | cons d rest ih =>
    intro j s
    show (writeShards (j + 1) rest (_write_shard j d s)).replication_level = _
    rw [ih, _write_shard_rl]

theorem writeShards_mapping_other : ∀ (ds : List Str) (j : Nat) (s : SH) (k : Str),
    (∀ z, z < ds.length → k ≠ natStr (j + z)) →
    lookupA (writeShards j ds s).mapping k = lookupA s.mapping k := by
  intro ds
  induction ds with
  | nil => intro j s k _; rfl
  | cons d rest ih =>
    intro j s k hk
    show lookupA (writeShards (j + 1) rest (_write_shard j d s)).mapping k = _
    rw [ih (j + 1) _ k (fun z hz => by
      have h2 := hk (z + 1) (by simp; omega)
      rw [show j + 1 + z = j + (z + 1) from by omega]
      exact h2)]
    obtain ⟨e, he⟩ := _write_shard_mapping_keyshape j d s
    rw [he, lookupA_dictSet_ne _ _ (by simpa using hk 0 (by simp))]

theorem writeShards_files_other : ∀ (ds : List Str) (j : Nat) (s : SH) (k : Str),
    (∀ z, z < ds.length → k ≠ natStr (j + z) ++ str ".txt") →
    lookupA (writeShards j ds s).files k = lookupA s.files k := by
  intro ds
  induction ds with
  | nil => intro j s k _; rfl
  | cons d rest ih =>
    intro j s k hk
    show lookupA (writeShards (j + 1) rest (_write_shard j d s)).files k = _
    rw [ih (j + 1) _ k (fun z hz => by
      have h2 := hk (z + 1) (by simp; omega)
      rw [show j + 1 + z = j + (z + 1) from by omega]
      exact h2)]
    rw [_write_shard_files, lookupA_dictSet_ne _ _ (by simpa using hk 0 (by simp))]

theorem writeShards_files_hit : ∀ (ds : List Str) (j : Nat) (s : SH) (z : Nat),
    z < ds.length →
    lookupA (writeShards j ds s).files (natStr (j + z) ++ str ".txt") =
      some (ds.getD z []) := by
  intro ds
  induction ds with
  | nil => intro j s z hz; simp at hz
  | cons d rest ih =>
    intro j s z hz
    show lookupA (writeShards (j + 1) rest (_write_shard j d s)).files _ = _
    cases z with
    | zero =>
      rw [writeShards_files_other rest (j + 1) _ _ (fun z' hz' e => by
        have := txtName_inj e
        omega)]
      simp only [Nat.add_zero]
      rw [_write_shard_files, lookupA_dictSet_self]
      rfl
    | succ z' =>
      rw [show j + (z' + 1) = (j + 1) + z' from by omega]
      rw [ih (j + 1) _ z' (by simpa using hz)]
      rfl

theorem writeShards_mapping_hit : ∀ (ds : List Str) (j : Nat) (s : SH), 1 ≤ j →
    ∀ z, z < ds.length →
    lookupA (writeShards j ds s).mapping (natStr (j + z)) =
      some ⟨(if s.last_char_position + sumLen (ds.take z) = 0 then 0
             else s.last_char_position + sumLen (ds.take z) + 1),
            s.last_char_position + sumLen (ds.take z) + (ds.getD z []).length⟩ := by
  intro ds
  induction ds with
  | nil => intro j s _ z hz; simp at hz
  | cons d rest ih =>
    intro j s hj z hz
    show lookupA (writeShards (j + 1) rest (_write_shard j d s)).mapping _ = _
    cases z with
    | zero =>
      rw [writeShards_mapping_other rest (j + 1) _ _ (fun z' hz' e => by
        have := natStr_inj e
        omega)]
      simp only [Nat.add_zero]
      rw [_write_shard_fields j d s hj]
      simp only []
      rw [lookupA_dictSet_self]
      simp only [List.take_zero, sumLen, List.map_nil, List.sum_nil, Nat.add_zero,
        List.getD_cons_zero]
      by_cases hl : s.last_char_position = 0 <;> simp [hl]
    | succ z' =>
      rw [show j + (z' + 1) = (j + 1) + z' from by omega]
      rw [ih (j + 1) _ (by omega) z' (by simpa using hz)]
      rw [_write_shard_fields j d s hj]
      simp only []
      have harith : s.last_char_position + d.length + sumLen (rest.take z') =
          s.last_char_position + sumLen ((d :: rest).take (z' + 1)) := by
        simp [sumLen]
        omega
      rw [harith]
      rfl

theorem writeShards0_mapping_hit (d : Str) (ds : List Str) (s : SH) :
    ∀ z, z < (d :: ds).length →
    lookupA (writeShards 0 (d :: ds) s).mapping (natStr z) =
      some ⟨(if sumLen ((d :: ds).take z) = 0 then 0
             else sumLen ((d :: ds).take z) + 1),
            sumLen ((d :: ds).take z) + ((d :: ds).getD z []).length⟩ := by
  intro z hz
  show lookupA (writeShards 1 ds (_write_shard 0 d s)).mapping _ = _
  cases z with
  | zero =>
    rw [writeShards_mapping_other ds 1 _ _ (fun z' hz' e => by
      have := natStr_inj e
      omega)]
    rw [_write_shard_zero]
    simp only []
    rw [lookupA_dictSet_self]
    simp [sumLen]
  | succ z' =>
    rw [show z' + 1 = 1 + z' from by omega]
    rw [writeShards_mapping_hit ds 1 _ (by omega) z' (by simpa using hz)]
    rw [_write_shard_zero]
    simp only []
    have harith : d.length + sumLen (ds.take z') =
        sumLen ((d :: ds).take (1 + z')) := by
      rw [show 1 + z' = z' + 1 from by omega]
      simp [sumLen]
    rw [harith]
    rw [show (1 + z') = z' + 1 from by omega]
    rfl

/-! ## Canonical key and directory lemmas -/

theorem keyList_succ (n : Nat) : keyList (n + 1) = keyList n ++ [natStr n] := by
  simp [keyList, List.range_succ]

theorem mem_keyList {j n : Nat} : natStr j ∈ keyList n ↔ j < n := by
  simp only [keyList, List.mem_map]
  constructor
  · rintro ⟨z, hz, he⟩
    rw [← natStr_inj he]
    exact List.mem_range.mp hz
  · intro h
    exact ⟨j, List.mem_range.mpr h, rfl⟩

theorem writeShards_keys : ∀ (ds : List Str) (j m : Nat) (s : SH),
    s.mapping.map Prod.fst = keyList m → j ≤ m →
    (writeShards j ds s).mapping.map Prod.fst = keyList (max m (j + ds.length)) := by
  intro ds
  induction ds with
  | nil =>
    intro j m s hkeys hj
    show s.mapping.map Prod.fst = _
    rw [hkeys]
    simp only [List.length_nil, Nat.add_zero]
    congr 1
    omega
  | cons d rest ih =>
    intro j m s hkeys hj
    show (writeShards (j + 1) rest (_write_shard j d s)).mapping.map Prod.fst = _
    obtain ⟨e, he⟩ := _write_shard_mapping_keyshape j d s
    by_cases hjm : j < m
    · have hkeys2 : (_write_shard j d s).mapping.map Prod.fst = keyList m := by
        rw [he, dictSet_keys_of_mem _ (by rw [hkeys]; exact mem_keyList.mpr hjm), hkeys]
      rw [ih (j + 1) m _ hkeys2 (by omega)]
      congr 1
      simp only [List.length_cons]
      omega
    · have hjm2 : j = m := by omega
      subst hjm2
      have hkeys2 : (_write_shard j d s).mapping.map Prod.fst = keyList (j + 1) := by
        rw [he, dictSet_keys_of_not_mem _ (by rw [hkeys]; simp [mem_keyList]), hkeys,
          keyList_succ]
      rw [ih (j + 1) (j + 1) _ hkeys2 (by omega)]
      congr 1
      simp only [List.length_cons]
      omega

theorem dictSet_fileEntries_set : ∀ (cs : List Str) (i z : Nat) (v : Str),
    z < cs.length →
    dictSet (fileEntries i cs) (natStr (i + z) ++ str ".txt") v =
      fileEntries i (cs.set z v) := by
  intro cs
  induction cs with
  | nil => intro i z v h; simp at h
  | cons c rest ih =>
    intro i z v h
    cases z with
    | zero =>
      show dictSet ((natStr i ++ str ".txt", c) :: fileEntries (i + 1) rest) _ v = _
      simp only [Nat.add_zero, dictSet]
      rw [if_pos (by simp)]
      rfl
    | succ z' =>
      show dictSet ((natStr i ++ str ".txt", c) :: fileEntries (i + 1) rest) _ v = _
      simp only [dictSet]
      rw [if_neg (by
        simp only [beq_iff_eq]
        intro e
        have := txtName_inj e
        omega)]
      show _ = (natStr i ++ str ".txt", c) :: fileEntries (i + 1) (rest.set z' v)
      rw [show i + (z' + 1) = (i + 1) + z' from by omega]
      rw [ih (i + 1) z' v (by simpa using h)]

theorem dictSet_fileEntries_append : ∀ (cs : List Str) (i : Nat) (v : Str),
    dictSet (fileEntries i cs) (natStr (i + cs.length) ++ str ".txt") v =
      fileEntries i (cs ++ [v]) := by
  intro cs
  induction cs with
  | nil => intro i v; simp [fileEntries, dictSet]
  | cons c rest ih =>
    intro i v
    show dictSet ((natStr i ++ str ".txt", c) :: fileEntries (i + 1) rest) _ v = _
    simp only [dictSet]
    rw [if_neg (by
      simp only [beq_iff_eq]
      intro e
      have := txtName_inj e
      simp at this)]
    show _ = (natStr i ++ str ".txt", c) :: fileEntries (i + 1) (rest ++ [v])
    rw [show i + (c :: rest).length = (i + 1) + rest.length from by simp; omega]
    rw [ih (i + 1) v]

theorem set_take_succ : ∀ (l : List Str) (j : Nat) (v : Str), j < l.length →
    (l.set j v).take (j + 1) = l.take j ++ [v] := by
  intro l
  induction l with
  | nil => intro j v h; simp at h
  | cons c rest ih =>
    intro j v h
    cases j with
    | zero => simp
    | succ j' =>
      simp only [List.set_cons_succ, List.take_succ_cons,
        List.cons_append]
      rw [ih j' v (by simpa using h)]

theorem set_drop_le : ∀ (l : List Str) (j k : Nat) (v : Str), j < k →
    (l.set j v).drop k = l.drop k := by
  intro l
  induction l with
  | nil => intro j k v _; simp
  | cons c rest ih =>
    intro j k v h
    cases j with
    | zero =>
      cases k with
      | zero => omega
      | succ k' => simp
    | succ j' =>
      cases k with
      | zero => omega
      | succ k' =>
        simp only [List.set_cons_succ, List.drop_succ_cons]
        exact ih j' k' v (by omega)

theorem writeShards_files_entries : ∀ (ds : List Str) (j : Nat) (cs : List Str) (s : SH),
    s.files = fileEntries 0 cs → j ≤ cs.length →
    (writeShards j ds s).files =
      fileEntries 0 (cs.take j ++ ds ++ cs.drop (j + ds.length)) := by
  intro ds
  induction ds with
  | nil =>
    intro j cs s hf hj
    show s.files = _
    simp only [List.length_nil, List.append_nil, Nat.add_zero]
    rw [List.take_append_drop, hf]
  | cons d rest ih =>
    intro j cs s hf hj
    show (writeShards (j + 1) rest (_write_shard j d s)).files = _
    by_cases hjlen : j < cs.length
    · have hset := dictSet_fileEntries_set cs 0 j d hjlen
      rw [Nat.zero_add] at hset
      have hf2 : (_write_shard j d s).files = fileEntries 0 (cs.set j d) := by
        rw [_write_shard_files, hf, hset]
      rw [ih (j + 1) (cs.set j d) _ hf2 (by simp; omega)]
      congr 1
      rw [set_take_succ cs j d hjlen,
          set_drop_le cs j (j + 1 + rest.length) d (by omega)]
      simp only [List.length_cons, List.append_assoc, List.cons_append,
        List.nil_append]
      rw [show j + (rest.length + 1) = j + 1 + rest.length from by omega]
    · have hjlen2 : j = cs.length := by omega
      subst hjlen2
      have happ := dictSet_fileEntries_append cs 0 d
      rw [Nat.zero_add] at happ
      have hf2 : (_write_shard cs.length d s).files = fileEntries 0 (cs ++ [d]) := by
        rw [_write_shard_files, hf, happ]
      rw [ih (cs.length + 1) (cs ++ [d]) _ hf2 (by simp)]
      congr 1
      rw [List.take_of_length_le (by simp),
          List.take_of_length_le (le_refl cs.length),
          List.drop_eq_nil_of_le (by simp),
          List.drop_eq_nil_of_le (by simp)]
      simp

theorem lookupA_fileEntries : ∀ (cs : List Str) (i z : Nat), z < cs.length →
    lookupA (fileEntries i cs) (natStr (i + z) ++ str ".txt") = some (cs.getD z []) := by
  intro cs
  induction cs with
  | nil => intro i z h; simp at h
  | cons c rest ih =>
    intro i z h
    cases z with
    | zero =>
      show lookupA ((natStr i ++ str ".txt", c) :: fileEntries (i + 1) rest) _ = _
      simp only [Nat.add_zero, lookupA]
      rw [if_pos (by simp)]
      rfl
    | succ z' =>
      show lookupA ((natStr i ++ str ".txt", c) :: fileEntries (i + 1) rest) _ = _
      simp only [lookupA]
      rw [if_neg (by
        simp only [beq_iff_eq]
        intro e
        have := txtName_inj e
        omega)]
      rw [show i + (z' + 1) = (i + 1) + z' from by omega]
      rw [ih (i + 1) z' (by simpa using h)]
      rfl

theorem fileEntries_keys : ∀ (cs : List Str) (i : Nat),
    (fileEntries i cs).map Prod.fst =
      (List.range' i cs.length).map (fun z => natStr z ++ str ".txt") := by
  intro cs
  induction cs with
  | nil => intro i; rfl
  | cons c rest ih =>
    intro i
    show (natStr i ++ str ".txt") :: (fileEntries (i + 1) rest).map Prod.fst = _
    rw [ih (i + 1)]
    rw [show (c :: rest).length = rest.length + 1 from rfl, List.range'_succ]
    rfl

/-! ## Character-class and filter lemmas -/

theorem hasDash_append (a b : Str) :
    hasDash (a ++ b) = (hasDash a || hasDash b) := by
  rw [Bool.eq_iff_iff]
  simp [hasDash_iff]

theorem hasDash_name (n : Nat) : hasDash (natStr n ++ str ".txt") = false := by
  rw [hasDash_append, hasDash_natStr]
  simp only [Bool.false_or]
  decide

theorem hasDash_repKey (p q : Str) : hasDash (p ++ '-' :: q) = true := by
  rw [hasDash_iff]
  simp

theorem nodash_chars {p : Str} (h : hasDash p = false) :
    ∀ x ∈ p, (x != '-') = true := by
  intro x hx
  simp only [bne_iff_ne, ne_eq]
  intro e
  subst e
  rw [hasDash_eq_false_iff] at h
  exact h hx

theorem filter_nodash_keyList (n : Nat) :
    (keyList n).filter (fun k => !(hasDash k)) = keyList n := by
  apply List.filter_eq_self.mpr
  intro k hk
  obtain ⟨z, _, rfl⟩ := List.mem_map.mp hk
  rw [hasDash_natStr]
  rfl

theorem filter_dash_keyList (n : Nat) :
    (keyList n).filter (fun k => hasDash k) = [] := by
  apply List.filter_eq_nil_iff.mpr
  intro k hk
  obtain ⟨z, _, rfl⟩ := List.mem_map.mp hk
  simp [hasDash_natStr]

theorem filter_nodash_fileNames (n : Nat) :
    (fileNames n).filter (fun k => !(hasDash k)) = fileNames n := by
  apply List.filter_eq_self.mpr
  intro k hk
  obtain ⟨z, _, rfl⟩ := List.mem_map.mp hk
  rw [hasDash_name]
  rfl

/-! ## Small-`n` sorting facts -/

theorem sortStr_keyList {n : Nat} (h : n ≤ 10) : sortStr (keyList n) = keyList n := by
  interval_cases n <;> decide

theorem sortStr_fileNames {n : Nat} (h : n ≤ 10) :
    sortStr (fileNames n) = fileNames n := by
  interval_cases n <;> decide

/-! ## Good-state lemmas -/

theorem good_shard_ids {T : Str} {n : Nat} {s : SH} (hG : GoodState T n s) :
    get_shard_ids s = keyList n := by
  obtain ⟨h1, h10, hkeys, hmf, cs, hcs⟩ := hG
  unfold get_shard_ids
  rw [hkeys, filter_nodash_keyList, sortStr_keyList h10]

theorem good_rep_ids {T : Str} {n : Nat} {s : SH} (hG : GoodState T n s) :
    get_replication_ids s = [] := by
  obtain ⟨h1, h10, hkeys, hmf, cs, hcs⟩ := hG
  unfold get_replication_ids
  rw [hkeys, filter_dash_keyList]
  rfl

theorem good_file_names {T : Str} {n : Nat} {s : SH} (hG : GoodState T n s) :
    s.files.map Prod.fst = fileNames n := by
  obtain ⟨h1, h10, hkeys, hmf, cs, hlen, hflat, hfe⟩ := hG
  rw [hfe, fileEntries_keys, hlen]
  rw [show fileNames n = (List.range n).map (fun z => natStr z ++ str ".txt") from rfl,
    List.range_eq_range']

theorem zip_maps_all (l : List Nat) :
    (((l.map (fun z => natStr z ++ str ".txt")).zip (l.map natStr)).all
      (fun fk => splitDotZero fk.1 == fk.2)) = true := by
  rw [List.zip_map']
  apply List.all_eq_true.mpr
  intro fk hfk
  obtain ⟨z, hz, rfl⟩ := List.mem_map.mp hfk
  have hdot : str ".txt" = '.' :: str "txt" := rfl
  have hsp : splitDotZero (natStr z ++ str ".txt") = natStr z := by
    rw [show splitDotZero (natStr z ++ str ".txt") =
        headSplit '.' (natStr z ++ '.' :: str "txt") from by rw [← hdot]; rfl]
    exact headSplit_append _ (natStr_chars_ne (by decide))
  show (splitDotZero (natStr z ++ str ".txt") == natStr z) = true
  rw [hsp]
  simp

theorem good_okay {T : Str} {n : Nat} {s : SH} (hG : GoodState T n s) :
    primary_files_okay s = true := by
  have h10 := hG.2.1
  unfold primary_files_okay
  rw [good_shard_ids hG, good_file_names hG, filter_nodash_fileNames,
    sortStr_fileNames h10]
  simp only [fileNames, keyList]
  rw [zip_maps_all (List.range n)]
  simp

theorem loadLoop_entries : ∀ (m j : Nat) (acc : Str) (cs : List Str) (s : SH),
    s.files = fileEntries 0 cs → j + m ≤ cs.length →
    loadLoop s ((List.range' j m).map natStr) acc =
      .ok (acc ++ ((cs.drop j).take m).flatten) := by
  intro m
  induction m with
  | zero => intro j acc cs s hf hj; simp [loadLoop]
  | succ m ih =>
    intro j acc cs s hf hj
    rw [List.range'_succ, List.map_cons]
    simp only [loadLoop]
    have hlook : lookupA s.files (natStr j ++ str ".txt") = some (cs.getD j []) := by
      rw [hf]
      have h2 := lookupA_fileEntries cs 0 j (by omega)
      rwa [Nat.zero_add] at h2
    rw [hlook]
    simp only []
    rw [ih (j + 1) (acc ++ cs.getD j []) cs s hf (by omega)]
    congr 1
    rw [List.append_assoc]
    congr 1
    have hdrop : cs.drop j = cs.getD j [] :: cs.drop (j + 1) := by
      rw [List.getD_eq_getElem _ _ (by omega)]
      exact List.drop_eq_getElem_cons (by omega)
    rw [hdrop]
    simp [List.take_succ_cons]

theorem good_load {T : Str} {n : Nat} {s : SH} (hG : GoodState T n s) :
    load_data_from_shards s = .ok T := by
  have hids := good_shard_ids hG
  obtain ⟨h1, h10, hkeys, hmf, cs, hlen, hflat, hfe⟩ := hG
  unfold load_data_from_shards
  rw [hids]
  rw [show keyList n = (List.range' 0 n).map natStr from by
    rw [keyList, List.range_eq_range']]
  rw [loadLoop_entries n 0 [] cs s hfe (by omega)]
  rw [List.drop_zero, ← hlen, List.take_length, hflat]
  rfl

theorem write_map_eq_self {s : SH} (h : s.mapfile = s.mapping) : write_map s = s := by
  cases s
  simp only [write_map]
  simp only at h
  rw [h]

theorem norep_update (s : SH) (hrep : get_replication_ids s = [])
    (hmf : s.mapfile = s.mapping) : update_replicated_levels s = .ok s := by
  unfold update_replicated_levels
  rw [hrep]
  simp only [refreshLoop]
  rw [show create_replication_dict s = .ok [] from by
    unfold create_replication_dict
    rw [hrep]
    rfl]
  simp only [regenLevelsLoop]
  rw [write_map_eq_self hmf]

theorem good_sync {T : Str} {n : Nat} {s : SH} (hG : GoodState T n s) :
    sync_replication s = .ok s := by
  have hok := good_okay hG
  unfold sync_replication
  rw [if_pos hok]
  exact norep_update s (good_rep_ids hG) hG.2.2.2.1

/-! ## Key parsing and maximum lemmas -/

theorem mapParse_range' : ∀ (m j : Nat),
    mapParse id ((List.range' j m).map natStr) = .ok (List.range' j m) := by
  intro m
  induction m with
  | zero => intro j; rfl
  | succ m ih =>
    intro j
    rw [List.range'_succ, List.map_cons]
    simp only [mapParse, id_eq, parseNat?_natStr]
    rw [ih (j + 1)]

theorem mapParse_keyList (n : Nat) :
    mapParse id (keyList n) = .ok (List.range n) := by
  rw [show keyList n = (List.range' 0 n).map natStr from by
    rw [keyList, List.range_eq_range']]
  rw [mapParse_range', ← List.range_eq_range']

theorem foldl_max_range' : ∀ (m j x : Nat),
    (List.range' j m).foldl Nat.max x = if m = 0 then x else max x (j + m - 1) := by
  intro m
  induction m with
  | zero => intro j x; rfl
  | succ m ih =>
    intro j x
    rw [List.range'_succ, List.foldl_cons, ih (j + 1)]
    by_cases hm : m = 0
    · subst hm
      rw [if_pos rfl, if_neg (by omega : ¬ (0 + 1 : Nat) = 0)]
      congr 1
    · rw [if_neg hm, if_neg (by omega : ¬ m + 1 = 0)]
      have e1 : j + 1 + m - 1 = j + m := by omega
      have e2 : j + (m + 1) - 1 = j + m := by omega
      rw [e1, e2, Nat.max_assoc]
      congr 1
      exact Nat.max_eq_right (by omega)

theorem maxList_range {n : Nat} (h : 1 ≤ n) : maxList (List.range n) = .ok (n - 1) := by
  obtain ⟨m, rfl⟩ : ∃ m, n = m + 1 := ⟨n - 1, by omega⟩
  rw [List.range_eq_range', List.range'_succ]
  simp only [maxList, Except.ok.injEq]
  rw [foldl_max_range']
  by_cases hm : m = 0
  · simp [hm]
  · rw [if_neg hm]
    have e1 : 0 + 1 + m - 1 = m := by omega
    rw [e1, Nat.zero_max]
    omega

theorem splitDotZero_name (z : Nat) :
    splitDotZero (natStr z ++ str ".txt") = natStr z := by
  have hdot : str ".txt" = '.' :: str "txt" := rfl
  rw [show splitDotZero (natStr z ++ str ".txt") =
      headSplit '.' (natStr z ++ '.' :: str "txt") from by rw [← hdot]; rfl]
  exact headSplit_append _ (natStr_chars_ne (by decide))

/-! ## Filter lemmas for `remove_shard` -/

theorem map_fst_filter_key {α : Type} (m : List (Str × α)) (p : Str → Bool) :
    (m.filter (fun kv => p kv.1)).map Prod.fst = (m.map Prod.fst).filter p := by
  induction m with
  | nil => rfl
  | cons kv rest ih =>
    obtain ⟨k1, v1⟩ := kv
    by_cases hp : p k1
    · simp [List.filter_cons, hp, ih]
    · simp only [List.filter_cons] at *
      simp [hp, ih]

theorem filter_fileEntries_dropLast : ∀ (cs : List Str) (i K : Nat), cs ≠ [] →
    K + 1 = i + cs.length →
    (fileEntries i cs).filter (fun fc =>
      !(if !(hasDash fc.1) then splitDotZero fc.1 == natStr K
        else headSplit '-' fc.1 == natStr K)) = fileEntries i cs.dropLast := by
  intro cs
  induction cs with
  | nil => intro i K h _; exact absurd rfl h
  | cons c rest ih =>
    intro i K _ hK
    show ((natStr i ++ str ".txt", c) :: fileEntries (i + 1) rest).filter _ = _
    rw [List.filter_cons]
    cases rest with
    | nil =>
      have hiK : i = K := by simp at hK; omega
      subst hiK
      rw [if_neg (by
        simp only [hasDash_name, Bool.not_false, if_pos, splitDotZero_name]
        simp)]
      rfl
    | cons c2 rest2 =>
      have hiK : i < K := by simp at hK; omega
      rw [if_pos (by
        simp only [hasDash_name, Bool.not_false, if_pos, splitDotZero_name]
        simp only [Bool.not_eq_eq_eq_not, Bool.not_true, beq_eq_false_iff_ne, ne_eq]
        intro e
        have := natStr_inj e
        omega)]
      rw [ih (i + 1) K (by simp) (by simp at hK ⊢; omega)]
      rfl

theorem filter_keyList_ne_last {n : Nat} (h1 : 1 ≤ n) (h10 : n ≤ 10) :
    (keyList n).filter (fun k =>
      !(if !(hasDash k) then k == natStr (n - 1)
        else headSplit '-' k == natStr (n - 1))) = keyList (n - 1) := by
  interval_cases n <;> decide

/-! ## Rebalance step lemmas -/

theorem reload_eq_self {s : SH} (h : s.mapfile = s.mapping) :
    { s with mapping := s.mapfile } = s := by
  cases s
  simp only at h
  subst h
  rfl

theorem build_good {T : Str} {count : Nat} (h1 : 1 ≤ count) (h10 : count ≤ 10) :
    ∃ s0, build_shards (count : Int) T initState = .ok (none, s0) ∧
      GoodState T count s0 := by
  obtain ⟨ds, hgen, hdslen, hdsflat, -⟩ := gen_spec T count h1
  unfold build_shards
  rw [if_neg (by simp [initState])]
  rw [hgen]
  simp only []
  refine ⟨_, rfl, ⟨h1, h10, ?_, rfl, ds, hdslen, hdsflat, ?_⟩⟩
  · show (writeShards 0 ds initState).mapping.map Prod.fst = _
    rw [writeShards_keys ds 0 0 initState rfl (le_refl 0)]
    congr 1
    omega
  · show (writeShards 0 ds initState).files = _
    rw [writeShards_files_entries ds 0 [] initState rfl (le_refl 0)]
    simp

theorem add_shard_good {T : Str} {n : Nat} {s : SH} (hG : GoodState T n s)
    (hn : n + 1 ≤ 10) :
    ∃ s', add_shard s = .ok s' ∧ GoodState T (n + 1) s' := by
  obtain ⟨h1, h10, hkeys, hmf, cs, hlen, hflat, hfe⟩ := hG
  have hG' : GoodState T n s := ⟨h1, h10, hkeys, hmf, cs, hlen, hflat, hfe⟩
  obtain ⟨ds, hgen, hdslen, hdsflat, -⟩ := gen_spec T (n + 1) (by omega)
  have hkeys2 : (writeShards 0 ds s).mapping.map Prod.fst = keyList (n + 1) := by
    rw [writeShards_keys ds 0 n s hkeys (by omega)]
    congr 1
    omega
  have hfiles2 : (writeShards 0 ds s).files = fileEntries 0 ds := by
    rw [writeShards_files_entries ds 0 cs s hfe (by omega)]
    congr 1
    rw [List.take_zero, List.drop_eq_nil_of_le (by omega), List.nil_append,
      List.append_nil]
  have hGood3 : GoodState T (n + 1) (write_map (writeShards 0 ds s)) :=
    ⟨by omega, hn, hkeys2, rfl, ds, hdslen, hdsflat, hfiles2⟩
  refine ⟨write_map (writeShards 0 ds s), ?_, hGood3⟩
  unfold add_shard
  rw [good_sync hG']
  simp only []
  rw [reload_eq_self hmf]
  rw [good_load hG']
  simp only []
  rw [good_shard_ids hG', mapParse_keyList n]
  simp only []
  rw [maxList_range h1]
  simp only []
  rw [show n - 1 + 2 = n + 1 from by omega]
  rw [hgen]
  simp only []
  exact good_sync hGood3

theorem remove_shard_last {T : Str} {s : SH} (hG : GoodState T 1 s) :
    remove_shard s = .error (.exception (str "Cannot remove last shard"), s) := by
  obtain ⟨h1, h10, hkeys, hmf, cs, hlen, hflat, hfe⟩ := hG
  have hG' : GoodState T 1 s := ⟨h1, h10, hkeys, hmf, cs, hlen, hflat, hfe⟩
  unfold remove_shard
  rw [good_sync hG']
  simp only []
  rw [reload_eq_self hmf]
  rw [good_load hG']
  simp only []
  rw [good_shard_ids hG', mapParse_keyList 1]
  simp only []
  rfl

theorem remove_shard_good {T : Str} {n : Nat} {s : SH} (hG : GoodState T n s)
    (hn : 2 ≤ n) :
    ∃ s', remove_shard s = .ok s' ∧ GoodState T (n - 1) s' := by
  obtain ⟨h1, h10, hkeys, hmf, cs, hlen, hflat, hfe⟩ := hG
  have hG' : GoodState T n s := ⟨h1, h10, hkeys, hmf, cs, hlen, hflat, hfe⟩
  obtain ⟨ds, hgen, hdslen, hdsflat, -⟩ := gen_spec T (n - 1) (by omega)
  have hcs_ne : cs ≠ [] := by
    intro e
    rw [e] at hlen
    simp at hlen
    omega
  -- the state after the two deletion loops
  have hfilterf : s.files.filter (fun fc =>
      !(if !(hasDash fc.1) then splitDotZero fc.1 == natStr (n - 1)
        else headSplit '-' fc.1 == natStr (n - 1))) = fileEntries 0 cs.dropLast := by
    rw [hfe]
    exact filter_fileEntries_dropLast cs 0 (n - 1) hcs_ne (by omega)
  have hfilterm : (s.mapping.filter (fun kv =>
      !(if !(hasDash kv.1) then kv.1 == natStr (n - 1)
        else headSplit '-' kv.1 == natStr (n - 1)))).map Prod.fst =
      keyList (n - 1) := by
    have hmm := map_fst_filter_key s.mapping (fun k =>
      !(if !(hasDash k) then k == natStr (n - 1)
        else headSplit '-' k == natStr (n - 1)))
    simp only [] at hmm
    rw [hmm, hkeys]
    exact filter_keyList_ne_last h1 h10
  have hmain : remove_shard s =
      sync_replication (write_map (writeShards 0 ds
        { s with
          files := s.files.filter (fun fc =>
            !(if !(hasDash fc.1) then splitDotZero fc.1 == natStr (n - 1)
              else headSplit '-' fc.1 == natStr (n - 1))),
          mapping := s.mapping.filter (fun kv =>
            !(if !(hasDash kv.1) then kv.1 == natStr (n - 1)
              else headSplit '-' kv.1 == natStr (n - 1))) })) := by
    unfold remove_shard
    rw [good_sync hG']
    simp only []
    rw [reload_eq_self hmf]
    rw [good_load hG']
    simp only []
    rw [good_shard_ids hG', mapParse_keyList n]
    simp only []
    rw [if_neg (by simp; omega)]
    rw [maxList_range h1]
    simp only []
    rw [hgen]
    simp only []
    rw [hmf]
  set s3 : SH :=
    { s with
      files := s.files.filter (fun fc =>
        !(if !(hasDash fc.1) then splitDotZero fc.1 == natStr (n - 1)
          else headSplit '-' fc.1 == natStr (n - 1))),
      mapping := s.mapping.filter (fun kv =>
        !(if !(hasDash kv.1) then kv.1 == natStr (n - 1)
          else headSplit '-' kv.1 == natStr (n - 1))) } with hs3
  have hlenD : cs.dropLast.length = n - 1 := by
    rw [List.length_dropLast, hlen]
  have hkeys4 : (writeShards 0 ds s3).mapping.map Prod.fst = keyList (n - 1) := by
    rw [writeShards_keys ds 0 (n - 1) s3 hfilterm (by omega)]
    rw [hdslen, Nat.zero_add, Nat.max_self]
  have hfiles4 : (writeShards 0 ds s3).files = fileEntries 0 ds := by
    rw [writeShards_files_entries ds 0 cs.dropLast s3 hfilterf (by omega)]
    congr 1
    rw [List.take_zero, List.drop_eq_nil_of_le (by omega), List.nil_append,
      List.append_nil]
  have hGood : GoodState T (n - 1) (write_map (writeShards 0 ds s3)) :=
    ⟨by omega, by omega, hkeys4, rfl, ds, hdslen, hdsflat, hfiles4⟩
  refine ⟨write_map (writeShards 0 ds s3), ?_, hGood⟩
  rw [hmain]
  exact good_sync hGood

/-! ## Operation sequences -/

theorem countsLe10_append : ∀ (pre post : List Op) (n : Nat),
    countsLe10 n (pre ++ post) = true → countsLe10 n pre = true := by
  intro pre
  induction pre with
  | nil => intro post n _; rfl
  | cons op rest ih =>
    intro post n h
    cases op with
    | addOp =>
      simp only [List.cons_append, countsLe10, Bool.and_eq_true] at h ⊢
      exact ⟨h.1, ih post (n + 1) h.2⟩
    | removeOp =>
      simp only [List.cons_append, countsLe10] at h ⊢
      exact ih post (n - 1) h

theorem runOps_good : ∀ (ops : List Op) (n : Nat) (s : SH) (T : Str),
    GoodState T n s → countsLe10 n ops = true →
    ∀ s', runOps s ops = .ok s' → ∃ n', GoodState T n' s' := by
  intro ops
  induction ops with
  | nil =>
    intro n s T hG _ s' h
    simp only [runOps, Except.ok.injEq] at h
    exact ⟨n, h ▸ hG⟩
  | cons op rest ih =>
    intro n s T hG hc s' hrun
    cases op with
    | addOp =>
      simp only [countsLe10, Bool.and_eq_true, decide_eq_true_eq] at hc
      obtain ⟨s1, hadd, hG1⟩ := add_shard_good hG hc.1
      rw [show runOps s (Op.addOp :: rest) =
          (match add_shard s with
           | .error e => .error e
           | .ok s2 => runOps s2 rest) from rfl, hadd] at hrun
      simp only [] at hrun
      exact ih (n + 1) s1 T hG1 hc.2 s' hrun
    | removeOp =>
      simp only [countsLe10] at hc
      have h1 := hG.1
      rcases Nat.lt_or_ge n 2 with h2 | h2
      · have hn1 : n = 1 := by omega
        subst hn1
        rw [show runOps s (Op.removeOp :: rest) =
            (match remove_shard s with
             | .error e => .error e
             | .ok s2 => runOps s2 rest) from rfl,
          remove_shard_last hG] at hrun
        simp at hrun
      · obtain ⟨s1, hrem, hG1⟩ := remove_shard_good hG h2
        rw [show runOps s (Op.removeOp :: rest) =
            (match remove_shard s with
             | .error e => .error e
             | .ok s2 => runOps s2 rest) from rfl, hrem] at hrun
        simp only [] at hrun
        exact ih (n - 1) s1 T hG1 hc s' hrun

/-! ## Lookup-engine helper lemmas -/

theorem sumLen_take_succ (l : List Str) (z : Nat) (hz : z < l.length) :
    sumLen (l.take (z + 1)) = sumLen (l.take z) + (l.getD z []).length := by
  rw [List.take_succ, List.getElem?_eq_getElem hz]
  simp only [sumLen, List.map_append, List.sum_append, Option.toList_some,
    List.map_cons, List.map_nil, List.sum_cons, List.sum_nil]
  rw [List.getD_eq_getElem _ _ hz]
  omega

theorem sumLen_take_const (l : List Str) (q : Nat) : ∀ z, z ≤ l.length →
    (∀ i, i < z → (l.getD i []).length = q) → sumLen (l.take z) = q * z := by
  intro z
  induction z with
  | zero => intro _ _; simp [sumLen]
  | succ z ih =>
    intro hz hlen
    rw [sumLen_take_succ l z (by omega), ih (by omega) (fun i hi => hlen i (by omega)),
      hlen z (by omega)]
    ring

theorem mapParse_ok_of_all (f : Str → Str) : ∀ l : List Str,
    (∀ x ∈ l, (parseNat? (f x)).isSome) →
    ∃ ns, mapParse f l = .ok ns ∧ ns.length = l.length := by
  intro l
  induction l with
  | nil => intro _; exact ⟨[], rfl, rfl⟩
  | cons x rest ih =>
    intro h
    obtain ⟨nx, hnx⟩ := Option.isSome_iff_exists.mp (h x (by simp))
    obtain ⟨ns, hns, hlen⟩ := ih (fun y hy => h y (by simp [hy]))
    refine ⟨nx :: ns, ?_, by simp [hlen]⟩
    simp only [mapParse, hnx, hns]

theorem shard_ids_sub {s : SH} {k : Str} (h : k ∈ get_shard_ids s) :
    k ∈ s.mapping.map Prod.fst := by
  unfold get_shard_ids at h
  exact (List.mem_filter.mp (mem_sortStr.mp h)).1

theorem shard_ids_nodash {s : SH} {k : Str} (h : k ∈ get_shard_ids s) :
    hasDash k = false := by
  unfold get_shard_ids at h
  have h2 := (List.mem_filter.mp (mem_sortStr.mp h)).2
  simpa using h2

theorem wordLoop_none {s : SH} {index largest : Nat} : ∀ ks : List Str,
    (∀ k ∈ ks, k ∈ s.mapping.map Prod.fst) →
    (∀ k ∈ ks, ∀ m, lookupA s.mapping k = some m →
      ¬ (m.start ≤ index ∧ index ≤ m.stop)) →
    wordLoop s index largest ks = .ok none := by
  intro ks
  induction ks with
  | nil => intro _ _; rfl
  | cons k rest ih =>
    intro hmem hout
    obtain ⟨m, hm⟩ := Option.isSome_iff_exists.mp (lookupA_isSome_of_mem (hmem k (by simp)))
    simp only [wordLoop, hm]
    rw [if_neg (by
      simp only [Bool.and_eq_true, decide_eq_true_eq]
      intro hc
      exact hout k (by simp) m hm hc)]
    exact ih (fun y hy => hmem y (by simp [hy])) (fun y hy => hout y (by simp [hy]))

theorem skipPunct_oob (text : Str) (fuel i : Nat) (h : text.length ≤ i) :
    skipPunct text (fuel + 1) i = .error .indexError := by
  simp only [skipPunct, pyIndex_natCast]
  rw [List.get?_eq_none.mpr h]

/-- Normal form of a successful `build_shards` run from the empty state. -/
theorem build_shards_eq {count : Nat} {text : Str} {ds : List Str}
    (hgen : _generate_sharded_data (count : Int) text = .ok ds) :
    build_shards (count : Int) text initState =
      .ok (none, write_map (writeShards 0 ds initState)) := by
  unfold build_shards
  rw [if_neg (by simp [initState]), hgen]

/-! ## Sync machinery: membership and congruence facts -/

theorem mem_of_lookup_some {α : Type} {m : List (Str × α)} {k : Str} {v : α}
    (h : lookupA m k = some v) : k ∈ m.map Prod.fst := by
  induction m with
  | nil => simp [lookupA] at h
  | cons kv rest ih =>
    obtain ⟨k1, v1⟩ := kv
    by_cases hk : k1 = k
    · subst hk
      rw [List.map_cons]
      exact List.mem_cons.mpr (Or.inl rfl)
    · simp only [lookupA] at h
      rw [if_neg (by simp [hk])] at h
      rw [List.map_cons]
      exact List.mem_cons.mpr (Or.inr (ih h))

theorem mem_rep_ids {s : SH} {k : Str} :
    k ∈ get_replication_ids s ↔
      (k ∈ s.mapping.map Prod.fst ∧ hasDash k = true) := by
  unfold get_replication_ids
  rw [mem_sortStr, List.mem_filter]

theorem mem_shard_ids {s : SH} {k : Str} :
    k ∈ get_shard_ids s ↔
      (k ∈ s.mapping.map Prod.fst ∧ hasDash k = false) := by
  unfold get_shard_ids
  rw [mem_sortStr, List.mem_filter, Bool.not_eq_true']

theorem headSplit_nodash (k : Str) : hasDash (headSplit '-' k) = false := by
  rw [hasDash_eq_false_iff]
  intro hm
  have h2 := List.mem_takeWhile_imp hm
  simp at h2

theorem ne_of_dash_nodash {a b : Str} (ha : hasDash a = true)
    (hb : hasDash b = false) : b ≠ a := by
  intro e
  subst e
  rw [ha] at hb
  cases hb

theorem mem_keys_dictSet_sup {α : Type} {m : List (Str × α)} {k' : Str}
    (k : Str) (v : α) (h : k' ∈ m.map Prod.fst) :
    k' ∈ (dictSet m k v).map Prod.fst := by
  by_cases hmem : k ∈ m.map Prod.fst
  · rw [dictSet_keys_of_mem _ hmem]
    exact h
  · rw [dictSet_keys_of_not_mem _ hmem]
    exact List.mem_append_left _ h

theorem filter_nodash_dictSet {α : Type} (m : List (Str × α)) (k : Str) (v : α)
    (hd : hasDash k = true) :
    ((dictSet m k v).map Prod.fst).filter (fun x => !(hasDash x)) =
      (m.map Prod.fst).filter (fun x => !(hasDash x)) := by
  by_cases hmem : k ∈ m.map Prod.fst
  · rw [dictSet_keys_of_mem _ hmem]
  · rw [dictSet_keys_of_not_mem _ hmem, List.filter_append]
    simp [hd]

theorem okay_congr {s t : SH}
    (hm : (t.mapping.map Prod.fst).filter (fun k => !(hasDash k)) =
      (s.mapping.map Prod.fst).filter (fun k => !(hasDash k)))
    (hf : (t.files.map Prod.fst).filter (fun k => !(hasDash k)) =
      (s.files.map Prod.fst).filter (fun k => !(hasDash k))) :
    primary_files_okay t = primary_files_okay s := by
  unfold primary_files_okay get_shard_ids
  rw [hm, hf]

theorem shard_ids_congr {s t : SH}
    (hm : (t.mapping.map Prod.fst).filter (fun k => !(hasDash k)) =
      (s.mapping.map Prod.fst).filter (fun k => !(hasDash k))) :
    get_shard_ids t = get_shard_ids s := by
  unfold get_shard_ids
  rw [hm]

theorem rep_ids_congr {s t : SH}
    (hm : t.mapping.map Prod.fst = s.mapping.map Prod.fst) :
    get_replication_ids t = get_replication_ids s := by
  unfold get_replication_ids
  rw [hm]

theorem write_map_okay (s : SH) :
    primary_files_okay (write_map s) = primary_files_okay s := rfl

theorem write_map_shard_ids (s : SH) :
    get_shard_ids (write_map s) = get_shard_ids s := rfl

theorem write_map_rep_ids (s : SH) :
    get_replication_ids (write_map s) = get_replication_ids s := rfl

theorem hasDash_txt {q : Str} (h : hasDash q = false) :
    hasDash (q ++ str ".txt") = false := by
  rw [hasDash_append, h]
  decide

theorem hasDash_repKeyTxt (p : Str) (lv : Nat) :
    hasDash (p ++ '-' :: natStr lv ++ str ".txt") = true := by
  rw [hasDash_append, hasDash_repKey]
  rfl

theorem repKeyTxt_inj {p q : Str} {l1 l2 : Nat}
    (hp : ∀ x ∈ p, (x != '-') = true) (hq : ∀ x ∈ q, (x != '-') = true)
    (h : p ++ '-' :: natStr l1 ++ str ".txt" = q ++ '-' :: natStr l2 ++ str ".txt") :
    p = q ∧ l1 = l2 :=
  repKey_inj hp hq (append_cancel_r h)

/-- The int-vs-str comparison makes `rep_level_has_same_keys` return `False`
for every non-empty replica key list: `level_files` is always empty while
`primary_keys` is not. -/
theorem rep_level_false (s : SH) (keys pk : List Str) (lv : Nat)
    (h : keys ≠ []) : rep_level_has_same_keys s keys pk lv = false := by
  unfold rep_level_has_same_keys
  by_cases h1 : (keys.length != pk.length) = true
  · rw [if_pos h1]
  · rw [if_neg h1]
    by_cases h2 : ((keys.zip pk).any fun rp => headSplit '-' rp.1 != rp.2) = true
    · rw [if_pos h2]
    · rw [if_neg h2]
      have hlen : keys.length = pk.length := by simpa using h1
      have hpk : 1 ≤ pk.length := by
        rw [← hlen]
        cases keys with
        | nil => exact absurd rfl h
        | cons a as => simp
      rw [if_pos ?_]
      simp only [intEqStr, List.filter_false, List.length_nil]
      simp only [bne_iff_ne, ne_eq]
      omega

/-! ## Sync machinery: `restore_primary_files` facts -/

theorem copyfile_fields {src dst : Str} {s t : SH} (h : copyfile src dst s = .ok t) :
    t.mapping = s.mapping ∧ t.mapfile = s.mapfile ∧
      t.replication_level = s.replication_level ∧
      t.last_char_position = s.last_char_position := by
  unfold copyfile at h
  cases hl : lookupA s.files src with
  | none => rw [hl] at h; cases h
  | some c =>
    rw [hl] at h
    injection h with h2
    subst h2
    exact ⟨rfl, rfl, rfl, rfl⟩

theorem findCopyOther_fields : ∀ (others : List Str) (i : Nat) (s t : SH),
    findCopyOther i others s = .ok t →
    t.mapping = s.mapping ∧ t.mapfile = s.mapfile ∧
      t.replication_level = s.replication_level ∧
      t.last_char_position = s.last_char_position := by
  intro others
  induction others with
  | nil =>
    intro i s t h
    injection h with h2
    subst h2
    exact ⟨rfl, rfl, rfl, rfl⟩
  | cons f rest ih =>
    intro i s t h
    simp only [findCopyOther] at h
    cases hp : parseNat? (headSplit '-' f) with
    | none => rw [hp] at h; cases h
    | some m =>
      rw [hp] at h
      simp only [] at h
      by_cases hm : (m == i) = true
      · rw [if_pos hm] at h
        cases hc : copyfile f (natStr i ++ str ".txt") s with
        | error e => rw [hc] at h; cases h
        | ok s1 =>
          rw [hc] at h
          injection h with h2
          subst h2
          exact copyfile_fields hc
      · rw [if_neg hm] at h
        exact ih i s t h

theorem enumFixLoop_fields : ∀ (pf others : List Str) (i : Nat) (s t : SH),
    enumFixLoop others i pf s = .ok t →
    t.mapping = s.mapping ∧ t.mapfile = s.mapfile ∧
      t.replication_level = s.replication_level ∧
      t.last_char_position = s.last_char_position := by
  intro pf
  induction pf with
  | nil =>
    intro others i s t h
    injection h with h2
    subst h2
    exact ⟨rfl, rfl, rfl, rfl⟩
  | cons f rest ih =>
    intro others i s t h
    simp only [enumFixLoop] at h
    cases hp : parseNat? (splitDotZero f) with
    | none => rw [hp] at h; cases h
    | some m =>
      rw [hp] at h
      simp only [] at h
      by_cases hm : (i != m) = true
      · rw [if_pos hm] at h
        cases hc : findCopyOther i others s with
        | error e => rw [hc] at h; cases h
        | ok s1 =>
          rw [hc] at h
          simp only [] at h
          obtain ⟨m1, m2, m3, m4⟩ := findCopyOther_fields others i s s1 hc
          obtain ⟨n1, n2, n3, n4⟩ := ih others (i + 1) s1 t h
          exact ⟨n1.trans m1, n2.trans m2, n3.trans m3, n4.trans m4⟩
      · rw [if_neg hm] at h
        exact ih others (i + 1) s t h

theorem restoreCopyNew_fields {b : Bool} {ofl : List Str} {ofn : Nat} {s t : SH}
    (h : restoreCopyNew b ofl ofn s = .ok t) :
    t.mapping = s.mapping ∧ t.mapfile = s.mapfile ∧
      t.replication_level = s.replication_level ∧
      t.last_char_position = s.last_char_position := by
  unfold restoreCopyNew at h
  by_cases hb : b = true
  · rw [if_pos hb] at h
    cases hl : ofl.getLast? with
    | none => rw [hl] at h; cases h
    | some lastOther =>
      rw [hl] at h
      simp only [] at h
      cases hc : copyfile lastOther (natStr ofn ++ str ".txt") s with
      | error e => rw [hc] at h; cases h
      | ok s1 =>
        rw [hc] at h
        injection h with h2
        subst h2
        exact copyfile_fields hc
  · rw [if_neg hb] at h
    injection h with h2
    subst h2
    exact ⟨rfl, rfl, rfl, rfl⟩

theorem restoreBody_fields {s t : SH} (h : restoreBody s = .ok t) :
    t.mapping = s.mapping ∧ t.mapfile = s.mapfile ∧
      t.replication_level = s.replication_level ∧
      t.last_char_position = s.last_char_position := by
  unfold restoreBody at h
  simp only [] at h
  cases h1 : mapParse splitDotZero ((s.files.map Prod.fst).filter fun f => !hasDash f) with
  | error e => rw [h1] at h; cases h
  | ok primary_nums =>
    rw [h1] at h
    simp only [] at h
    cases h2 : mapParse (headSplit '-') ((s.files.map Prod.fst).filter hasDash) with
    | error e => rw [h2] at h; cases h
    | ok other_nums =>
      rw [h2] at h
      simp only [] at h
      cases h3 : maxList other_nums with
      | error e => rw [h3] at h; cases h
      | ok ofn =>
        rw [h3] at h
        simp only [] at h
        cases h4 : restoreCopyNew (needsNewPrimary primary_nums ofn)
            ((s.files.map Prod.fst).filter hasDash) ofn s with
        | error e => rw [h4] at h; cases h
        | ok s1 =>
          rw [h4] at h
          simp only [] at h
          obtain ⟨m1, m2, m3, m4⟩ := restoreCopyNew_fields h4
          obtain ⟨n1, n2, n3, n4⟩ := enumFixLoop_fields _ _ _ _ _ h
          exact ⟨n1.trans m1, n2.trans m2, n3.trans m3, n4.trans m4⟩

theorem restoreGo_fields : ∀ (fuel : Nat) (s t : SH),
    restoreGo fuel s = .ok t →
    t.mapping = s.mapping ∧ t.mapfile = s.mapfile ∧
      t.replication_level = s.replication_level ∧
      t.last_char_position = s.last_char_position := by
  intro fuel
  induction fuel with
  | zero =>
    intro s t h
    simp only [restoreGo] at h
    by_cases hok : primary_files_okay s = true
    · rw [if_pos hok] at h
      injection h with h2
      subst h2
      exact ⟨rfl, rfl, rfl, rfl⟩
    · rw [if_neg hok] at h
      cases h
  | succ x ih =>
    intro s t h
    simp only [restoreGo] at h
    by_cases hok : primary_files_okay s = true
    · rw [if_pos hok] at h
      injection h with h2
      subst h2
      exact ⟨rfl, rfl, rfl, rfl⟩
    · rw [if_neg hok] at h
      cases hb : restoreBody s with
      | error e => rw [hb] at h; cases h
      | ok s1 =>
        rw [hb] at h
        simp only [] at h
        obtain ⟨m1, m2, m3, m4⟩ := restoreBody_fields hb
        obtain ⟨n1, n2, n3, n4⟩ := ih s1 t h
        exact ⟨n1.trans m1, n2.trans m2, n3.trans m3, n4.trans m4⟩

theorem restoreGo_okay : ∀ (fuel : Nat) (s t : SH),
    restoreGo fuel s = .ok t → primary_files_okay t = true := by
  intro fuel
  induction fuel with
  | zero =>
    intro s t h
    simp only [restoreGo] at h
    by_cases hok : primary_files_okay s = true
    · rw [if_pos hok] at h
      injection h with h2
      subst h2
      exact hok
    · rw [if_neg hok] at h
      cases h
  | succ x ih =>
    intro s t h
    simp only [restoreGo] at h
    by_cases hok : primary_files_okay s = true
    · rw [if_pos hok] at h
      injection h with h2
      subst h2
      exact hok
    · rw [if_neg hok] at h
      cases hb : restoreBody s with
      | error e => rw [hb] at h; cases h
      | ok s1 =>
        rw [hb] at h
        simp only [] at h
        exact ih s1 t h

/-! ## Sync machinery: the refresh loop -/

theorem refreshLoop_spec : ∀ (ks : List Str) (s t : SH),
    (∀ k ∈ ks, hasDash k = true) →
    (∀ k ∈ ks, k ∈ s.mapping.map Prod.fst) →
    refreshLoop ks s = .ok t →
    t.mapping.map Prod.fst = s.mapping.map Prod.fst ∧
    (t.files = s.files ∧ t.mapfile = s.mapfile ∧
      t.replication_level = s.replication_level ∧
      t.last_char_position = s.last_char_position) ∧
    (∀ k, hasDash k = false → lookupA t.mapping k = lookupA s.mapping k) ∧
    (∀ k ∈ ks, ∃ v, lookupA s.mapping (headSplit '-' k) = some v ∧
      lookupA t.mapping k = some v ∧
      lookupA t.mapping (headSplit '-' k) = some v) ∧
    (∀ k, k ∉ ks → lookupA t.mapping k = lookupA s.mapping k) := by
  intro ks
  induction ks with
  | nil =>
    intro s t _ _ h
    injection h with h2
    subst h2
    exact ⟨rfl, ⟨rfl, rfl, rfl, rfl⟩, fun _ _ => rfl,
      fun k hk => absurd hk (List.not_mem_nil k), fun _ _ => rfl⟩
  | cons k rest ih =>
    intro s t hd hm h
    simp only [refreshLoop] at h
    cases hv : lookupA s.mapping (headSplit '-' k) with
    | none => rw [hv] at h; cases h
    | some v =>
      rw [hv] at h
      simp only [] at h
      have hdk : hasDash k = true := hd k (List.mem_cons.mpr (Or.inl rfl))
      have hkeys1 : (dictSet s.mapping k v).map Prod.fst = s.mapping.map Prod.fst :=
        dictSet_keys_of_mem v (hm k (List.mem_cons.mpr (Or.inl rfl)))
      have hd' : ∀ x ∈ rest, hasDash x = true :=
        fun x hx => hd x (List.mem_cons.mpr (Or.inr hx))
      have hm' : ∀ x ∈ rest,
          x ∈ ({ s with mapping := dictSet s.mapping k v } : SH).mapping.map Prod.fst := by
        intro x hx
        show x ∈ (dictSet s.mapping k v).map Prod.fst
        rw [hkeys1]
        exact hm x (List.mem_cons.mpr (Or.inr hx))
      obtain ⟨ka, hfld, hnod, hspec, hoth⟩ := ih _ t hd' hm' h
      have hstep_nodash : ∀ q, hasDash q = false →
          lookupA (dictSet s.mapping k v) q = lookupA s.mapping q :=
        fun q hq => lookupA_dictSet_ne _ v (ne_of_dash_nodash hdk hq)
      have ka' : t.mapping.map Prod.fst = (dictSet s.mapping k v).map Prod.fst := ka
      refine ⟨ka'.trans hkeys1, hfld, ?_, ?_, ?_⟩
      · intro q hq
        have h1 : lookupA t.mapping q = lookupA (dictSet s.mapping k v) q := hnod q hq
        rw [h1]
        exact hstep_nodash q hq
      · intro x hx
        rcases List.mem_cons.mp hx with hx1 | hx2
        · subst hx1
          by_cases hkr : x ∈ rest
          · obtain ⟨v', h1, h2, h3⟩ := hspec x hkr
            have h1' : lookupA (dictSet s.mapping x v) (headSplit '-' x) = some v' := h1
            rw [hstep_nodash _ (headSplit_nodash x), hv] at h1'
            have hvv : v = v' := Option.some.inj h1'
            subst hvv
            exact ⟨v, hv, h2, h3⟩
          · have h2 : lookupA t.mapping x = lookupA (dictSet s.mapping x v) x :=
              hoth x hkr
            have h3 : lookupA t.mapping (headSplit '-' x) =
                lookupA (dictSet s.mapping x v) (headSplit '-' x) :=
              hnod (headSplit '-' x) (headSplit_nodash x)
            refine ⟨v, hv, ?_, ?_⟩
            · rw [h2]
              exact lookupA_dictSet_self _ _ _
            · rw [h3, hstep_nodash _ (headSplit_nodash x)]
              exact hv
        · obtain ⟨v', h1, h2, h3⟩ := hspec x hx2
          have h1' : lookupA (dictSet s.mapping k v) (headSplit '-' x) = some v' := h1
          rw [hstep_nodash _ (headSplit_nodash x)] at h1'
          exact ⟨v', h1', h2, h3⟩
      · intro q hq
        have hq2 : q ∉ rest := fun hr => hq (List.mem_cons.mpr (Or.inr hr))
        have hqk : q ≠ k := fun e => hq (List.mem_cons.mpr (Or.inl e))
        have h1 : lookupA t.mapping q = lookupA (dictSet s.mapping k v) q :=
          hoth q hq2
        rw [h1]
        exact lookupA_dictSet_ne _ v hqk

/-! ## Sync machinery: the level grouping -/

theorem groupLoop_parses : ∀ (l : List Str) (acc gs : List (Nat × List Str)),
    groupLoop l acc = .ok gs →
    ∀ k ∈ l, (parseNat? (secondSplit '-' k)).isSome := by
  intro l
  induction l with
  | nil => intro acc gs _ k hk; exact absurd hk (List.not_mem_nil k)
  | cons a rest ih =>
    intro acc gs h k hk
    simp only [groupLoop] at h
    cases hp : parseNat? (secondSplit '-' a) with
    | none => rw [hp] at h; cases h
    | some lv =>
      rw [hp] at h
      rcases List.mem_cons.mp hk with h1 | h2
      · subst h1; rw [hp]; rfl
      · exact ih _ gs h k h2

theorem groupLoop_ok : ∀ (l : List Str) (acc : List (Nat × List Str)),
    (∀ k ∈ l, (parseNat? (secondSplit '-' k)).isSome) →
    ∃ gs, groupLoop l acc = .ok gs := by
  intro l
  induction l with
  | nil => intro acc _; exact ⟨acc, rfl⟩
  | cons a rest ih =>
    intro acc hp
    obtain ⟨lv, hlv⟩ :=
      Option.isSome_iff_exists.mp (hp a (List.mem_cons.mpr (Or.inl rfl)))
    obtain ⟨gs, hgs⟩ :=
      ih (addToGroups acc lv a) (fun k hk => hp k (List.mem_cons.mpr (Or.inr hk)))
    refine ⟨gs, ?_⟩
    simp only [groupLoop]
    rw [hlv]
    exact hgs

theorem addToGroups_inv (P : Nat → Prop) :
    ∀ (acc : List (Nat × List Str)) (lv : Nat) (k : Str),
    (∀ g ∈ acc, g.2 ≠ [] ∧ P g.1) → P lv →
    ∀ g ∈ addToGroups acc lv k, g.2 ≠ [] ∧ P g.1 := by
  intro acc
  induction acc with
  | nil =>
    intro lv k _ hP g hg
    simp only [addToGroups] at hg
    rcases List.mem_cons.mp hg with h1 | h2
    · subst h1; exact ⟨by simp, hP⟩
    · exact absurd h2 (List.not_mem_nil g)
  | cons a rest ih =>
    intro lv k hacc hP g hg
    obtain ⟨l0, ks0⟩ := a
    simp only [addToGroups] at hg
    by_cases hl : (l0 == lv) = true
    · rw [if_pos hl] at hg
      rcases List.mem_cons.mp hg with h1 | h2
      · subst h1
        exact ⟨by simp, (hacc (l0, ks0) (List.mem_cons.mpr (Or.inl rfl))).2⟩
      · exact hacc g (List.mem_cons.mpr (Or.inr h2))
    · rw [if_neg hl] at hg
      rcases List.mem_cons.mp hg with h1 | h2
      · subst h1
        exact hacc (l0, ks0) (List.mem_cons.mpr (Or.inl rfl))
      · exact ih lv k (fun g' hg' => hacc g' (List.mem_cons.mpr (Or.inr hg'))) hP g h2

theorem groupLoop_inv (P : Nat → Prop) : ∀ (l : List Str) (acc gs : List (Nat × List Str)),
    (∀ k ∈ l, ∀ lv, parseNat? (secondSplit '-' k) = some lv → P lv) →
    (∀ g ∈ acc, g.2 ≠ [] ∧ P g.1) →
    groupLoop l acc = .ok gs →
    ∀ g ∈ gs, g.2 ≠ [] ∧ P g.1 := by
  intro l
  induction l with
  | nil =>
    intro acc gs _ hacc h
    injection h with h2
    subst h2
    exact hacc
  | cons a rest ih =>
    intro acc gs hl hacc h
    simp only [groupLoop] at h
    cases hp : parseNat? (secondSplit '-' a) with
    | none => rw [hp] at h; cases h
    | some lv =>
      rw [hp] at h
      exact ih _ gs (fun k hk lv' hlv' => hl k (List.mem_cons.mpr (Or.inr hk)) lv' hlv')
        (addToGroups_inv P acc lv a hacc (hl a (List.mem_cons.mpr (Or.inl rfl)) lv hp)) h

theorem addToGroups_levels : ∀ (acc : List (Nat × List Str)) (lv : Nat) (k : Str),
    lv ∈ (addToGroups acc lv k).map Prod.fst ∧
    ∀ l' ∈ acc.map Prod.fst, l' ∈ (addToGroups acc lv k).map Prod.fst := by
  intro acc
  induction acc with
  | nil =>
    intro lv k
    constructor
    · simp [addToGroups]
    · intro l' hl'
      exact absurd hl' (by simp)
  | cons a rest ih =>
    intro lv k
    obtain ⟨l0, ks0⟩ := a
    simp only [addToGroups]
    by_cases hl : (l0 == lv) = true
    · rw [if_pos hl]
      have he : l0 = lv := by simpa using hl
      constructor
      · rw [List.map_cons]
        exact List.mem_cons.mpr (Or.inl he.symm)
      · intro l' hl'
        rw [List.map_cons] at hl' ⊢
        exact hl'
    · rw [if_neg hl]
      constructor
      · rw [List.map_cons]
        exact List.mem_cons.mpr (Or.inr (ih lv k).1)
      · intro l' hl'
        rw [List.map_cons] at hl'
        rcases List.mem_cons.mp hl' with h1 | h2
        · rw [List.map_cons]
          exact List.mem_cons.mpr (Or.inl h1)
        · rw [List.map_cons]
          exact List.mem_cons.mpr (Or.inr ((ih lv k).2 l' h2))

theorem groupLoop_sup : ∀ (l : List Str) (acc gs : List (Nat × List Str)),
    groupLoop l acc = .ok gs →
    ∀ lv ∈ acc.map Prod.fst, lv ∈ gs.map Prod.fst := by
  intro l
  induction l with
  | nil =>
    intro acc gs h
    injection h with h2
    subst h2
    exact fun _ hlv => hlv
  | cons a rest ih =>
    intro acc gs h lv hlv
    simp only [groupLoop] at h
    cases hp : parseNat? (secondSplit '-' a) with
    | none => rw [hp] at h; cases h
    | some lv0 =>
      rw [hp] at h
      exact ih _ gs h lv ((addToGroups_levels acc lv0 a).2 lv hlv)

theorem groupLoop_complete : ∀ (l : List Str) (acc gs : List (Nat × List Str)),
    groupLoop l acc = .ok gs →
    ∀ k ∈ l, ∀ lv, parseNat? (secondSplit '-' k) = some lv →
    lv ∈ gs.map Prod.fst := by
  intro l
  induction l with
  | nil => intro acc gs _ k hk; exact absurd hk (List.not_mem_nil k)
  | cons a rest ih =>
    intro acc gs h k hk lv hlv
    simp only [groupLoop] at h
    cases hp : parseNat? (secondSplit '-' a) with
    | none => rw [hp] at h; cases h
    | some lv0 =>
      rw [hp] at h
      rcases List.mem_cons.mp hk with h1 | h2
      · subst h1
        rw [hp] at hlv
        injection hlv with h3
        subst h3
        exact groupLoop_sup rest _ gs h _ (addToGroups_levels acc _ _).1
      · exact ih _ gs h k h2 lv hlv

/-! ## Sync machinery: the regeneration loops -/

theorem copyfile_ok_inv {src dst : Str} {x t : SH} (h : copyfile src dst x = .ok t) :
    ∃ c, lookupA x.files src = some c ∧
      t = { x with files := dictSet x.files dst c } := by
  unfold copyfile at h
  cases hl : lookupA x.files src with
  | none => rw [hl] at h; cases h
  | some c =>
    rw [hl] at h
    injection h with h2
    exact ⟨c, rfl, h2.symm⟩

theorem regenPrim_spec (lv : Nat) : ∀ (ps : List Str) (s t : SH),
    (∀ p ∈ ps, hasDash p = false) →
    regenPrimLoop lv ps s = .ok t →
    (t.mapfile = s.mapfile ∧ t.replication_level = s.replication_level ∧
      t.last_char_position = s.last_char_position) ∧
    (∀ k, hasDash k = false → lookupA t.mapping k = lookupA s.mapping k) ∧
    (∀ f, hasDash f = false → lookupA t.files f = lookupA s.files f) ∧
    ((t.mapping.map Prod.fst).filter (fun x => !(hasDash x)) =
      (s.mapping.map Prod.fst).filter (fun x => !(hasDash x))) ∧
    ((t.files.map Prod.fst).filter (fun x => !(hasDash x)) =
      (s.files.map Prod.fst).filter (fun x => !(hasDash x))) ∧
    (∀ p ∈ ps, GoodSlot t p lv) ∧
    (∀ q lv2, hasDash q = false → GoodSlot s q lv2 → GoodSlot t q lv2) ∧
    (∀ k, (∀ p ∈ ps, k ≠ p ++ '-' :: natStr lv) →
      lookupA t.mapping k = lookupA s.mapping k) ∧
    (∀ k ∈ t.mapping.map Prod.fst, k ∈ s.mapping.map Prod.fst ∨
      ∃ p ∈ ps, k = p ++ '-' :: natStr lv) ∧
    (∀ k ∈ s.mapping.map Prod.fst, k ∈ t.mapping.map Prod.fst) := by
  intro ps
  induction ps with
  | nil =>
    intro s t _ h
    injection h with h2
    subst h2
    exact ⟨⟨rfl, rfl, rfl⟩, fun _ _ => rfl, fun _ _ => rfl, rfl, rfl,
      fun p hp => absurd hp (List.not_mem_nil p), fun _ _ _ hg => hg,
      fun _ _ => rfl, fun k hk => Or.inl hk, fun _ hk => hk⟩
  | cons p rest ih =>
    intro s t hps h
    simp only [regenPrimLoop] at h
    cases hv : lookupA s.mapping p with
    | none => rw [hv] at h; cases h
    | some v =>
      rw [hv] at h
      simp only [] at h
      cases hc : copyfile (p ++ str ".txt") (p ++ '-' :: natStr lv ++ str ".txt")
          ({ s with mapping := dictSet s.mapping (p ++ '-' :: natStr lv) v }) with
      | error e => rw [hc] at h; cases h
      | ok s2 =>
        rw [hc] at h
        simp only [] at h
        obtain ⟨c, hccRaw, hs2⟩ := copyfile_ok_inv hc
        have hcc : lookupA s.files (p ++ str ".txt") = some c := hccRaw
        have hdp : hasDash p = false := hps p (List.mem_cons.mpr (Or.inl rfl))
        have hKdash : hasDash (p ++ '-' :: natStr lv) = true :=
          hasDash_repKey p (natStr lv)
        have hDdash : hasDash (p ++ '-' :: natStr lv ++ str ".txt") = true :=
          hasDash_repKeyTxt p lv
        have hs2m : s2.mapping = dictSet s.mapping (p ++ '-' :: natStr lv) v := by
          rw [hs2]
        have hs2f : s2.files =
            dictSet s.files (p ++ '-' :: natStr lv ++ str ".txt") c := by
          rw [hs2]
        have hs2mf : s2.mapfile = s.mapfile := by rw [hs2]
        have hs2rl : s2.replication_level = s.replication_level := by rw [hs2]
        have hs2lcp : s2.last_char_position = s.last_char_position := by rw [hs2]
        have hrest : ∀ x ∈ rest, hasDash x = false :=
          fun x hx => hps x (List.mem_cons.mpr (Or.inr hx))
        obtain ⟨⟨iA1, iA2, iA3⟩, iB, iC, iD, iE, iSlot, iPres, iUn, iGrow, iLow⟩ :=
          ih s2 t hrest h
        have smap_nodash : ∀ k, hasDash k = false →
            lookupA s2.mapping k = lookupA s.mapping k := by
          intro k hk
          rw [hs2m]
          exact lookupA_dictSet_ne _ v (ne_of_dash_nodash hKdash hk)
        have sfil_nodash : ∀ f, hasDash f = false →
            lookupA s2.files f = lookupA s.files f := by
          intro f hf
          rw [hs2f]
          exact lookupA_dictSet_ne _ c (ne_of_dash_nodash hDdash hf)
        have hstep_pres : ∀ q lv2, hasDash q = false →
            GoodSlot s q lv2 → GoodSlot s2 q lv2 := by
          intro q lv2 hq hgs
          obtain ⟨⟨w, hw1, hw2⟩, ⟨e, he1, he2⟩⟩ := hgs
          constructor
          · refine ⟨w, ?_, ?_⟩
            · rw [smap_nodash q hq]
              exact hw1
            · by_cases heq : q ++ '-' :: natStr lv2 = p ++ '-' :: natStr lv
              · obtain ⟨hqp, hlv⟩ :=
                  repKey_inj (nodash_chars hq) (nodash_chars hdp) heq
                subst hqp
                subst hlv
                have hwv : w = v := by
                  rw [hw1] at hv
                  exact Option.some.inj hv
                subst hwv
                rw [hs2m, heq]
                exact lookupA_dictSet_self _ _ _
              · rw [hs2m, lookupA_dictSet_ne _ v heq]
                exact hw2
          · refine ⟨e, ?_, ?_⟩
            · rw [sfil_nodash _ (hasDash_txt hq)]
              exact he1
            · by_cases heq : q ++ '-' :: natStr lv2 ++ str ".txt" =
                  p ++ '-' :: natStr lv ++ str ".txt"
              · obtain ⟨hqp, hlv⟩ :=
                  repKeyTxt_inj (nodash_chars hq) (nodash_chars hdp) heq
                subst hqp
                subst hlv
                have hec : e = c := by
                  rw [he1] at hcc
                  exact Option.some.inj hcc
                subst hec
                rw [hs2f, heq]
                exact lookupA_dictSet_self _ _ _
              · rw [hs2f, lookupA_dictSet_ne _ c heq]
                exact he2
        refine ⟨⟨iA1.trans hs2mf, iA2.trans hs2rl, iA3.trans hs2lcp⟩,
          ?_, ?_, ?_, ?_, ?_, ?_, ?_, ?_, ?_⟩
        · intro k hk
          exact (iB k hk).trans (smap_nodash k hk)
        · intro f hf
          exact (iC f hf).trans (sfil_nodash f hf)
        · refine iD.trans ?_
          rw [hs2m]
          exact filter_nodash_dictSet _ _ _ hKdash
        · refine iE.trans ?_
          rw [hs2f]
          exact filter_nodash_dictSet _ _ _ hDdash
        · intro x hx
          rcases List.mem_cons.mp hx with hx1 | hx2
          · subst hx1
            refine iPres x lv hdp ?_
            constructor
            · refine ⟨v, ?_, ?_⟩
              · rw [smap_nodash x hdp]
                exact hv
              · rw [hs2m]
                exact lookupA_dictSet_self _ _ _
            · refine ⟨c, ?_, ?_⟩
              · rw [sfil_nodash _ (hasDash_txt hdp)]
                exact hcc
              · rw [hs2f]
                exact lookupA_dictSet_self _ _ _
          · exact iSlot x hx2
        · intro q lv2 hq hgs
          exact iPres q lv2 hq (hstep_pres q lv2 hq hgs)
        · intro k hk
          have h1 := iUn k (fun x hx => hk x (List.mem_cons.mpr (Or.inr hx)))
          rw [h1, hs2m,
            lookupA_dictSet_ne _ v (hk p (List.mem_cons.mpr (Or.inl rfl)))]
        · intro k hkt
          rcases iGrow k hkt with h1 | h2
          · have h1' : k ∈ (dictSet s.mapping (p ++ '-' :: natStr lv) v).map Prod.fst := by
              rw [← hs2m]
              exact h1
            rcases mem_keys_dictSet h1' with h3 | h4
            · exact Or.inl h3
            · exact Or.inr ⟨p, List.mem_cons.mpr (Or.inl rfl), h4⟩
          · obtain ⟨x, hx, he⟩ := h2
            exact Or.inr ⟨x, List.mem_cons.mpr (Or.inr hx), he⟩
        · intro k hks
          refine iLow k ?_
          rw [hs2m]
          exact mem_keys_dictSet_sup _ v hks

theorem regenLevels_spec (pk : List Str) :
    ∀ (gs : List (Nat × List Str)) (s t : SH),
    (∀ p ∈ pk, hasDash p = false) →
    (∀ g ∈ gs, g.2 ≠ []) →
    regenLevelsLoop pk gs s = .ok t →
    (t.mapfile = s.mapfile ∧ t.replication_level = s.replication_level ∧
      t.last_char_position = s.last_char_position) ∧
    (∀ k, hasDash k = false → lookupA t.mapping k = lookupA s.mapping k) ∧
    (∀ f, hasDash f = false → lookupA t.files f = lookupA s.files f) ∧
    ((t.mapping.map Prod.fst).filter (fun x => !(hasDash x)) =
      (s.mapping.map Prod.fst).filter (fun x => !(hasDash x))) ∧
    ((t.files.map Prod.fst).filter (fun x => !(hasDash x)) =
      (s.files.map Prod.fst).filter (fun x => !(hasDash x))) ∧
    (∀ lv ∈ gs.map Prod.fst, ∀ p ∈ pk, GoodSlot t p lv) ∧
    (∀ q lv2, hasDash q = false → GoodSlot s q lv2 → GoodSlot t q lv2) ∧
    (∀ k, (∀ lv ∈ gs.map Prod.fst, ∀ p ∈ pk, k ≠ p ++ '-' :: natStr lv) →
      lookupA t.mapping k = lookupA s.mapping k) ∧
    (∀ k ∈ t.mapping.map Prod.fst, k ∈ s.mapping.map Prod.fst ∨
      ∃ lv ∈ gs.map Prod.fst, ∃ p ∈ pk, k = p ++ '-' :: natStr lv) ∧
    (∀ k ∈ s.mapping.map Prod.fst, k ∈ t.mapping.map Prod.fst) := by
  intro gs
  induction gs with
  | nil =>
    intro s t _ _ h
    injection h with h2
    subst h2
    refine ⟨⟨rfl, rfl, rfl⟩, fun _ _ => rfl, fun _ _ => rfl, rfl, rfl,
      ?_, fun _ _ _ hg => hg, fun _ _ => rfl, fun k hk => Or.inl hk, fun _ hk => hk⟩
    intro lv hlv
    exact absurd hlv (by simp)
  | cons g rest ih =>
    intro s t hpk hne h
    obtain ⟨lv, ks⟩ := g
    simp only [regenLevelsLoop] at h
    have hkne : ks ≠ [] := hne (lv, ks) (List.mem_cons.mpr (Or.inl rfl))
    rw [if_neg (by simp [rep_level_false s ks pk lv hkne])] at h
    cases hr : regenPrimLoop lv pk s with
    | error e => rw [hr] at h; cases h
    | ok s1 =>
      rw [hr] at h
      simp only [] at h
      obtain ⟨⟨pA1, pA2, pA3⟩, pB, pC, pD, pE, pSlot, pPres, pUn, pGrow, pLow⟩ :=
        regenPrim_spec lv pk s s1 hpk hr
      obtain ⟨⟨iA1, iA2, iA3⟩, iB, iC, iD, iE, iSlot, iPres, iUn, iGrow, iLow⟩ :=
        ih s1 t hpk (fun g hg => hne g (List.mem_cons.mpr (Or.inr hg))) h
      refine ⟨⟨iA1.trans pA1, iA2.trans pA2, iA3.trans pA3⟩,
        fun k hk => (iB k hk).trans (pB k hk),
        fun f hf => (iC f hf).trans (pC f hf),
        iD.trans pD, iE.trans pE, ?_, ?_, ?_, ?_, ?_⟩
      · intro lv' hlv' p hp
        rw [List.map_cons] at hlv'
        rcases List.mem_cons.mp hlv' with h1 | h2
        · subst h1
          exact iPres p lv' (hpk p hp) (pSlot p hp)
        · exact iSlot lv' h2 p hp
      · intro q lv2 hq hgs
        exact iPres q lv2 hq (pPres q lv2 hq hgs)
      · intro k hk
        rw [List.map_cons] at hk
        have h1 := iUn k (fun lv' hlv' p hp =>
          hk lv' (List.mem_cons.mpr (Or.inr hlv')) p hp)
        have h2 := pUn k (fun p hp => hk lv (List.mem_cons.mpr (Or.inl rfl)) p hp)
        exact h1.trans h2
      · intro k hkt
        rw [List.map_cons]
        rcases iGrow k hkt with h1 | h2
        · rcases pGrow k h1 with h3 | h4
          · exact Or.inl h3
          · obtain ⟨p, hp, he⟩ := h4
            exact Or.inr ⟨lv, List.mem_cons.mpr (Or.inl rfl), p, hp, he⟩
        · obtain ⟨lv', hlv', p, hp, he⟩ := h2
          exact Or.inr ⟨lv', List.mem_cons.mpr (Or.inr hlv'), p, hp, he⟩
      · intro k hks
        exact iLow k (pLow k hks)

/-! ## Sync machinery: the master lemmas -/

theorem update_spec {s t : SH} (h : update_replicated_levels s = .ok t) :
    primary_files_okay t = primary_files_okay s ∧
    t.mapfile = t.mapping ∧
    t.replication_level = s.replication_level ∧
    MapFid t ∧
    (∀ k ∈ get_replication_ids t, (parseNat? (secondSplit '-' k)).isSome) ∧
    (∀ k ∈ get_replication_ids t, ∀ lv, parseNat? (secondSplit '-' k) = some lv →
      ∀ p ∈ get_shard_ids t, GoodSlot t p lv) ∧
    (∀ k ∈ s.mapping.map Prod.fst, k ∈ t.mapping.map Prod.fst) := by
  unfold update_replicated_levels at h
  cases hrf : refreshLoop (get_replication_ids s) s with
  | error e => rw [hrf] at h; cases h
  | ok r1 =>
    rw [hrf] at h
    simp only [] at h
    cases hcd : create_replication_dict r1 with
    | error e => rw [hcd] at h; cases h
    | ok gs =>
      rw [hcd] at h
      simp only [] at h
      cases hrg : regenLevelsLoop (get_shard_ids r1) gs r1 with
      | error e => rw [hrg] at h; cases h
      | ok s2 =>
        rw [hrg] at h
        injection h with h2
        subst h2
        have hdash : ∀ k ∈ get_replication_ids s, hasDash k = true :=
          fun k hk => (mem_rep_ids.mp hk).2
        have hmem : ∀ k ∈ get_replication_ids s, k ∈ s.mapping.map Prod.fst :=
          fun k hk => (mem_rep_ids.mp hk).1
        obtain ⟨rKeys, ⟨rFiles, _, rRl, _⟩, rNod, rSpec, rOth⟩ :=
          refreshLoop_spec _ s r1 hdash hmem hrf
        have hrep_r1 : get_replication_ids r1 = get_replication_ids s :=
          rep_ids_congr rKeys
        have hpknd : ∀ p ∈ get_shard_ids r1, hasDash p = false :=
          fun p hp => shard_ids_nodash hp
        have hgl : groupLoop (get_replication_ids r1) [] = .ok gs := hcd
        have hne : ∀ g ∈ gs, g.2 ≠ [] := fun g hg =>
          (groupLoop_inv (fun _ => True) _ [] gs (fun _ _ _ _ => trivial)
            (fun g' hg' => absurd hg' (List.not_mem_nil g')) hgl g hg).1
        obtain ⟨⟨_, lRl, _⟩, lB, lC, lD, lE, lSlot, lPres, lUn, lGrow, lLow⟩ :=
          regenLevels_spec (get_shard_ids r1) gs r1 s2 hpknd hne hrg
        have hids2 : get_shard_ids s2 = get_shard_ids r1 := shard_ids_congr lD
        refine ⟨?_, rfl, ?_, ?_, ?_, ?_, ?_⟩
        · rw [write_map_okay]
          exact (okay_congr lD lE).trans
            (okay_congr (by rw [rKeys]) (by rw [rFiles]))
        · show s2.replication_level = s.replication_level
          exact lRl.trans rRl
        · intro k v hk hkv
          have hkv' : lookupA s2.mapping k = some v := hkv
          show lookupA s2.mapping (headSplit '-' k) = some v
          by_cases hform : ∃ lv ∈ gs.map Prod.fst,
              ∃ p ∈ get_shard_ids r1, k = p ++ '-' :: natStr lv
          · obtain ⟨lv, hlv, p, hp, he⟩ := hform
            subst he
            obtain ⟨⟨w, hw1, hw2⟩, _⟩ := lSlot lv hlv p hp
            have hwv : w = v := Option.some.inj (hw2.symm.trans hkv')
            subst hwv
            rw [headSplit_append (natStr lv) (nodash_chars (shard_ids_nodash hp))]
            exact hw1
          · push_neg at hform
            have hr1v : lookupA r1.mapping k = some v := by
              rw [← lUn k hform]
              exact hkv'
            have hkreps : k ∈ get_replication_ids s := by
              refine mem_rep_ids.mpr ⟨?_, hk⟩
              rw [← rKeys]
              exact mem_of_lookup_some hr1v
            obtain ⟨w, _, hw2, hw3⟩ := rSpec k hkreps
            have hwv : w = v := Option.some.inj (hw2.symm.trans hr1v)
            subst hwv
            rw [lB (headSplit '-' k) (headSplit_nodash k)]
            exact hw3
        · intro k hk
          have hk' : k ∈ get_replication_ids s2 := hk
          obtain ⟨hk1, hk2⟩ := mem_rep_ids.mp hk'
          rcases lGrow k hk1 with h1 | h2
          · exact groupLoop_parses _ [] gs hgl k (mem_rep_ids.mpr ⟨h1, hk2⟩)
          · obtain ⟨lv, hlv, p, hp, he⟩ := h2
            subst he
            rw [secondSplit_append (nodash_chars (shard_ids_nodash hp))
              (nodash_chars (hasDash_natStr lv)), parseNat?_natStr]
            rfl
        · intro k hk lv hplv p hp
          have hk' : k ∈ get_replication_ids s2 := hk
          have hp' : p ∈ get_shard_ids s2 := hp
          rw [hids2] at hp'
          obtain ⟨hk1, hk2⟩ := mem_rep_ids.mp hk'
          have hlvmem : lv ∈ gs.map Prod.fst := by
            rcases lGrow k hk1 with h1 | h2
            · exact groupLoop_complete _ [] gs hgl k
                (mem_rep_ids.mpr ⟨h1, hk2⟩) lv hplv
            · obtain ⟨lv0, hlv0, p0, hp0, he⟩ := h2
              subst he
              rw [secondSplit_append (nodash_chars (shard_ids_nodash hp0))
                (nodash_chars (hasDash_natStr lv0)), parseNat?_natStr] at hplv
              injection hplv with h3
              subst h3
              exact hlv0
          exact lSlot lv hlvmem p hp'
        · intro k hks
          have h1 : k ∈ r1.mapping.map Prod.fst := by
            rw [rKeys]
            exact hks
          exact lLow k h1

theorem sync_decomp {s t : SH} (h : sync_replication s = .ok t) :
    ∃ u : SH, primary_files_okay u = true ∧ u.mapping = s.mapping ∧
      u.replication_level = s.replication_level ∧
      update_replicated_levels u = .ok t := by
  unfold sync_replication at h
  by_cases hok : primary_files_okay s = true
  · rw [if_pos hok] at h
    simp only [] at h
    exact ⟨s, hok, rfl, rfl, h⟩
  · rw [if_neg hok] at h
    cases hre : restore_primary_files s with
    | error e => rw [hre] at h; cases h
    | ok u =>
      rw [hre] at h
      simp only [] at h
      obtain ⟨m1, _, m3, _⟩ := restoreGo_fields s.files.length s u hre
      exact ⟨u, restoreGo_okay s.files.length s u hre, m1, m3, h⟩

theorem sync_fixed {s t : SH} (h : sync_replication s = .ok t) : SyncFixed t := by
  obtain ⟨u, huok, _, _, hupd⟩ := sync_decomp h
  obtain ⟨u1, u2, _, u4, u5, u6, _⟩ := update_spec hupd
  refine ⟨u1.trans huok, u2, ?_, u5, u6⟩
  intro k hk
  have hk2 := mem_rep_ids.mp hk
  obtain ⟨v, hv⟩ := Option.isSome_iff_exists.mp (lookupA_isSome_of_mem hk2.1)
  exact ⟨v, hv, u4 k v hk2.2 hv⟩

/-! ## Sync machinery: a `SyncFixed` state is a fixed point -/

theorem refreshLoop_id : ∀ (ks : List Str) (s : SH),
    (∀ k ∈ ks, ∃ v, lookupA s.mapping k = some v ∧
      lookupA s.mapping (headSplit '-' k) = some v) →
    refreshLoop ks s = .ok s := by
  intro ks
  induction ks with
  | nil => intro s _; rfl
  | cons k rest ih =>
    intro s hk
    obtain ⟨v, hv1, hv2⟩ := hk k (List.mem_cons.mpr (Or.inl rfl))
    simp only [refreshLoop]
    rw [hv2]
    simp only []
    rw [dictSet_of_lookup_eq hv1]
    exact ih s (fun x hx => hk x (List.mem_cons.mpr (Or.inr hx)))

theorem copyfile_id {src dst : Str} {s : SH} {c : Str}
    (h1 : lookupA s.files src = some c) (h2 : lookupA s.files dst = some c) :
    copyfile src dst s = .ok s := by
  unfold copyfile
  rw [h1]
  simp only []
  rw [dictSet_of_lookup_eq h2]

theorem regenPrim_id (lv : Nat) : ∀ (ps : List Str) (s : SH),
    (∀ p ∈ ps, GoodSlot s p lv) →
    regenPrimLoop lv ps s = .ok s := by
  intro ps
  induction ps with
  | nil => intro s _; rfl
  | cons p rest ih =>
    intro s hp
    obtain ⟨⟨v, hv1, hv2⟩, ⟨c, hc1, hc2⟩⟩ := hp p (List.mem_cons.mpr (Or.inl rfl))
    simp only [regenPrimLoop]
    rw [hv1]
    simp only []
    rw [dictSet_of_lookup_eq hv2]
    rw [show copyfile (p ++ str ".txt") (p ++ '-' :: natStr lv ++ str ".txt")
        ({ s with mapping := s.mapping }) = .ok s from copyfile_id hc1 hc2]
    simp only []
    exact ih s (fun x hx => hp x (List.mem_cons.mpr (Or.inr hx)))

theorem regenLevels_id (pk : List Str) : ∀ (gs : List (Nat × List Str)) (s : SH),
    (∀ g ∈ gs, g.2 ≠ [] ∧ ∀ p ∈ pk, GoodSlot s p g.1) →
    regenLevelsLoop pk gs s = .ok s := by
  intro gs
  induction gs with
  | nil => intro s _; rfl
  | cons g rest ih =>
    intro s hg
    obtain ⟨lv, ks⟩ := g
    obtain ⟨hne, hslots⟩ := hg (lv, ks) (List.mem_cons.mpr (Or.inl rfl))
    simp only [regenLevelsLoop]
    rw [if_neg (by simp [rep_level_false s ks pk lv hne])]
    rw [regenPrim_id lv pk s hslots]
    simp only []
    exact ih s (fun g' hg' => hg g' (List.mem_cons.mpr (Or.inr hg')))

theorem update_id {t : SH} (hf : SyncFixed t) : update_replicated_levels t = .ok t := by
  obtain ⟨hok, hmf, href, hpar, hslot⟩ := hf
  unfold update_replicated_levels
  rw [refreshLoop_id _ t href]
  simp only []
  obtain ⟨gs, hgs⟩ := groupLoop_ok (get_replication_ids t) [] hpar
  have hcd : create_replication_dict t = .ok gs := hgs
  rw [hcd]
  simp only []
  have hinv := groupLoop_inv (fun lv => ∀ p ∈ get_shard_ids t, GoodSlot t p lv)
    (get_replication_ids t) [] gs hslot
    (fun g hg => absurd hg (List.not_mem_nil g)) hgs
  rw [regenLevels_id (get_shard_ids t) gs t hinv]
  simp only []
  rw [write_map_eq_self hmf]

theorem fixed_sync {t : SH} (hf : SyncFixed t) : sync_replication t = .ok t := by
  unfold sync_replication
  rw [if_pos hf.1]
  simp only []
  exact update_id hf

/-! ## General shard counts: string sort versus numeric ids -/

theorem isDigit_ne {x ch : Char} (hx : isDigit x = true) (hch : isDigit ch = false) :
    (x != ch) = true := by
  simp only [bne_iff_ne, ne_eq]
  intro e
  subst e
  rw [hx] at hch
  cases hch

theorem digits_chars_ne {k : Str} (hk : k.all isDigit = true) {ch : Char}
    (hch : isDigit ch = false) : ∀ x ∈ k, (x != ch) = true :=
  fun x hx => isDigit_ne (List.all_eq_true.mp hk x hx) hch

theorem splitDotZero_digits {k : Str} (hk : k.all isDigit = true) :
    splitDotZero (k ++ str ".txt") = k := by
  have hdot : str ".txt" = '.' :: str "txt" := rfl
  rw [show splitDotZero (k ++ str ".txt") =
      headSplit '.' (k ++ '.' :: str "txt") from by rw [← hdot]; rfl]
  exact headSplit_append _ (digits_chars_ne hk (by decide))

theorem digit_toNat_ge {c : Char} (hc : isDigit c = true) : 48 ≤ c.toNat := by
  simp only [isDigit, Bool.and_eq_true, decide_eq_true_eq] at hc
  exact hc.1

theorem strLtB_append_digits : ∀ (a b : Str), a.all isDigit = true →
    b.all isDigit = true →
    strLtB (a ++ str ".txt") (b ++ str ".txt") = strLtB a b := by
  intro a
  induction a with
  | nil =>
    intro b _ hb
    cases b with
    | nil => rfl
    | cons c bs =>
      have hc : isDigit c = true := by
        simp only [List.all_cons, Bool.and_eq_true] at hb
        exact hb.1
      show strLtB ('.' :: str "txt") (c :: (bs ++ str ".txt")) = true
      simp only [strLtB]
      rw [if_pos (Nat.lt_of_lt_of_le (by decide) (digit_toNat_ge hc))]
  | cons c as ih =>
    intro b ha hb
    have hc : isDigit c = true := by
      simp only [List.all_cons, Bool.and_eq_true] at ha
      exact ha.1
    have has : as.all isDigit = true := by
      simp only [List.all_cons, Bool.and_eq_true] at ha
      exact ha.2
    cases b with
    | nil =>
      show strLtB (c :: (as ++ str ".txt")) ('.' :: str "txt") = false
      simp only [strLtB]
      have h48 := digit_toNat_ge hc
      have hdot : ('.').toNat = 46 := rfl
      rw [if_neg (by omega), if_pos (by omega)]
    | cons c' bs =>
      have hc' : isDigit c' = true := by
        simp only [List.all_cons, Bool.and_eq_true] at hb
        exact hb.1
      have hbs : bs.all isDigit = true := by
        simp only [List.all_cons, Bool.and_eq_true] at hb
        exact hb.2
      show strLtB (c :: (as ++ str ".txt")) (c' :: (bs ++ str ".txt")) =
        strLtB (c :: as) (c' :: bs)
      simp only [strLtB]
      by_cases h1 : c.toNat < c'.toNat
      · rw [if_pos h1, if_pos h1]
      · rw [if_neg h1, if_neg h1]
        by_cases h2 : c'.toNat < c.toNat
        · rw [if_pos h2, if_pos h2]
        · rw [if_neg h2, if_neg h2]
          exact ih bs has hbs

theorem sortInsert_map_txt : ∀ (l : List Str) (a : Str), a.all isDigit = true →
    (∀ x ∈ l, x.all isDigit = true) →
    sortInsert (a ++ str ".txt") (l.map (fun k => k ++ str ".txt")) =
      (sortInsert a l).map (fun k => k ++ str ".txt") := by
  intro l
  induction l with
  | nil => intro a _ _; rfl
  | cons b r ih =>
    intro a ha hl
    simp only [List.map_cons, sortInsert]
    rw [strLtB_append_digits a b ha (hl b (List.mem_cons.mpr (Or.inl rfl)))]
    by_cases hab : strLtB a b = true
    · rw [if_pos hab, if_pos hab]
      rfl
    · rw [if_neg hab, if_neg hab]
      rw [ih a ha (fun x hx => hl x (List.mem_cons.mpr (Or.inr hx)))]
      rfl

theorem sortStr_map_txt : ∀ (l : List Str), (∀ x ∈ l, x.all isDigit = true) →
    sortStr (l.map (fun k => k ++ str ".txt")) =
      (sortStr l).map (fun k => k ++ str ".txt") := by
  intro l
  induction l with
  | nil => intro _; rfl
  | cons a r ih =>
    intro hl
    rw [List.map_cons, sortStr_cons, sortStr_cons]
    rw [ih (fun x hx => hl x (List.mem_cons.mpr (Or.inr hx)))]
    exact sortInsert_map_txt (sortStr r) a (hl a (List.mem_cons.mpr (Or.inl rfl)))
      (fun x hx => hl x (List.mem_cons.mpr (Or.inr (mem_sortStr.mp hx))))

theorem fileNames_eq_map (n : Nat) :
    fileNames n = (keyList n).map (fun k => k ++ str ".txt") := by
  simp only [fileNames, keyList, List.map_map]
  rfl

theorem keyList_digits (n : Nat) : ∀ x ∈ keyList n, x.all isDigit = true := by
  intro x hx
  obtain ⟨j, _, rfl⟩ := List.mem_map.mp hx
  exact natStr_all_digits j

theorem keyList_mem_ex {k : Str} {n : Nat} (h : k ∈ keyList n) :
    ∃ j, j < n ∧ k = natStr j := by
  obtain ⟨j, hj, he⟩ := List.mem_map.mp h
  exact ⟨j, List.mem_range.mp hj, he.symm⟩

theorem keyList_length (n : Nat) : (keyList n).length = n := by
  simp [keyList]

theorem zip_all_stems : ∀ (l : List Str), (∀ x ∈ l, x.all isDigit = true) →
    (((l.map (fun k => k ++ str ".txt")).zip l).all
      (fun fk => splitDotZero fk.1 == fk.2)) = true := by
  intro l
  induction l with
  | nil => intro _; rfl
  | cons a r ih =>
    intro hl
    simp only [List.map_cons, List.zip_cons_cons, List.all_cons, Bool.and_eq_true]
    constructor
    · rw [splitDotZero_digits (hl a (List.mem_cons.mpr (Or.inl rfl)))]
      simp
    · exact ih (fun x hx => hl x (List.mem_cons.mpr (Or.inr hx)))

theorem sortInsert_perm : ∀ (l : List Str) (a : Str),
    List.Perm (sortInsert a l) (a :: l) := by
  intro l
  induction l with
  | nil => intro a; exact List.Perm.refl _
  | cons b r ih =>
    intro a
    simp only [sortInsert]
    by_cases hab : strLtB a b = true
    · rw [if_pos hab]
    · rw [if_neg hab]
      exact (List.Perm.cons b (ih a)).trans (List.Perm.swap a b r)

theorem sortStr_perm : ∀ l : List Str, List.Perm (sortStr l) l := by
  intro l
  induction l with
  | nil => exact List.Perm.refl _
  | cons a r ih =>
    rw [sortStr_cons]
    exact (sortInsert_perm (sortStr r) a).trans (List.Perm.cons a ih)

theorem flatten_length : ∀ l : List Str, l.flatten.length = sumLen l := by
  intro l
  induction l with
  | nil => rfl
  | cons c r ih =>
    rw [List.flatten_cons, List.length_append, ih]
    simp [sumLen]

theorem sumLen_ge_length : ∀ cs : List Str, (∀ c ∈ cs, c ≠ []) →
    cs.length ≤ sumLen cs := by
  intro cs
  induction cs with
  | nil => intro _; simp [sumLen]
  | cons c r ih =>
    intro h
    have hc : 1 ≤ c.length := by
      cases c with
      | nil => exact absurd rfl (h [] (List.mem_cons.mpr (Or.inl rfl)))
      | cons x xs => simp
    have hr := ih (fun x hx => h x (List.mem_cons.mpr (Or.inr hx)))
    simp only [List.length_cons, sumLen, List.map_cons, List.sum_cons]
    simp only [sumLen] at hr
    omega

theorem okayG {n : Nat} {s : SH} (hk : s.mapping.map Prod.fst = keyList n)
    (hf : s.files.map Prod.fst = fileNames n) : primary_files_okay s = true := by
  unfold primary_files_okay
  rw [show get_shard_ids s = sortStr (keyList n) from by
    unfold get_shard_ids
    rw [hk, filter_nodash_keyList]]
  rw [hf, filter_nodash_fileNames]
  rw [fileNames_eq_map, sortStr_map_txt _ (keyList_digits n)]
  simp only []
  rw [zip_all_stems _ (fun x hx => keyList_digits n x (mem_sortStr.mp hx))]
  simp

theorem fileEntries_names (cs : List Str) :
    (fileEntries 0 cs).map Prod.fst = fileNames cs.length := by
  rw [fileEntries_keys]
  unfold fileNames
  rw [List.range_eq_range']

theorem repIdsG {n : Nat} {s : SH} (hk : s.mapping.map Prod.fst = keyList n) :
    get_replication_ids s = [] := by
  unfold get_replication_ids
  rw [hk, filter_dash_keyList]
  rfl

theorem goodL_sync {L n : Nat} {s : SH} (hG : GoodL L n s) :
    sync_replication s = .ok s := by
  obtain ⟨_, hk, hmf, ⟨cs, hcslen, _, _, hfe⟩, _, _⟩ := hG
  have hok : primary_files_okay s = true := by
    refine okayG hk ?_
    rw [hfe, fileEntries_names, hcslen]
  unfold sync_replication
  rw [if_pos hok]
  simp only []
  exact norep_update s (repIdsG hk) hmf

/-- `gen_spec` with non-emptiness: when `n ≤ len(data)` every slice is
non-empty (the first `n - 1` have length `len / n ≥ 1` and the last takes
the rest, at least `len / n`). -/
theorem gen_spec_ne (data : Str) (n : Nat) (h1 : 1 ≤ n) (hle : n ≤ data.length) :
    ∃ ds : List Str, _generate_sharded_data (n : Int) data = .ok ds ∧
      ds.length = n ∧ ds.flatten = data ∧
      ∀ z, z < n → ds.getD z [] ≠ [] := by
  obtain ⟨ds, hgen, hlen, hflat, hsl⟩ := gen_spec data n h1
  refine ⟨ds, hgen, hlen, hflat, ?_⟩
  set q := data.length / n with hq
  have hq1 : 1 ≤ q := (Nat.one_le_div_iff (by omega)).mpr hle
  have hlenq : ∀ z, z + 1 < n → (ds.getD z []).length = q := by
    intro z hz
    rw [hsl z hz]
    rw [pySlice_length (Nat.mul_le_mul_left q (by omega))
      (by
        calc q * (z + 1) ≤ q * n := Nat.mul_le_mul_left q (by omega)
        _ ≤ data.length := by
          rw [hq]
          exact Nat.div_mul_le_self data.length n)]
    rw [Nat.mul_succ]
    omega
  intro z hz
  by_cases hzl : z + 1 < n
  · intro e
    have h2 := hlenq z hzl
    rw [e] at h2
    simp at h2
    omega
  · have hze : z = n - 1 := by omega
    subst hze
    have hsum : sumLen ds = data.length := by
      rw [← hflat]
      exact (flatten_length ds).symm
    have htake : sumLen (ds.take (n - 1)) = q * (n - 1) :=
      sumLen_take_const ds q (n - 1) (by omega) (fun i hi => hlenq i (by omega))
    have hsucc := sumLen_take_succ ds (n - 1) (by omega)
    have hfull : ds.take (n - 1 + 1) = ds := by
      rw [show n - 1 + 1 = n from by omega, ← hlen]
      exact List.take_length ds
    rw [hfull, hsum, htake] at hsucc
    intro e
    rw [e] at hsucc
    simp at hsucc
    have hqn : q * n ≤ data.length := by
      rw [hq]
      exact Nat.div_mul_le_self data.length n
    rw [show n = n - 1 + 1 from by omega, Nat.mul_succ] at hqn
    omega

/-! ## General shard counts: load, parse and max over sorted ids -/

theorem loadLoop_flat {s : SH} (g : Str → Str) : ∀ (ks : List Str) (acc : Str),
    (∀ k ∈ ks, lookupA s.files (k ++ str ".txt") = some (g k)) →
    loadLoop s ks acc = .ok (acc ++ (ks.map g).flatten) := by
  intro ks
  induction ks with
  | nil =>
    intro acc _
    simp only [loadLoop, List.map_nil, List.flatten_nil, List.append_nil]
  | cons k r ih =>
    intro acc h
    simp only [loadLoop]
    rw [h k (List.mem_cons.mpr (Or.inl rfl))]
    simp only []
    rw [ih (acc ++ g k) (fun x hx => h x (List.mem_cons.mpr (Or.inr hx)))]
    rw [List.map_cons, List.flatten_cons, List.append_assoc]

theorem range_map_getD : ∀ cs : List Str,
    (List.range cs.length).map (fun j => cs.getD j []) = cs := by
  intro cs
  induction cs with
  | nil => rfl
  | cons c r ih =>
    show (List.range (r.length + 1)).map _ = _
    rw [List.range_succ_eq_map]
    simp only [List.map_cons, List.map_map]
    rw [show ((fun j => (c :: r).getD j []) ∘ Nat.succ) = (fun j => r.getD j []) from
      funext fun j => by simp [List.getD_cons_succ]]
    rw [ih]
    rfl

theorem goodL_load {L n : Nat} {s : SH} (hk : s.mapping.map Prod.fst = keyList n)
    {cs : List Str} (hcs : s.files = fileEntries 0 cs) (hcslen : cs.length = n)
    (hsum : sumLen cs = L) :
    ∃ D : Str, load_data_from_shards s = .ok D ∧ D.length = L := by
  have hids : get_shard_ids s = sortStr (keyList n) := by
    unfold get_shard_ids
    rw [hk, filter_nodash_keyList]
  have hlook : ∀ k ∈ sortStr (keyList n),
      lookupA s.files (k ++ str ".txt") = some (cs.getD (digitsVal k) []) := by
    intro k hkm
    obtain ⟨j, hj, rfl⟩ := keyList_mem_ex (mem_sortStr.mp hkm)
    rw [hcs, digitsVal_natStr]
    have h2 := lookupA_fileEntries cs 0 j (by omega)
    simpa using h2
  refine ⟨((sortStr (keyList n)).map (fun k => cs.getD (digitsVal k) [])).flatten,
    ?_, ?_⟩
  · unfold load_data_from_shards
    rw [hids, loadLoop_flat _ _ [] hlook]
    rw [List.nil_append]
  · rw [flatten_length]
    have hperm : List.Perm
        ((sortStr (keyList n)).map (fun k => cs.getD (digitsVal k) []))
        ((keyList n).map (fun k => cs.getD (digitsVal k) [])) :=
      (sortStr_perm _).map _
    have hsame : sumLen ((sortStr (keyList n)).map (fun k => cs.getD (digitsVal k) [])) =
        sumLen ((keyList n).map (fun k => cs.getD (digitsVal k) [])) := by
      unfold sumLen
      exact (hperm.map List.length).sum_eq
    rw [hsame]
    have hcs' : (keyList n).map (fun k => cs.getD (digitsVal k) []) = cs := by
      simp only [keyList, List.map_map]
      rw [show ((fun k => cs.getD (digitsVal k) []) ∘ natStr) =
          (fun j => cs.getD j []) from funext fun j => by simp [digitsVal_natStr]]
      rw [← hcslen]
      exact range_map_getD cs
    rw [hcs', hsum]

theorem mapParse_eq_map (f : Str → Str) (g : Str → Nat) : ∀ l : List Str,
    (∀ k ∈ l, parseNat? (f k) = some (g k)) → mapParse f l = .ok (l.map g) := by
  intro l
  induction l with
  | nil => intro _; rfl
  | cons k r ih =>
    intro h
    simp only [mapParse]
    rw [h k (List.mem_cons.mpr (Or.inl rfl))]
    simp only []
    rw [ih (fun x hx => h x (List.mem_cons.mpr (Or.inr hx)))]
    rfl

theorem foldl_max_perm {l1 l2 : List Nat} (p : List.Perm l1 l2) :
    ∀ b : Nat, l1.foldl Nat.max b = l2.foldl Nat.max b := by
  induction p with
  | nil => intro b; rfl
  | cons x _ ih =>
    intro b
    simp only [List.foldl_cons]
    exact ih _
  | swap x y l =>
    intro b
    simp only [List.foldl_cons]
    congr 1
    exact sup_right_comm b y x
  | trans _ _ ih1 ih2 =>
    intro b
    rw [ih1, ih2]

theorem maxList_perm {l1 l2 : List Nat} (p : List.Perm l1 l2) :
    maxList l1 = maxList l2 := by
  cases l1 with
  | nil =>
    rw [p.nil_eq]
  | cons x xs =>
    cases l2 with
    | nil => exact absurd p.eq_nil (by simp)
    | cons y ys =>
      show Except.ok (xs.foldl Nat.max x) = Except.ok (ys.foldl Nat.max y)
      have h1 : xs.foldl Nat.max x = (x :: xs).foldl Nat.max 0 := by
        simp only [List.foldl_cons]
        congr 1
        exact (Nat.max_eq_right (Nat.zero_le x)).symm
      have h2 : ys.foldl Nat.max y = (y :: ys).foldl Nat.max 0 := by
        simp only [List.foldl_cons]
        congr 1
        exact (Nat.max_eq_right (Nat.zero_le y)).symm
      rw [h1, h2, foldl_max_perm p 0]

theorem keyList_map_digitsVal (n : Nat) :
    (keyList n).map digitsVal = List.range n := by
  simp only [keyList, List.map_map]
  rw [show (digitsVal ∘ natStr) = id from funext fun j => digitsVal_natStr j]
  exact List.map_id _

theorem sorted_keyList_perm_range (n : Nat) :
    List.Perm ((sortStr (keyList n)).map digitsVal) (List.range n) := by
  have h2 := (sortStr_perm (keyList n)).map digitsVal
  rw [keyList_map_digitsVal] at h2
  exact h2

theorem maxList_sorted_keyList {n : Nat} (h1 : 1 ≤ n) :
    maxList ((sortStr (keyList n)).map digitsVal) = .ok (n - 1) := by
  rw [maxList_perm (sorted_keyList_perm_range n)]
  exact maxList_range h1

theorem mapParse_sorted_keyList (n : Nat) :
    mapParse id (sortStr (keyList n)) = .ok ((sortStr (keyList n)).map digitsVal) := by
  refine mapParse_eq_map id digitsVal _ ?_
  intro k hkm
  obtain ⟨j, _, rfl⟩ := keyList_mem_ex (mem_sortStr.mp hkm)
  rw [digitsVal_natStr]
  exact parseNat?_natStr j

theorem sorted_keyList_len (n : Nat) :
    ((sortStr (keyList n)).map digitsVal).length = n := by
  rw [List.length_map, (sortStr_perm (keyList n)).length_eq, keyList_length]

theorem filter_keyList_ne_lastG {n : Nat} (h1 : 1 ≤ n) :
    (keyList n).filter (fun k =>
      !(if !(hasDash k) then k == natStr (n - 1)
        else headSplit '-' k == natStr (n - 1))) = keyList (n - 1) := by
  have hstep : ∀ m : Nat, (keyList (m + 1)).filter (fun k =>
      !(if !(hasDash k) then k == natStr m
        else headSplit '-' k == natStr m)) = keyList m := by
    intro m
    rw [keyList_succ, List.filter_append]
    have hkeep : (keyList m).filter (fun k =>
        !(if !(hasDash k) then k == natStr m
          else headSplit '-' k == natStr m)) = keyList m := by
      apply List.filter_eq_self.mpr
      intro k hkm
      obtain ⟨j, hj, rfl⟩ := keyList_mem_ex hkm
      rw [hasDash_natStr]
      rw [if_pos (show (!false) = true from rfl)]
      rw [show (natStr j == natStr m) = false from
        beq_eq_false_iff_ne.mpr (fun e => absurd (natStr_inj e) (by omega))]
      rfl
    have hdrop : [natStr m].filter (fun k =>
        !(if !(hasDash k) then k == natStr m
          else headSplit '-' k == natStr m)) = [] := by
      rw [List.filter_cons]
      rw [if_neg (by
        rw [hasDash_natStr]
        simp)]
      rfl
    rw [hkeep, hdrop, List.append_nil]
  have h2 := hstep (n - 1)
  rw [show n - 1 + 1 = n from by omega] at h2
  exact h2

/-! ## General shard counts: operation preservation of `GoodL` -/

theorem write_goodL (s : SH) (ds : List Str) (cnt m : Nat) (cs : List Str)
    (h1 : 1 ≤ cnt)
    (hk : s.mapping.map Prod.fst = keyList m) (hmle : m ≤ cnt)
    (hcs : s.files = fileEntries 0 cs) (hcsle : cs.length ≤ cnt)
    (hlen : ds.length = cnt)
    (hne : ∀ z, z < cnt → ds.getD z [] ≠ []) :
    GoodL (sumLen ds) cnt (write_map (writeShards 0 ds s)) := by
  obtain ⟨d, ds', rfl⟩ : ∃ d ds', ds = d :: ds' := by
    cases ds with
    | nil => simp at hlen; omega
    | cons d ds' => exact ⟨d, ds', rfl⟩
  have hkeys2 : (writeShards 0 (d :: ds') s).mapping.map Prod.fst = keyList cnt := by
    rw [writeShards_keys (d :: ds') 0 m s hk (Nat.zero_le m)]
    congr 1
    omega
  have hfiles2 : (writeShards 0 (d :: ds') s).files = fileEntries 0 (d :: ds') := by
    rw [writeShards_files_entries (d :: ds') 0 cs s hcs (Nat.zero_le _)]
    congr 1
    rw [List.take_zero, List.drop_eq_nil_of_le (by omega), List.nil_append,
      List.append_nil]
  have hnem : ∀ c ∈ (d :: ds'), c ≠ [] := by
    intro c hc
    obtain ⟨i, hi, he⟩ := List.mem_iff_getElem.mp hc
    have h2 := hne i (by omega)
    rw [List.getD_eq_getElem _ _ hi] at h2
    rw [he] at h2
    exact h2
  have hadj0 : ∀ e0,
      lookupA (writeShards 0 (d :: ds') s).mapping (natStr 0) = some e0 →
      e0.start = 0 := by
    intro e0 h0
    have hhit := writeShards0_mapping_hit d ds' s 0 (by simp)
    rw [h0] at hhit
    injection hhit with h2
    rw [h2]
    simp [sumLen]
  have hadjP : ∀ i ei ei1,
      lookupA (writeShards 0 (d :: ds') s).mapping (natStr i) = some ei →
      lookupA (writeShards 0 (d :: ds') s).mapping (natStr (i + 1)) = some ei1 →
      ei.stop + 1 = ei1.start := by
    intro i ei ei1 hi hi1
    have hibound : i + 1 < cnt := by
      have hm := mem_of_lookup_some hi1
      rw [hkeys2] at hm
      exact mem_keyList.mp hm
    have hA := writeShards0_mapping_hit d ds' s i (by
      rw [show (d :: ds').length = cnt from hlen]
      omega)
    have hB := writeShards0_mapping_hit d ds' s (i + 1) (by
      rw [show (d :: ds').length = cnt from hlen]
      omega)
    rw [hi] at hA
    rw [hi1] at hB
    injection hA with hA2
    injection hB with hB2
    rw [hA2, hB2]
    simp only []
    have hstep := sumLen_take_succ (d :: ds') i (by
      rw [show (d :: ds').length = cnt from hlen]
      omega)
    have hipos : 1 ≤ ((d :: ds').getD i []).length :=
      List.length_pos.mpr (by
        have := hne i (by omega)
        exact this)
    rw [if_neg (by omega)]
    omega
  exact ⟨h1, hkeys2, rfl, ⟨d :: ds', hlen, rfl, hnem, hfiles2⟩, hadj0, hadjP⟩

theorem build_goodL {T : Str} {count : Nat} {s0 : SH} (h1 : 1 ≤ count)
    (hcnt : count ≤ T.length)
    (hb : build_shards (count : Int) T initState = .ok (none, s0)) :
    GoodL T.length count s0 := by
  obtain ⟨ds, hgen, hlen, hflat, hne⟩ := gen_spec_ne T count h1 hcnt
  rw [build_shards_eq hgen] at hb
  have hs : write_map (writeShards 0 ds initState) = s0 := by
    injection hb with h
    exact congrArg Prod.snd h
  subst hs
  have hG := write_goodL initState ds count 0 [] h1 rfl (by omega) rfl (by simp)
    hlen hne
  rw [show sumLen ds = T.length from by rw [← flatten_length, hflat]] at hG
  exact hG

theorem add_goodL {L n : Nat} {s s' : SH} (hG : GoodL L n s) (hbound : n + 1 ≤ L)
    (h : add_shard s = .ok s') : GoodL L (n + 1) s' := by
  obtain ⟨h1, hk, hmf, ⟨cs, hcslen, hcssum, hcsne, hfe⟩, hadj0, hadjP⟩ := hG
  have hG' : GoodL L n s :=
    ⟨h1, hk, hmf, ⟨cs, hcslen, hcssum, hcsne, hfe⟩, hadj0, hadjP⟩
  obtain ⟨D, hload, hDlen⟩ := goodL_load hk hfe hcslen hcssum
  have hids : get_shard_ids s = sortStr (keyList n) := by
    unfold get_shard_ids
    rw [hk, filter_nodash_keyList]
  unfold add_shard at h
  rw [goodL_sync hG'] at h
  simp only [] at h
  rw [reload_eq_self hmf] at h
  rw [hload] at h
  simp only [] at h
  rw [hids, mapParse_sorted_keyList n] at h
  simp only [] at h
  rw [maxList_sorted_keyList h1] at h
  simp only [] at h
  rw [show n - 1 + 2 = n + 1 from by omega] at h
  obtain ⟨ds, hgen, hdslen, hdsflat, hdsne⟩ :=
    gen_spec_ne D (n + 1) (by omega) (by omega)
  rw [hgen] at h
  simp only [] at h
  have hGw := write_goodL s ds (n + 1) n cs (by omega) hk (by omega) hfe
    (by omega) hdslen hdsne
  rw [show sumLen ds = L from by rw [← flatten_length, hdsflat, hDlen]] at hGw
  rw [goodL_sync hGw] at h
  injection h with h2
  rw [← h2]
  exact hGw

theorem remove_goodL {L n : Nat} {s s' : SH} (hG : GoodL L n s)
    (h : remove_shard s = .ok s') : 2 ≤ n ∧ GoodL L (n - 1) s' := by
  obtain ⟨h1, hk, hmf, ⟨cs, hcslen, hcssum, hcsne, hfe⟩, hadj0, hadjP⟩ := hG
  have hG' : GoodL L n s :=
    ⟨h1, hk, hmf, ⟨cs, hcslen, hcssum, hcsne, hfe⟩, hadj0, hadjP⟩
  obtain ⟨D, hload, hDlen⟩ := goodL_load hk hfe hcslen hcssum
  have hids : get_shard_ids s = sortStr (keyList n) := by
    unfold get_shard_ids
    rw [hk, filter_nodash_keyList]
  unfold remove_shard at h
  rw [goodL_sync hG'] at h
  simp only [] at h
  rw [reload_eq_self hmf] at h
  rw [hload] at h
  simp only [] at h
  rw [hids, mapParse_sorted_keyList n] at h
  simp only [] at h
  by_cases hn1 : n = 1
  · subst hn1
    rw [if_pos (by rw [sorted_keyList_len]; rfl)] at h
    cases h
  · have hn2 : 2 ≤ n := by omega
    rw [if_neg (by rw [sorted_keyList_len]; simp [hn1])] at h
    rw [maxList_sorted_keyList h1] at h
    simp only [] at h
    obtain ⟨ds, hgen, hdslen, hdsflat, hdsne⟩ := gen_spec_ne D (n - 1)
      (by omega) (by
        have hlow := sumLen_ge_length cs hcsne
        omega)
    rw [hgen] at h
    simp only [] at h
    rw [hmf] at h
    have hfilterm : (s.mapping.filter (fun kv =>
        !(if !(hasDash kv.1) then kv.1 == natStr (n - 1)
          else headSplit '-' kv.1 == natStr (n - 1)))).map Prod.fst =
        keyList (n - 1) := by
      have hmm := map_fst_filter_key s.mapping (fun k =>
        !(if !(hasDash k) then k == natStr (n - 1)
          else headSplit '-' k == natStr (n - 1)))
      simp only [] at hmm
      rw [hmm, hk]
      exact filter_keyList_ne_lastG h1
    have hcs_ne : cs ≠ [] := by
      intro e
      rw [e] at hcslen
      simp at hcslen
      omega
    have hfilterf : s.files.filter (fun fc =>
        !(if !(hasDash fc.1) then splitDotZero fc.1 == natStr (n - 1)
          else headSplit '-' fc.1 == natStr (n - 1))) =
        fileEntries 0 cs.dropLast := by
      rw [hfe]
      exact filter_fileEntries_dropLast cs 0 (n - 1) hcs_ne (by omega)
    have hGw := write_goodL
      ({ mapping := s.mapping.filter (fun kv =>
           !(if !(hasDash kv.1) then kv.1 == natStr (n - 1)
             else headSplit '-' kv.1 == natStr (n - 1))),
         files := s.files.filter (fun fc =>
           !(if !(hasDash fc.1) then splitDotZero fc.1 == natStr (n - 1)
             else headSplit '-' fc.1 == natStr (n - 1))),
         mapfile := s.mapping,
         replication_level := s.replication_level,
         last_char_position := s.last_char_position })
      ds (n - 1) (n - 1) cs.dropLast (by omega) hfilterm (by omega) hfilterf
      (by rw [List.length_dropLast, hcslen]) hdslen hdsne
    rw [show sumLen ds = L from by rw [← flatten_length, hdsflat, hDlen]] at hGw
    rw [goodL_sync hGw] at h
    injection h with h2
    rw [← h2]
    exact ⟨hn2, hGw⟩

theorem countsLeLen_append : ∀ (pre post : List Op) (L n : Nat),
    countsLeLen L n (pre ++ post) = true → countsLeLen L n pre = true := by
  intro pre
  induction pre with
  | nil => intro post L n _; rfl
  | cons op rest ih =>
    intro post L n h
    cases op with
    | addOp =>
      simp only [List.cons_append, countsLeLen, Bool.and_eq_true] at h ⊢
      exact ⟨h.1, ih post L (n + 1) h.2⟩
    | removeOp =>
      simp only [List.cons_append, countsLeLen] at h ⊢
      exact ih post L (n - 1) h

theorem runOps_goodL : ∀ (ops : List Op) (L n : Nat) (s : SH), GoodL L n s →
    countsLeLen L n ops = true →
    ∀ s', runOps s ops = .ok s' → ∃ n', GoodL L n' s' := by
  intro ops
  induction ops with
  | nil =>
    intro L n s hG _ s' h
    injection h with h2
    subst h2
    exact ⟨n, hG⟩
  | cons op rest ih =>
    intro L n s hG hc s' h
    cases op with
    | addOp =>
      simp only [countsLeLen, Bool.and_eq_true, decide_eq_true_eq] at hc
      simp only [runOps] at h
      cases ha : add_shard s with
      | error e => rw [ha] at h; cases h
      | ok s1 =>
        rw [ha] at h
        simp only [] at h
        exact ih L (n + 1) s1 (add_goodL hG hc.1 ha) hc.2 s' h
    | removeOp =>
      simp only [countsLeLen] at hc
      simp only [runOps] at h
      cases hr : remove_shard s with
      | error e => rw [hr] at h; cases h
      | ok s1 =>
        rw [hr] at h
        simp only [] at h
        obtain ⟨_, hG1⟩ := remove_goodL hG hr
        exact ih L (n - 1) s1 hG1 hc s' h

/-! # Claim theorems -/

/-- C4: for any text and any `count ≥ 1`, the split produces exactly
`count` slices and their concatenation in order equals the input text
(slices may be empty when `count > len(text)`). -/
theorem C4_split_round_trip (data : Str) (count : Nat) (h : 1 ≤ count) :
    ∃ ds : List Str, _generate_sharded_data (count : Int) data = .ok ds ∧
      ds.length = count ∧ ds.flatten = data := by
  obtain ⟨ds, hgen, hlen, hflat, -⟩ := gen_spec data count h
  exact ⟨ds, hgen, hlen, hflat⟩

/-- C4 witness: the round trip at `text = "abcdefg"`, `count = 3`, and at
`count = 9 > len(text)`. -/
theorem C4_split_round_trip_witness :
    (∃ ds : List Str, _generate_sharded_data (3 : Int) (str "abcdefg") = .ok ds ∧
      ds.length = 3 ∧ ds.flatten = str "abcdefg") ∧
    (∃ ds : List Str, _generate_sharded_data (9 : Int) (str "abcdefg") = .ok ds ∧
      ds.length = 9 ∧ ds.flatten = str "abcdefg") :=
  ⟨C4_split_round_trip (str "abcdefg") 3 (by decide),
   C4_split_round_trip (str "abcdefg") 9 (by decide)⟩

/-- C9 counterexample: the claim says every `count ≤ 0` fails with an
invalid-argument condition, but at `count = -1` the split returns the empty
list normally (no failure): `range(-1)` is empty and the floor-mod is
nonpositive, so no code path raises. -/
theorem C9_cex : _generate_sharded_data (-1) (str "abc") = .ok [] := rfl

/-- C9 amended: only `count = 0` fails (with `ZeroDivisionError` from
`divmod`, not an explicit invalid-argument guard); every `count < 0`
silently returns the empty list. -/
theorem C9_amended (data : Str) :
    _generate_sharded_data 0 data = .error .zeroDivision ∧
    ∀ c : Int, c < 0 → _generate_sharded_data c data = .ok [] := by
  constructor
  · rfl
  · intro c hc
    unfold _generate_sharded_data
    rw [if_neg (by simp; omega)]
    have htn : c.toNat = 0 := Int.toNat_of_nonpos (by omega)
    rw [htn]
    simp only [List.range_zero, List.map_nil]
    rw [if_neg (by
      have h2 := fmod_nonpos_of_neg data.length hc
      omega)]

/-- C9 amended witness: both clauses at `text = "xy"`, `count = -2`. -/
theorem C9_amended_witness :
    _generate_sharded_data 0 (str "xy") = .error .zeroDivision ∧
    _generate_sharded_data (-2) (str "xy") = .ok [] :=
  ⟨(C9_amended (str "xy")).1, (C9_amended (str "xy")).2 (-2) (by decide)⟩

/-- C5 counterexample: building 2 shards from the one-character text `"a"`
completes and records `shard[0] = {start 0, end 0}` and
`shard[1] = {start 0, end 1}`, so `shard[0].end + 1 = 1 ≠ 0 =
shard[1].start` — the adjacency invariant fails after a completed
operation when a leading slice is empty. -/
theorem C5_cex :
    ∃ s : SH, build_shards (2 : Int) (str "a") initState = .ok (none, s) ∧
      ∃ e0 e1, lookupA s.mapping (natStr 0) = some e0 ∧
        lookupA s.mapping (natStr 1) = some e1 ∧
        e0.stop + 1 ≠ e1.start := by
  refine ⟨_, rfl, ⟨0, 0⟩, ⟨0, 1⟩, by decide, by decide, by decide⟩

/-- C5 (amended): after every completed operation — the initial build and
every completed `add_shard`/`remove_shard` prefix of any call sequence —
the primary shards' recorded offsets satisfy `shard[0].start = 0` and
`shard[i].end + 1 = shard[i+1].start` for every adjacent pair of primary
shard ids, provided every piece count the run uses stays at most the text
length, so that every written slice is non-empty.  The counterexample
shows the adjacency clause fails as soon as a leading slice is empty
(`count > len(text)`). -/
theorem C5_amended (T : Str) (count : Nat) (ops : List Op) (s0 : SH)
    (h1 : 1 ≤ count) (hcnt : count ≤ T.length)
    (hb : build_shards (count : Int) T initState = .ok (none, s0))
    (hops : countsLeLen T.length count ops = true) :
    ∀ pre post : List Op, ops = pre ++ post →
    ∀ s', runOps s0 pre = .ok s' →
      (∀ e0, lookupA s'.mapping (natStr 0) = some e0 → e0.start = 0) ∧
      (∀ i ei ei1, lookupA s'.mapping (natStr i) = some ei →
        lookupA s'.mapping (natStr (i + 1)) = some ei1 →
        ei.stop + 1 = ei1.start) := by
  intro pre post hsplit s' hrun
  have hG0 := build_goodL h1 hcnt hb
  have hpre : countsLeLen T.length count pre = true := by
    rw [hsplit] at hops
    exact countsLeLen_append pre post T.length count hops
  obtain ⟨n', hG'⟩ := runOps_goodL pre T.length count s0 hG0 hpre s' hrun
  exact ⟨hG'.2.2.2.2.1, hG'.2.2.2.2.2⟩

theorem wordBody_oob {s : SH} {key : Str} {m : MapEntry} {index largest : Nat}
    {text : Str} (hfile : lookupA s.files (key ++ str ".txt") = some text)
    (hidx : text.length ≤ index - m.start) :
    wordBody s key m index largest = .error .indexError := by
  unfold wordBody
  rw [hfile]
  simp only []
  rw [show text.length + 2 = (text.length + 1) + 1 from rfl]
  rw [skipPunct_oob text (text.length + 1) _ hidx]

theorem wordLoop_head_err {s : SH} {index largest : Nat} {key : Str}
    {r : List Str} {m : MapEntry} (hm : lookupA s.mapping key = some m)
    (hin : m.start ≤ index ∧ index ≤ m.stop)
    (herr : wordBody s key m index largest = .error .indexError) :
    wordLoop s index largest (key :: r) = .error .indexError := by
  simp only [wordLoop, hm]
  rw [if_pos (by simp [hin.1, hin.2]), herr]

/-- C10 (implicit): for a shard set built from a non-empty text with at
least 2 shards, `shard[0].end` equals the length of shard 0's content, and
`get_word_at_index` at exactly that index selects shard 0, computes a
local offset equal to the content length, and fails with Python's
out-of-range `IndexError` instead of returning a word. -/
theorem C10_end_offset_index_error (count : Nat) (text : Str) (s : SH)
    (h2 : 2 ≤ count) (_ht : text ≠ [])
    (hb : build_shards (count : Int) text initState = .ok (none, s)) :
    ∃ e0 c0, lookupA s.mapping (natStr 0) = some e0 ∧
      lookupA s.files (natStr 0 ++ str ".txt") = some c0 ∧
      e0.stop = c0.length ∧
      get_word_at_index s e0.stop = .error .indexError := by
  obtain ⟨ds, hgen, hdslen, hdsflat, hslices⟩ := gen_spec text count (by omega)
  rw [build_shards_eq hgen] at hb
  have hs : write_map (writeShards 0 ds initState) = s := by
    injection hb with h
    exact congrArg Prod.snd h
  subst hs
  obtain ⟨d, ds', rfl⟩ : ∃ d ds', ds = d :: ds' := by
    cases ds with
    | nil => simp at hdslen; omega
    | cons d ds' => exact ⟨d, ds', rfl⟩
  have h0 := writeShards0_mapping_hit d ds' initState 0 (by simp)
  simp only [List.take_zero, sumLen, List.map_nil, List.sum_nil, List.getD_cons_zero,
    Nat.zero_add, if_true, reduceIte] at h0
  have hfile : lookupA (write_map (writeShards 0 (d :: ds') initState)).files
      (natStr 0 ++ str ".txt") = some d := by
    have hf := writeShards_files_hit (d :: ds') 0 initState 0 (by simp)
    simpa using hf
  have hkeys : (write_map (writeShards 0 (d :: ds') initState)).mapping.map
      Prod.fst = keyList count := by
    show (writeShards 0 (d :: ds') initState).mapping.map Prod.fst = _
    rw [writeShards_keys (d :: ds') 0 0 initState rfl (le_refl 0), hdslen]
    congr 1
    omega
  have hids : ∃ r, get_shard_ids (write_map (writeShards 0 (d :: ds') initState)) =
      natStr 0 :: r := by
    unfold get_shard_ids
    rw [hkeys, filter_nodash_keyList]
    apply sortStr_min_head (mem_keyList.mpr (by omega))
    intro y hy
    obtain ⟨z, hz, rfl⟩ := List.mem_map.mp hy
    rcases Nat.eq_zero_or_pos z with hz0 | hz1
    · subst hz0; exact Or.inl rfl
    · exact Or.inr (strLtB_zero_natStr hz1)
  obtain ⟨r, hr⟩ := hids
  have hparse : ∀ k ∈ get_shard_ids (write_map (writeShards 0 (d :: ds') initState)),
      (parseNat? (id k)).isSome := by
    intro k hk
    unfold get_shard_ids at hk
    rw [hkeys, filter_nodash_keyList] at hk
    obtain ⟨z, hz, rfl⟩ := List.mem_map.mp (mem_sortStr.mp hk)
    simp [parseNat?_natStr]
  obtain ⟨ns, hns, hnslen⟩ := mapParse_ok_of_all id _ hparse
  obtain ⟨x, xs, rfl⟩ : ∃ x xs, ns = x :: xs := by
    cases ns with
    | nil =>
      rw [hr] at hnslen
      simp at hnslen
    | cons x xs => exact ⟨x, xs, rfl⟩
  refine ⟨⟨0, d.length⟩, d, h0, hfile, rfl, ?_⟩
  show get_word_at_index _ d.length = _
  unfold get_word_at_index
  simp only [hns, maxList]
  rw [hr]
  exact wordLoop_head_err h0 (by simp) (wordBody_oob hfile (by simp))

/-- C10 witness: `build_shards(2, "hi ho hu")` gives `shard[0].end = 4`
(`"hi h"` has 4 characters) and `get_word_at_index` at index 4 raises
`IndexError`. -/
theorem C10_end_offset_index_error_witness :
    ∃ e0 c0, lookupA wordState.mapping (natStr 0) = some e0 ∧
      lookupA wordState.files (natStr 0 ++ str ".txt") = some c0 ∧
      e0.stop = c0.length ∧
      get_word_at_index wordState e0.stop = .error .indexError :=
  C10_end_offset_index_error 2 (str "hi ho hu") wordState (by decide) (by decide) rfl

/-- C6 counterexample: at index 99 — outside both shards' `[start, end]`
ranges in `wordState` — the claim says `get_word_at_index` fails with an
invalid-index error; instead the search loop falls through and the call
returns Python `None` normally.  No invalid-index error exists in the
function. -/
theorem C6_cex : get_word_at_index wordState 99 = .ok none := rfl

/-- C6 amended: for every index outside every primary shard's
`[start, end]` range (with at least one primary key, all parseable, so
that `max(int(key) for key in keys)` succeeds), `get_word_at_index`
returns Python `None` — it neither returns a word nor raises an
invalid-index error.  The "reports the valid shard id range" message of
the claim belongs to `get_shard_data`, not to `get_word_at_index`. -/
theorem C6_amended (s : SH) (index : Nat)
    (hne : get_shard_ids s ≠ [])
    (hparse : ∀ k ∈ get_shard_ids s, (parseNat? k).isSome)
    (hout : ∀ k ∈ get_shard_ids s, ∀ m, lookupA s.mapping k = some m →
      ¬ (m.start ≤ index ∧ index ≤ m.stop)) :
    get_word_at_index s index = .ok none := by
  obtain ⟨ns, hns, hnslen⟩ := mapParse_ok_of_all id _
    (fun k hk => by simpa using hparse k hk)
  obtain ⟨x, xs, rfl⟩ : ∃ x xs, ns = x :: xs := by
    cases ns with
    | nil =>
      exfalso
      exact hne (List.length_eq_zero.mp hnslen.symm)
    | cons x xs => exact ⟨x, xs, rfl⟩
  unfold get_word_at_index
  simp only [hns, maxList]
  exact wordLoop_none _ (fun k hk => shard_ids_sub hk) hout

/-- C6 amended witness: `wordState` at index 99. -/
theorem C6_amended_witness : get_word_at_index wordState 99 = .ok none := by
  apply C6_amended wordState 99 (by decide) (by decide)
  intro k hk m hm
  have hks : get_shard_ids wordState = [str "0", str "1"] := rfl
  rw [hks] at hk
  simp only [List.mem_cons, List.not_mem_nil, or_false] at hk
  rcases hk with rfl | rfl
  · have h0 : lookupA wordState.mapping (str "0") = some ⟨0, 4⟩ := rfl
    rw [h0] at hm
    cases hm
    decide
  · have h1 : lookupA wordState.mapping (str "1") = some ⟨5, 8⟩ := rfl
    rw [h1] at hm
    cases hm
    decide

/-- C3: the self-healing copy in `restore_primary_files` copies
`other_files[-1]` — the last replica in directory-listing order — onto the
new primary `maxReplicaShardId`, regardless of that replica's shard id.
In `restoreBugState` the listing is `["1-1.txt", "0-1.txt"]`, so primary
`1.txt` is created from `0-1.txt` (content `"A"`, shard id 0) instead of
from `1-1.txt` (content `"B"`, shard id 1), and the run completes with the
wrong data in primary 1. -/
theorem C3_restore_copies_wrong_replica :
    ∃ s1, restore_primary_files restoreBugState = .ok s1 ∧
      lookupA s1.files (str "1.txt") = some (str "A") ∧
      lookupA restoreBugState.files (str "1-1.txt") = some (str "B") ∧
      lookupA restoreBugState.files (str "0-1.txt") = some (str "A") := by
  refine ⟨_, rfl, rfl, rfl, rfl⟩

/-- C1 counterexample: a validly built 11-shard set over `"abcdefghijk"`
already violates the claim at the empty call sequence: Python's string
sort places id `"10"` between `"1"` and `"2"`, so reading all primaries in
"ascending id order" concatenates to `"abkcdefghij"`, not the original
text. -/
theorem C1_cex :
    ∃ s0, build_shards (11 : Int) (str "abcdefghijk") initState = .ok (none, s0) ∧
      runOps s0 [] = .ok s0 ∧
      load_data_from_shards s0 = .ok (str "abkcdefghij") ∧
      str "abkcdefghij" ≠ str "abcdefghijk" := by
  refine ⟨_, rfl, rfl, rfl, by decide⟩

/-- C1 amended: for any `add_shard`/`remove_shard` sequence starting from a
validly built shard set, `load_data_from_shards` returns the original text
at every point between operations, PROVIDED every primary count reached
stays `≤ 10` (single-digit shard ids, for which Python's string sort
coincides with numeric order); the counterexample shows losslessness
breaks as soon as 11 primaries exist. -/
theorem C1_lossless_rebalance (T : Str) (count : Nat) (ops : List Op) (s0 : SH)
    (h1 : 1 ≤ count) (h10 : count ≤ 10)
    (hb : build_shards (count : Int) T initState = .ok (none, s0))
    (hops : countsLe10 count ops = true) :
    ∀ pre post : List Op, ops = pre ++ post →
      ∀ s', runOps s0 pre = .ok s' → load_data_from_shards s' = .ok T := by
  intro pre post hsplit s' hrun
  obtain ⟨s0', hb', hG0⟩ := @build_good T count h1 h10
  rw [hb'] at hb
  have hs0 : s0' = s0 := by
    injection hb with h
    exact congrArg Prod.snd h
  subst hs0
  have hpre := countsLe10_append pre post count (by rw [hsplit] at hops; exact hops)
  obtain ⟨n', hG'⟩ := runOps_good pre count s0' T hG0 hpre s' hrun
  exact good_load hG'

/-- C1 amended witness: build 2 shards from `"abcd"`, run one `add_shard`;
the read-back after the prefix `[addOp]` is `"abcd"`. -/
theorem C1_lossless_rebalance_witness :
    ∃ s0 s1, build_shards (2 : Int) (str "abcd") initState = .ok (none, s0) ∧
      runOps s0 [Op.addOp] = .ok s1 ∧
      load_data_from_shards s1 = .ok (str "abcd") := by
  refine ⟨_, _, rfl, rfl, ?_⟩
  exact C1_lossless_rebalance (str "abcd") 2 [Op.addOp] _ (by decide) (by decide)
    rfl (by decide) [Op.addOp] [] rfl _ rfl

/-- C5 amended witness: a two-shard build from `"abcd"` followed by a real
`add_shard`; the resulting shards' offsets start at 0 and are adjacent. -/
theorem C5_amended_witness :
    ∃ s0 s1, build_shards (2 : Int) (str "abcd") initState = .ok (none, s0) ∧
      runOps s0 [Op.addOp] = .ok s1 ∧
      (∀ e0, lookupA s1.mapping (natStr 0) = some e0 → e0.start = 0) ∧
      (∀ i ei ei1, lookupA s1.mapping (natStr i) = some ei →
        lookupA s1.mapping (natStr (i + 1)) = some ei1 →
        ei.stop + 1 = ei1.start) := by
  refine ⟨_, _, rfl, rfl, ?_⟩
  exact C5_amended (str "abcd") 2 [Op.addOp] _ (by decide) (by decide) rfl
    (by decide) [Op.addOp] [] rfl _ rfl

/-- C8: for any state `s` on which `sync_replication` completes and returns
`t`, a second `sync_replication` on `t` succeeds and changes nothing: the
mapping, every primary blob and every replica blob are left exactly as the
first call left them. -/
theorem C8_sync_idempotent (s t : SH) (h : sync_replication s = .ok t) :
    sync_replication t = .ok t :=
  fixed_sync (sync_fixed h)

/-- C8 witness: the healthy two-shard state is synced and syncing it again
returns it unchanged. -/
theorem C8_sync_idempotent_witness : sync_replication wordState = .ok wordState :=
  C8_sync_idempotent wordState wordState rfl

/-- C2 counterexample: `sync_replication` derives its replication levels
only from the replica keys that exist in the mapping, never from
`replication_level`.  On a state with `replication_level = 1` and no
replica key at all, the sync completes as the identity and no level-1
replica entry or blob exists afterwards, so the claimed fidelity for every
level `1..L` fails at level 1. -/
theorem C2_cex :
    sync_replication repFreeState = .ok repFreeState ∧
    repFreeState.replication_level = 1 ∧
    str "0" ∈ get_shard_ids repFreeState ∧
    lookupA repFreeState.mapping (str "0" ++ '-' :: natStr 1) = none ∧
    lookupA repFreeState.files (str "0" ++ '-' :: natStr 1 ++ str ".txt") = none :=
  ⟨rfl, rfl, by decide, rfl, rfl⟩

/-- C2 (amended): after any completed `sync_replication`, replica fidelity
holds for every primary shard id and every replication level that still has
at least one replica mapping entry: the replica's mapping entry equals the
primary's and the replica blob equals the primary blob.  Levels in `1..L`
without any surviving replica entry are not regenerated. -/
theorem C2_replica_fidelity (s t : SH) (h : sync_replication s = .ok t)
    (lv : Nat) (hex : ∃ k ∈ get_replication_ids s,
      parseNat? (secondSplit '-' k) = some lv) :
    ∀ p ∈ get_shard_ids t,
      (∃ v, lookupA t.mapping p = some v ∧
        lookupA t.mapping (p ++ '-' :: natStr lv) = some v) ∧
      (∃ c, lookupA t.files (p ++ str ".txt") = some c ∧
        lookupA t.files (p ++ '-' :: natStr lv ++ str ".txt") = some c) := by
  intro p hp
  obtain ⟨k, hk, hklv⟩ := hex
  obtain ⟨u, _, hum, _, hupd⟩ := sync_decomp h
  obtain ⟨_, _, _, _, _, u6, u7⟩ := update_spec hupd
  have hkt : k ∈ get_replication_ids t := by
    obtain ⟨hk1, hk2⟩ := mem_rep_ids.mp hk
    refine mem_rep_ids.mpr ⟨?_, hk2⟩
    refine u7 k ?_
    rw [hum]
    exact hk1
  exact u6 k hkt lv hklv p hp

/-- C2 amended witness: on the one-shard state with a faithful level-1
replica, `sync_replication` completes and the level-1 slot of shard `0`
mirrors its primary. -/
theorem C2_replica_fidelity_witness :
    (∃ v, lookupA rep1State.mapping (str "0") = some v ∧
      lookupA rep1State.mapping (str "0" ++ '-' :: natStr 1) = some v) ∧
    (∃ c, lookupA rep1State.files (str "0" ++ str ".txt") = some c ∧
      lookupA rep1State.files (str "0" ++ '-' :: natStr 1 ++ str ".txt") = some c) :=
  C2_replica_fidelity rep1State rep1State rfl 1
    ⟨str "0-1", by decide, by decide⟩ (str "0") (by decide)

/-- C7 counterexample: `remove_shard` runs `sync_replication` before the
single-shard check, so on a one-shard state with a stale level-1 replica it
raises the cannot-remove-last-shard exception but leaves a state in which
the replica entry and blob have been rewritten: the state is changed. -/
theorem C7_cex :
    remove_shard c7CexState =
      .error (.exception (str "Cannot remove last shard"), rep1State) ∧
    rep1State ≠ c7CexState :=
  ⟨rfl, by decide⟩

/-- C7 (amended): on a sync-stable state (one that `sync_replication` maps
to itself, with its map persisted), `remove_shard` with a single primary
shard raises the cannot-remove-last-shard exception and leaves the state
unchanged, and `remove_replication` at replication level 0 raises the
nothing-to-remove exception and leaves the state unchanged.  Without
sync-stability the initial `sync_replication()` inside either method can
rewrite replicas before the error is raised. -/
theorem C7_boundary_rejection (s : SH) (hsync : sync_replication s = .ok s)
    (hmf : s.mapfile = s.mapping) :
    (∀ k0 n0 c0, get_shard_ids s = [k0] → parseNat? k0 = some n0 →
      lookupA s.files (k0 ++ str ".txt") = some c0 →
      remove_shard s = .error (.exception (str "Cannot remove last shard"), s)) ∧
    (s.replication_level = 0 →
      remove_replication s =
        .error (.exception (str "No replication levels to remove."), s)) := by
  constructor
  · intro k0 n0 c0 hids hn0 hc0
    unfold remove_shard
    rw [hsync]
    simp only []
    rw [reload_eq_self hmf]
    have hload : load_data_from_shards s = .ok (([] : Str) ++ c0) := by
      unfold load_data_from_shards
      rw [hids]
      simp only [loadLoop]
      rw [hc0]
    rw [hload]
    simp only []
    have hmp : mapParse id (get_shard_ids s) = .ok [n0] := by
      rw [hids]
      unfold mapParse
      rw [show parseNat? (id k0) = some n0 from hn0]
      rfl
    rw [hmp]
    simp only []
    rw [if_pos (by rfl)]
  · intro hrl
    unfold remove_replication
    rw [hsync]
    simp only []
    rw [if_pos (by rw [hrl]; rfl)]

/-- C7 amended witness: the healthy replica-free one-shard state at
replication level 0 is rejected by both operations with its state intact. -/
theorem C7_boundary_rejection_witness :
    remove_shard oneShardState =
      .error (.exception (str "Cannot remove last shard"), oneShardState) ∧
    remove_replication oneShardState =
      .error (.exception (str "No replication levels to remove."), oneShardState) := by
  have h := C7_boundary_rejection oneShardState rfl rfl
  exact ⟨h.1 (str "0") 0 (str "abcd") (by decide) (by decide) (by decide), h.2 rfl⟩

end ShardingDemo
